import Mathlib

/-!
# ToolBarLayout (kirigami, `src/toolbarlayout.cpp`): overflow layout of a toolbar

A shallow embedding of `ToolBarLayout::Private::performLayout`, `maybeHideDelegate`,
`layoutStart`, `createDelegates`, `relayout` and `clearActions`.

Conventions of the embedding

* `qreal` is modelled by exact rationals `ℚ` (no rounding); integer and half-integer
  inputs behave exactly as they do in `double`.  Where rounding decides which actions
  are shown, the pass is also given with every operation on `qreal` values rounded by a
  function `rnd` (`performLayoutRounded rnd`): with `rnd` the identity it is the exact
  pass, with `rnd = roundToDouble` it computes on `double`s.
* A `QObject *` action is modelled by its identity, a natural number.  The
  `std::unordered_map<QObject*, unique_ptr<ToolBarLayoutDelegate>>` is modelled by the
  list of its keys together with a total content function; a `ToolBarLayoutDelegate *`
  is the key of its action, so that the same action listed twice shares one delegate,
  as in the C++ code.
* Signals (`Q_EMIT`) have no effect on the modelled state and are left out.
-/

namespace ToolBarLayout

/-- Identity of an action (`QObject *`). -/
abbrev Action := Nat

/-- Display mode of a representation. -/
inductive DisplayMode where
  | Full
  | Icon
  | Hidden
  deriving DecidableEq, Repr

/-- Values of `Qt::LayoutDirection` used by the layout. -/
inductive LayoutDirection where
  | LeftToRight
  | RightToLeft
  deriving DecidableEq, Repr

/-- The flag `Qt::AlignLeft`. -/
def AlignLeft : Nat := 1

/-- The flag `Qt::AlignRight`. -/
def AlignRight : Nat := 2

/-- The flag `Qt::AlignHCenter`. -/
def AlignHCenter : Nat := 4

/-- The test `alignment & flag` of a `Qt::Alignment` value. -/
def testFlag (alignment flag : Nat) : Bool := (alignment &&& flag) != 0

/-- Qt's `qRound(double)`: rounding to the nearest integer, halves upwards. -/
def qRound (d : ℚ) : ℤ := ⌊d + 1 / 2⌋

/-- Qt's `qFuzzyIsNull(double)`: `qAbs(d) <= 0.000000000001`. -/
def qFuzzyIsNull (d : ℚ) : Bool := decide (|d| ≤ 1 / 1000000000000)

/-- Qt's `qFuzzyCompare(double, double)`:
`qAbs(p1 - p2) * 1000000000000. <= qMin(qAbs(p1), qAbs(p2))`. -/
def qFuzzyCompare (p1 p2 : ℚ) : Bool :=
  decide (|p1 - p2| * 1000000000000 ≤ min |p1| |p2|)

/-- Modelled from the spec: the class `ToolBarLayoutDelegate` (`toolbarlayoutdelegate.h`,
not among the sources).  The spec's representation has readiness, a natural full width,
a natural icon width, a natural height, a current display mode and a current position;
its action carries the flags `explicitlyHidden` (here `actionVisible`, negated),
`keepVisible`, the cached "force icon" state (`iconOnly`) and the force-hidden display
hint (`hidden`). -/
structure ToolBarLayoutDelegate where
  actionVisible : Bool
  hidden : Bool
  iconOnly : Bool
  keepVisible : Bool
  ready : Bool
  fullWidth : ℚ
  iconWidth : ℚ
  naturalHeight : ℚ
  mode : DisplayMode
  x : ℚ
  y : ℚ
  deriving DecidableEq, Repr

namespace ToolBarLayoutDelegate

/-- Modelled from the spec: `isVisible()`, the representation is shown Full or Icon. -/
def isVisible (d : ToolBarLayoutDelegate) : Bool := d.mode != DisplayMode.Hidden

/-- Modelled from the spec: `hide()`, mode := Hidden. -/
def hide (d : ToolBarLayoutDelegate) : ToolBarLayoutDelegate :=
  { d with mode := DisplayMode.Hidden }

/-- Modelled from the spec: `showFull()`, mode := Full. -/
def showFull (d : ToolBarLayoutDelegate) : ToolBarLayoutDelegate :=
  { d with mode := DisplayMode.Full }

/-- Modelled from the spec: `showIcon()`, mode := Icon. -/
def showIcon (d : ToolBarLayoutDelegate) : ToolBarLayoutDelegate :=
  { d with mode := DisplayMode.Icon }

/-- Modelled from the spec: `width()`, the width at the chosen mode.  The layout reads it
only while the delegate is visible; for a hidden delegate the full width is returned. -/
def width (d : ToolBarLayoutDelegate) : ℚ :=
  if d.mode = DisplayMode.Icon then d.iconWidth else d.fullWidth

/-- Modelled from the spec: `height()`, the natural height. -/
def height (d : ToolBarLayoutDelegate) : ℚ := d.naturalHeight

/-- Modelled from the spec: `maxHeight()`, the natural height. -/
def maxHeight (d : ToolBarLayoutDelegate) : ℚ := d.naturalHeight

/-- Modelled from the spec: `setPosition(x, y)`. -/
def setPosition (d : ToolBarLayoutDelegate) (x y : ℚ) : ToolBarLayoutDelegate :=
  { d with x := x, y := y }

end ToolBarLayoutDelegate

/-- The part of a `QQuickItem` the layout reads and writes (the "more" button instance). -/
structure QQuickItem where
  width : ℚ
  height : ℚ
  x : ℚ
  y : ℚ
  visible : Bool
  deriving DecidableEq, Repr

/-- State of `ToolBarLayout::Private`, together with the properties of the item `q`
itself that the layout reads (`width`) and publishes (`implicitWidth`, `implicitHeight`)
and the pending `polish()` request. -/
structure Private where
  actions : List Action
  hiddenActions : List Action
  fullDelegate : Option Nat
  iconDelegate : Option Nat
  moreButton : Option Nat
  spacing : ℚ
  alignment : Nat
  visibleWidth : ℚ
  layoutDirection : LayoutDirection
  completed : Bool
  layoutQueued : Bool
  layouting : Bool
  actionsChanged : Bool
  delegateKeys : List Action
  delegates : Action → ToolBarLayoutDelegate
  sortedDelegates : List Action
  moreButtonInstance : Option QQuickItem
  moreButtonIncubator : Bool
  removedActions : List Action
  width : ℚ
  implicitWidth : ℚ
  implicitHeight : ℚ
  polishScheduled : Bool

/-- The function `ToolBarLayout::relayout`: request a polish unless incomplete or inside a pass. -/
def relayout (s : Private) : Private :=
  if s.completed ∧ ¬ s.layouting then { s with polishScheduled := true } else s

/-- The loop of `ToolBarLayout::clearActions` hiding the cached delegate of each action. -/
def hideCached (keys : List Action) :
    List Action → (Action → ToolBarLayoutDelegate) → (Action → ToolBarLayoutDelegate)
  | [], ds => ds
  | a :: rest, ds =>
    hideCached keys rest (if a ∈ keys then Function.update ds a (ds a).hide else ds)

/-- The function `ToolBarLayout::clearActions`. -/
def clearActions (s : Private) : Private :=
  relayout
    { s with
      delegates := hideCached s.delegateKeys s.actions s.delegates
      removedActions := s.removedActions ++ s.actions
      actions := []
      actionsChanged := true }

/-- The function `ToolBarLayout::addAction`. -/
def addAction (s : Private) (action : Action) : Private :=
  relayout { s with actions := s.actions ++ [action], actionsChanged := true }

/-- The loop of `createDelegates` over the actions: a cached delegate is reused, a missing
one is created by `createDelegate` (the representation provider) and cached. -/
def createDelegatesLoop (createDelegate : Action → ToolBarLayoutDelegate) :
    List Action → List Action × (Action → ToolBarLayoutDelegate) × List Action →
      List Action × (Action → ToolBarLayoutDelegate) × List Action
  | [], acc => acc
  | a :: rest, (keys, ds, result) =>
    if a ∈ keys then createDelegatesLoop createDelegate rest (keys, ds, result ++ [a])
    else
      createDelegatesLoop createDelegate rest
        (keys ++ [a], Function.update ds a (createDelegate a), result ++ [a])

/-- The function `ToolBarLayout::Private::createDelegates`: returns the state with the new cache (and
the incubator of the "more" button started when needed) and the list of delegates. -/
def createDelegates (createDelegate : Action → ToolBarLayoutDelegate) (s : Private) :
    Private × List Action :=
  let r := createDelegatesLoop createDelegate s.actions (s.delegateKeys, s.delegates, [])
  let s1 := { s with delegateKeys := r.1, delegates := r.2.1 }
  let s2 :=
    if s1.moreButtonInstance.isNone ∧ ¬ s1.moreButtonIncubator then
      { s1 with moreButtonIncubator := true }
    else s1
  (s2, r.2.2)

/-- The effect on the state of a call that changes the delegate of the action `a` into
`d` (`hide()`, `showIcon()`, `showFull()` on the delegate the pointer refers to). -/
def Private.setDelegate (s : Private) (a : Action) (d : ToolBarLayoutDelegate) : Private :=
  { s with delegates := Function.update s.delegates a d }

/-- The call `hiddenActions.append(action)`. -/
def Private.appendHidden (s : Private) (a : Action) : Private :=
  { s with hiddenActions := s.hiddenActions ++ [a] }

/-- One round of the first loop of `performLayout` (lines 331-351): choose the tentative
mode of `entry` and accumulate `maxWidth` and `maxHeight`. -/
def classify (s : Private) (maxWidth maxHeight : ℚ) (a : Action) : Private × ℚ × ℚ :=
  if ¬ (s.delegates a).actionVisible then
    (s.setDelegate a (s.delegates a).hide, maxWidth, maxHeight)
  else if (s.delegates a).hidden then
    ((s.setDelegate a (s.delegates a).hide).appendHidden a, maxWidth, maxHeight)
  else if (s.delegates a).iconOnly then
    (s.setDelegate a (s.delegates a).showIcon,
      maxWidth + ((s.delegates a).showIcon.width + s.spacing),
      max maxHeight (s.delegates a).showIcon.maxHeight)
  else
    (s.setDelegate a (s.delegates a).showFull,
      maxWidth + ((s.delegates a).showFull.width + s.spacing),
      max maxHeight (s.delegates a).showFull.maxHeight)

/-- The first loop of `performLayout` over `sortedDelegates`. -/
def classifyAll : List Action → Private × ℚ × ℚ → Private × ℚ × ℚ
  | [], acc => acc
  | a :: rest, (s, maxWidth, maxHeight) => classifyAll rest (classify s maxWidth maxHeight a)

/-- The body of the backward loop of `maybeHideDelegate` for a visible previous delegate
`p` that is not keepVisible (lines 536-539): it is hidden, recorded, and its width and
one spacing are given back. -/
def reclaimOne (p : Action) (acc : Private × ℚ) : Private × ℚ :=
  ((acc.1.setDelegate p (acc.1.delegates p).hide).appendHidden p,
    acc.2 - ((acc.1.delegates p).width + acc.1.spacing))

/-- The backward loop of `maybeHideDelegate` (lines 527-548) over the delegates at the
indices `currentIndex, currentIndex - 1, ..., 0`, given here as the list `prev`. -/
def reclaim (a : Action) (totalWidth : ℚ) : List Action → Private × ℚ → Private × ℚ
  | [], acc => acc
  | p :: prev, acc =>
    if ¬ (acc.1.delegates p).isVisible then reclaim a totalWidth prev acc
    else if (acc.1.delegates p).keepVisible then reclaim a totalWidth prev acc
    else
      let r := reclaimOne p acc
      if r.2 + (r.1.delegates a).fullWidth ≤ totalWidth then r
      else if r.2 + (r.1.delegates a).iconWidth ≤ totalWidth then
        (r.1.setDelegate a (r.1.delegates a).showIcon, r.2)
      else reclaim a totalWidth prev r

/-- The delegates the backward loop of `maybeHideDelegate` visits: those at the indices
`sortedDelegates.indexOf(delegate)` down to `0`. -/
def reclaimRange (s : Private) (a : Action) : List Action :=
  (s.sortedDelegates.take (s.sortedDelegates.indexOf a + 1)).reverse

/-- The function `ToolBarLayout::Private::maybeHideDelegate`; the reference parameter `currentWidth`
is returned as the second component. -/
def maybeHideDelegate (s : Private) (a : Action) (currentWidth totalWidth : ℚ) :
    Private × ℚ :=
  if ¬ (s.delegates a).isVisible ∨ currentWidth + (s.delegates a).width < totalWidth then
    (s, currentWidth)
  else if (s.delegates a).keepVisible then
    if currentWidth + (s.delegates a).iconWidth > totalWidth then
      let r := reclaim a totalWidth (reclaimRange s a) (s, currentWidth)
      if r.2 + (r.1.delegates a).width > totalWidth then
        ((r.1.setDelegate a (r.1.delegates a).hide).appendHidden a, r.2)
      else r
    else (s.setDelegate a (s.delegates a).showIcon, currentWidth)
  else ((s.setDelegate a (s.delegates a).hide).appendHidden a, currentWidth)

/-- One round of the overflow loop of `performLayout` (lines 365-373). -/
def overflowStep (totalWidth : ℚ) (acc : Private × ℚ) (a : Action) : Private × ℚ :=
  let r := maybeHideDelegate acc.1 a acc.2 totalWidth
  if (r.1.delegates a).isVisible then (r.1, r.2 + ((r.1.delegates a).width + r.1.spacing))
  else r

/-- The overflow loop of `performLayout` over `sortedDelegates`. -/
def overflowLoop (totalWidth : ℚ) : List Action → Private × ℚ → Private × ℚ
  | [], acc => acc
  | a :: rest, acc => overflowLoop totalWidth rest (overflowStep totalWidth acc a)

/-- The available layout width of `performLayout` (lines 356-359). -/
def layoutWidth (s : Private) (more : QQuickItem) : ℚ :=
  let lw := s.width - (more.width + s.spacing)
  if testFlag s.alignment AlignHCenter then lw - (more.width + s.spacing) else lw

/-- Lines 361-380 of `performLayout`: resolve the overflow, giving the new state and
`visibleActionsWidth`. -/
def resolveOverflow (s : Private) (maxWidth totalWidth : ℚ) : Private × ℚ :=
  if maxWidth > totalWidth then
    let r := overflowLoop totalWidth s.sortedDelegates (s, 0)
    if ¬ qFuzzyIsNull r.2 then (r.1, r.2 - s.spacing) else r
  else (s, maxWidth)

/-- Lines 382-392 of `performLayout`: show and place, or hide, the "more" button. -/
def placeMoreButton (s : Private) (more : QQuickItem) (maxHeight : ℚ) : QQuickItem :=
  if s.hiddenActions ≠ [] then
    { more with
      x := if s.layoutDirection = LayoutDirection.LeftToRight then s.width - more.width else 0
      y := qRound ((maxHeight - more.height) / 2)
      visible := true }
  else { more with visible := false }

/-- The function `ToolBarLayout::Private::layoutStart`. -/
def layoutStart (s : Private) (more : QQuickItem) (layoutWidth : ℚ) : ℚ :=
  let availableWidth := if more.visible then s.width - (more.width + s.spacing) else s.width
  if testFlag s.alignment AlignLeft then
    if s.layoutDirection = LayoutDirection.LeftToRight then 0 else s.width
  else if testFlag s.alignment AlignHCenter then
    s.width / 2 +
      (if s.layoutDirection = LayoutDirection.LeftToRight then -layoutWidth / 2
       else layoutWidth / 2)
  else if testFlag s.alignment AlignRight then
    let offset := availableWidth - layoutWidth
    if s.layoutDirection = LayoutDirection.LeftToRight then offset else s.width - offset
  else 0

/-- One round of the placement loop of `performLayout` (lines 395-411). -/
def place (spacing maxHeight : ℚ) (direction : LayoutDirection)
    (acc : (Action → ToolBarLayoutDelegate) × ℚ) (a : Action) :
    (Action → ToolBarLayoutDelegate) × ℚ :=
  let entry := acc.1 a
  if ¬ entry.isVisible then acc
  else
    let y : ℚ := qRound ((maxHeight - entry.height) / 2)
    if direction = LayoutDirection.LeftToRight then
      (Function.update acc.1 a (entry.setPosition acc.2 y), acc.2 + (entry.width + spacing))
    else
      (Function.update acc.1 a (entry.setPosition (acc.2 - entry.width) y),
        acc.2 - (entry.width + spacing))

/-- The placement loop of `performLayout` over `sortedDelegates`. -/
def placeAll (spacing maxHeight : ℚ) (direction : LayoutDirection) :
    List Action → (Action → ToolBarLayoutDelegate) × ℚ → (Action → ToolBarLayoutDelegate) × ℚ
  | [], acc => acc
  | a :: rest, acc =>
    placeAll spacing maxHeight direction rest (place spacing maxHeight direction acc a)

/-- Lines 325-432 of `performLayout`: the pass proper, run once every delegate is ready
and the "more" button instance `more` exists. -/
def layoutBody (s : Private) (more : QQuickItem) : Private :=
  let maxHeight0 : ℚ := if more.visible then more.height else 0
  let c := classifyAll s.sortedDelegates (s, 0, maxHeight0)
  let s1 := c.1
  let maxWidth := c.2.1 - s1.spacing
  let maxHeight := c.2.2
  let totalWidth := layoutWidth s1 more
  let r := resolveOverflow s1 maxWidth totalWidth
  let s2 := r.1
  let visibleActionsWidth := r.2
  let more1 := placeMoreButton s2 more maxHeight
  let currentX := layoutStart s2 more1 visibleActionsWidth
  let placed :=
    placeAll s2.spacing maxHeight s2.layoutDirection s2.sortedDelegates (s2.delegates, currentX)
  let newVisibleWidth := visibleActionsWidth + (if more1.visible then more1.width else 0)
  { s2 with
    delegates := placed.1
    moreButtonInstance := some more1
    implicitWidth := maxWidth
    implicitHeight := maxHeight
    visibleWidth :=
      if ¬ qFuzzyCompare newVisibleWidth s2.visibleWidth then newVisibleWidth
      else s2.visibleWidth
    actionsChanged := false
    sortedDelegates := []
    layouting := false }

/-- Lines 311-315 of `performLayout`: the pass is entered, the hidden list is cleared and
the delegates of the actions are fetched or created. -/
def beginPass (createDelegate : Action → ToolBarLayoutDelegate) (s : Private) : Private :=
  let cd := createDelegates createDelegate { s with layouting := true, hiddenActions := [] }
  { cd.1 with sortedDelegates := cd.2 }

/-- The function `ToolBarLayout::Private::performLayout`. -/
def performLayout (createDelegate : Action → ToolBarLayoutDelegate) (s : Private) : Private :=
  if s.fullDelegate.isNone ∨ s.iconDelegate.isNone ∨ s.moreButton.isNone then s
  else if s.actions = [] then { s with implicitWidth := 0, implicitHeight := 0 }
  else
    let s1 := beginPass createDelegate s
    let ready := s1.delegateKeys.all fun a => (s1.delegates a).ready
    match s1.moreButtonInstance with
    | none => { s1 with layouting := false }
    | some more => if ¬ ready then { s1 with layouting := false } else layoutBody s1 more

/-- The pass runs to its end (line 432): the templates are set, there is an action, every
cached delegate is ready and the "more" button instance exists. -/
def passCompletes (createDelegate : Action → ToolBarLayoutDelegate) (s : Private) : Bool :=
  s.fullDelegate.isSome && s.iconDelegate.isSome && s.moreButton.isSome &&
    !s.actions.isEmpty && (beginPass createDelegate s).moreButtonInstance.isSome &&
    (beginPass createDelegate s).delegateKeys.all
      fun a => ((beginPass createDelegate s).delegates a).ready

/-- The tentative display mode chosen by the first loop of `performLayout`. -/
def tentativeMode (d : ToolBarLayoutDelegate) : DisplayMode :=
  if ¬ d.actionVisible then DisplayMode.Hidden
  else if d.hidden then DisplayMode.Hidden
  else if d.iconOnly then DisplayMode.Icon
  else DisplayMode.Full

/-- What a visible delegate adds to the running width: its width at the chosen mode plus
one spacing; a hidden delegate adds nothing. -/
def consumed (spacing : ℚ) (d : ToolBarLayoutDelegate) : ℚ :=
  if d.isVisible then d.width + spacing else 0

/-- Sum over the visible entries of a delegate list of (width at the chosen mode +
spacing). -/
def consumedSum (spacing : ℚ) (ds : Action → ToolBarLayoutDelegate) (l : List Action) : ℚ :=
  (l.map fun a => consumed spacing (ds a)).sum

/-- The attributes of a delegate that a layout pass only reads. -/
def ToolBarLayoutDelegate.item (d : ToolBarLayoutDelegate) : ToolBarLayoutDelegate :=
  { d with mode := DisplayMode.Hidden, x := 0, y := 0 }

/-- The part of the state that the loops of a layout pass only read. -/
def Private.frame (s : Private) : Private :=
  { s with delegates := fun a => (s.delegates a).item, hiddenActions := [] }

/-- Item widths and spacing are non-negative. -/
def NonNegative (s : Private) : Prop :=
  0 ≤ s.spacing ∧ ∀ a, 0 ≤ (s.delegates a).fullWidth ∧ 0 ≤ (s.delegates a).iconWidth

/-- Invariant of the overflow loop after the delegates `pre` have been processed: the
visible ones among them consume at most the running width, and the running width less
one spacing fits into `tw` unless none of them is visible. -/
def FitsInv (tw : ℚ) (pre : List Action) (acc : Private × ℚ) : Prop :=
  consumedSum acc.1.spacing acc.1.delegates pre ≤ acc.2 ∧
    (acc.2 - acc.1.spacing ≤ tw ∨ ∀ b ∈ pre, (acc.1.delegates b).isVisible = false)

/-- State and widths after the first loop of the pass run on `s`. -/
def passClassified (s : Private) (more : QQuickItem) : Private × ℚ × ℚ :=
  classifyAll s.sortedDelegates (s, 0, if more.visible then more.height else 0)

/-- State and `visibleActionsWidth` after the overflow resolution of the pass run on `s`. -/
def passResolved (s : Private) (more : QQuickItem) : Private × ℚ :=
  resolveOverflow (passClassified s more).1
    ((passClassified s more).2.1 - (passClassified s more).1.spacing)
    (layoutWidth (passClassified s more).1 more)

/-- Item widths (of the cached delegates and of those the provider creates) and the
spacing are non-negative. -/
def NonNegativeInput (cd : Action → ToolBarLayoutDelegate) (s : Private) : Prop :=
  0 ≤ s.spacing ∧
    ∀ a, (0 ≤ (s.delegates a).fullWidth ∧ 0 ≤ (s.delegates a).iconWidth) ∧
      (0 ≤ (cd a).fullWidth ∧ 0 ≤ (cd a).iconWidth)

/-- A ready delegate with the given flag and widths, of height 20, not yet shown. -/
def sampleDelegate (keepVisible : Bool) (fullWidth iconWidth : ℚ) : ToolBarLayoutDelegate :=
  { actionVisible := true
    hidden := false
    iconOnly := false
    keepVisible := keepVisible
    ready := true
    fullWidth := fullWidth
    iconWidth := iconWidth
    naturalHeight := 20
    mode := DisplayMode.Hidden
    x := 0
    y := 0 }

/-- The "more" button instance of the scenarios: of the given width, height 20, not shown. -/
def sampleMore (moreWidth : ℚ) : QQuickItem :=
  { width := moreWidth, height := 20, x := 0, y := 0, visible := false }

/-- The delegate the representation provider creates in the scenarios (never needed
there, every action has a cached delegate). -/
def sampleProvider : Action → ToolBarLayoutDelegate := fun _ => sampleDelegate false 0 0

/-- A completed component with the given actions, cached delegates, container width,
spacing, width of the "more" button and alignment, laid out left to right, before any
pass. -/
def sampleState (actions : List Action) (delegates : Action → ToolBarLayoutDelegate)
    (width spacing moreWidth : ℚ) (alignment : Nat) : Private :=
  { actions := actions
    hiddenActions := []
    fullDelegate := some 0
    iconDelegate := some 1
    moreButton := some 2
    spacing := spacing
    alignment := alignment
    visibleWidth := 0
    layoutDirection := LayoutDirection.LeftToRight
    completed := true
    layoutQueued := false
    layouting := false
    actionsChanged := false
    delegateKeys := actions
    delegates := delegates
    sortedDelegates := []
    moreButtonInstance := some (sampleMore moreWidth)
    moreButtonIncubator := false
    removedActions := []
    width := width
    implicitWidth := 0
    implicitHeight := 0
    polishScheduled := false }

/-- The spec's scenario: five actions of full width 80 and icon width 32, spacing 8,
indicator width 40, container width 300, action 4 keepVisible. -/
def scenarioKeep (alignment : Nat) : Private :=
  sampleState [0, 1, 2, 3, 4] (fun a => sampleDelegate (a == 4) 80 32) 300 8 40 alignment

/-- Two actions of full width 80 and icon width 32, the second one keepVisible, spacing 8,
indicator width 40, in a container of width 60: nothing fits. -/
def scenarioNarrow : Private :=
  sampleState [0, 1] (fun a => sampleDelegate (a == 1) 80 32) 60 8 40 AlignLeft

/-- A state inside the overflow loop: action 0 (not keepVisible) has been kept at full
width, the keepVisible action 1 is about to be processed. -/
def scenarioStep : Private :=
  { sampleState [0, 1] (fun a => (sampleDelegate (a == 1) 80 32).showFull) 60 8 40 AlignLeft with
    sortedDelegates := [0, 1] }

/-- Two delegate stores agree on what the overflow loop reads: attributes and modes. -/
def Similar (ds es : Action → ToolBarLayoutDelegate) : Prop :=
  ∀ b, (es b).item = (ds b).item ∧ (es b).mode = (ds b).mode

/-- The width of a delegate at its tentative mode. -/
def tentativeWidth (d : ToolBarLayoutDelegate) : ℚ :=
  if tentativeMode d = DisplayMode.Icon then d.iconWidth else d.fullWidth

/-- The state with another container width. -/
def Private.withWidth (s : Private) (w : ℚ) : Private := { s with width := w }

/-- Five actions of full width 80 and icon width 32, none keepVisible, spacing 8,
indicator width 40, in a container of the given width. -/
def scenarioPlain (width : ℚ) : Private :=
  sampleState [0, 1, 2, 3, 4] (fun _ => sampleDelegate false 80 32) width 8 40 AlignLeft

/-- Consistency of the hidden list with the delegates of the list `l`: an action is in
the hidden list exactly when it is in `l`, its delegate is not visible and the action is
not explicitly hidden; the list has no duplicates; a visible delegate of `l` belongs to
an action that is not explicitly hidden. -/
def HiddenInv (l : List Action) (t : Private) : Prop :=
  (∀ a, a ∈ t.hiddenActions ↔
      a ∈ l ∧ (t.delegates a).isVisible = false ∧ (t.delegates a).actionVisible = true) ∧
    t.hiddenActions.Nodup ∧
    ∀ a ∈ l, (t.delegates a).isVisible = true → (t.delegates a).actionVisible = true

/-- A representation provider whose new delegates are not ready yet (asynchronous
creation still under way). -/
def pendingProvider : Action → ToolBarLayoutDelegate :=
  fun _ => { sampleDelegate false 80 32 with ready := false }

/-- The state left by a completed pass over the spec's scenario (actions 2 and 3 hidden,
indicator shown). -/
def scenarioLaidOut : Private := performLayout sampleProvider (scenarioKeep AlignLeft)

/-- The spec's centring scenario: two actions of width 50, spacing 10, container width
300, indicator width 40, alignment centre, left to right. -/
def scenarioCentre : Private :=
  sampleState [0, 1] (fun _ => sampleDelegate false 50 32) 300 10 40 AlignHCenter

/-- The centring scenario with the same action listed twice. -/
def scenarioCentreTwice : Private :=
  sampleState [0, 0] (fun _ => sampleDelegate false 50 32) 300 10 40 AlignHCenter

/-- A degenerate centring scenario: an action of width 0 followed by one of width 100,
spacing 10⁻¹², container width 50, indicator width 10, alignment centre. -/
def scenarioCentreTiny : Private :=
  sampleState [0, 1] (fun a => sampleDelegate false (if a = 0 then 0 else 100) 0) 50
    (1 / 1000000000000) 10 AlignHCenter

/-- The local `visibleActionsWidth` of a completed pass started in state `s`. -/
def visibleActionsWidth (cd : Action → ToolBarLayoutDelegate) (s : Private)
    (more : QQuickItem) : ℚ :=
  (passResolved (beginPass cd s) more).2

/-- The local `maxWidth` of a completed pass started in state `s`, after the trailing
spacing has been removed (line 354); it becomes the implicit width. -/
def maxWidth (cd : Action → ToolBarLayoutDelegate) (s : Private) (more : QQuickItem) : ℚ :=
  (passClassified (beginPass cd s) more).2.1 - s.spacing

/-- The function `ToolBarLayout::removeAction`.  Starting the removal timer has no effect
on the modelled state: time is not modelled, the timer's handler `removalTimeout` is a
transition of its own. -/
def removeAction (s : Private) (action : Action) : Private :=
  relayout
    { s with
      delegates :=
        if action ∈ s.delegateKeys then
          Function.update s.delegates action (s.delegates action).hide
        else s.delegates
      actions := s.actions.erase action
      removedActions := s.removedActions ++ [action]
      actionsChanged := true }

/-- The loop of the removal timer's handler (lines 91-95) over `removedActions`: the key
of an action that is not in the action list is erased from the delegate map. -/
def removalLoop (actions : List Action) : List Action → List Action → List Action
  | [], keys => keys
  | a :: rest, keys =>
    removalLoop actions rest (if a ∉ actions then keys.filter (fun k => k ≠ a) else keys)

/-- The handler of the removal timer's `timeout` signal (lines 90-97). -/
def removalTimeout (s : Private) : Private :=
  { s with
    delegateKeys := removalLoop s.actions s.removedActions s.delegateKeys
    removedActions := [] }

/-- What an entry of the action list adds to `maxWidth` in the first loop: the width at
its tentative mode plus one spacing when it is eligible and not force-hidden. -/
def tentativeConsumed (spacing : ℚ) (d : ToolBarLayoutDelegate) : ℚ :=
  if tentativeMode d ≠ DisplayMode.Hidden then tentativeWidth d + spacing else 0

/-- One action of full width 80 that is explicitly hidden, spacing 8, indicator width 40,
container width 300. -/
def scenarioAllHidden : Private :=
  sampleState [0] (fun _ => { sampleDelegate false 80 32 with actionVisible := false })
    300 8 40 AlignLeft

/-- One action of full width 80 that is force-hidden, spacing 8, indicator width 40,
container width 300. -/
def scenarioAllForceHidden : Private :=
  sampleState [0] (fun _ => { sampleDelegate false 80 32 with hidden := true })
    300 8 40 AlignLeft

/-- The ordering Full > Icon > Hidden of the display modes as a number. -/
def DisplayMode.rank : DisplayMode → Nat
  | DisplayMode.Full => 2
  | DisplayMode.Icon => 1
  | DisplayMode.Hidden => 0

/-- The spec's scenario inside a running pass: the pass requested by a polish has been
entered (`layouting` is set, the delegates are fetched). -/
def scenarioRunning : Private :=
  beginPass sampleProvider { scenarioKeep AlignLeft with polishScheduled := false }

/-- The delegate `e` is the delegate `d` after steps of overflow resolution: its mode is
that of `d`, or Hidden, or Icon when `d` is a visible keepVisible delegate. -/
def Demoted (d e : ToolBarLayoutDelegate) : Prop :=
  e.mode = d.mode ∨ e.mode = DisplayMode.Hidden ∨
    (e.mode = DisplayMode.Icon ∧ d.keepVisible = true ∧ d.isVisible = true)

/-- The mode and the attributes of a delegate, without its position. -/
def ToolBarLayoutDelegate.shape (d : ToolBarLayoutDelegate) : ToolBarLayoutDelegate :=
  { d with x := 0, y := 0 }

/-- The part of the state that overflow resolution reads and writes: the spacing, the
delegate list, the hidden list and the delegates without their positions. -/
def Private.core (s : Private) : Private :=
  { actions := []
    hiddenActions := s.hiddenActions
    fullDelegate := none
    iconDelegate := none
    moreButton := none
    spacing := s.spacing
    alignment := 0
    visibleWidth := 0
    layoutDirection := LayoutDirection.LeftToRight
    completed := false
    layoutQueued := false
    layouting := false
    actionsChanged := false
    delegateKeys := []
    delegates := fun a => (s.delegates a).shape
    sortedDelegates := s.sortedDelegates
    moreButtonInstance := none
    moreButtonIncubator := false
    removedActions := []
    width := 0
    implicitWidth := 0
    implicitHeight := 0
    polishScheduled := false }

/-- Two states agree on what the first loop of the pass reads besides the delegate list:
spacing, hidden list and the attributes of the delegates. -/
def Alike (s t : Private) : Prop :=
  t.spacing = s.spacing ∧ t.hiddenActions = s.hiddenActions ∧
    ∀ b, (t.delegates b).item = (s.delegates b).item

/-- The spec's scenario with an indicator taller (40) than the delegates (20): five
actions of full width 80 and icon width 32, spacing 8, indicator width 40, container
width 300, action 4 keepVisible, the indicator not shown before the first pass. -/
def scenarioTall : Private :=
  { scenarioKeep AlignLeft with
    moreButtonInstance := some { sampleMore 40 with height := 40 } }

/-- Three entries of full width 80, spacing 8, indicator width 40, container width 400,
everything fits; the action 0 is listed twice, around the action 1. -/
def scenarioRepeated : Private :=
  sampleState [0, 1, 0] (fun _ => sampleDelegate false 80 32) 400 8 40 AlignLeft

/-- A degenerate right-aligned scenario: an action of width 0 followed by one of width
100, spacing 10⁻¹², indicator width 10, container width 10 + 1.5 · 10⁻¹². -/
def scenarioRightTiny : Private :=
  sampleState [0, 1] (fun a => sampleDelegate false (if a = 0 then 0 else 100) 0)
    (10 + 3 / 2000000000000) (1 / 1000000000000) 10 AlignRight

/-- Two entries of full width 80 for the same action 0, spacing 8, indicator width 40,
container width 200 (available width 152): room for one entry only. -/
def scenarioTwice : Private :=
  sampleState [0, 0] (fun _ => sampleDelegate false 80 32) 200 8 40 AlignLeft

/-- The number of indices `i < n` with `i * (w + spacing) + w < totalWidth`. -/
def fitCount (w spacing totalWidth : ℚ) (n : Nat) : Nat :=
  ((List.range n).filter fun (i : Nat) => decide ((i : ℚ) * (w + spacing) + w < totalWidth)).length

/-- Rounding of a non-negative rational to an integer: to the nearest one, a tie to the
even one. -/
def roundHalfEven (q : ℚ) : ℤ :=
  if q - ⌊q⌋ < 1 / 2 then ⌊q⌋
  else if 1 / 2 < q - ⌊q⌋ then ⌊q⌋ + 1
  else if ⌊q⌋ % 2 = 0 then ⌊q⌋
  else ⌊q⌋ + 1

/-- Scaling of a positive rational by powers of two into the interval [2^52, 2^53): the
scaled value and the scale `2^e` with `x = value * scale`; at most `fuel` steps. -/
def normalise : Nat → ℚ → ℚ → ℚ × ℚ
  | 0, x, scale => (x, scale)
  | fuel + 1, x, scale =>
    if x < 4503599627370496 then normalise fuel (x * 2) (scale / 2)
    else if 9007199254740992 ≤ x then normalise fuel (x / 2) (scale * 2)
    else (x, scale)

/-- The value of a real number as a `double` (`qreal`): IEEE 754 binary64 rounding to the
nearest value with a significand of 53 bits, ties to even.  Overflow to infinity and the
subnormal range are not modelled (the exponent is not bounded). -/
def roundToDouble (x : ℚ) : ℚ :=
  if x = 0 then 0
  else if x < 0 then -((roundHalfEven (normalise 2200 |x| 1).1 : ℚ) * (normalise 2200 |x| 1).2)
  else (roundHalfEven (normalise 2200 |x| 1).1 : ℚ) * (normalise 2200 |x| 1).2

/-- The function `qFuzzyIsNull(double)` with the constant as the arithmetic `rnd` gives it. -/
def qFuzzyIsNullRounded (rnd : ℚ → ℚ) (d : ℚ) : Bool := decide (|d| ≤ rnd (1 / 1000000000000))

/-- The function `qFuzzyCompare(double, double)`, every operation rounded by `rnd`. -/
def qFuzzyCompareRounded (rnd : ℚ → ℚ) (p1 p2 : ℚ) : Bool :=
  decide (rnd (|rnd (p1 - p2)| * 1000000000000) ≤ min |p1| |p2|)

/-- One round of the first loop of `performLayout` (lines 331-351) in the arithmetic
`rnd`: `maxWidth += entry->width() + spacing` rounds the inner sum and then the outer
one. -/
def classifyRounded (rnd : ℚ → ℚ) (s : Private) (maxWidth maxHeight : ℚ) (a : Action) :
    Private × ℚ × ℚ :=
  if ¬ (s.delegates a).actionVisible then
    (s.setDelegate a (s.delegates a).hide, maxWidth, maxHeight)
  else if (s.delegates a).hidden then
    ((s.setDelegate a (s.delegates a).hide).appendHidden a, maxWidth, maxHeight)
  else if (s.delegates a).iconOnly then
    (s.setDelegate a (s.delegates a).showIcon,
      rnd (maxWidth + rnd ((s.delegates a).showIcon.width + s.spacing)),
      max maxHeight (s.delegates a).showIcon.maxHeight)
  else
    (s.setDelegate a (s.delegates a).showFull,
      rnd (maxWidth + rnd ((s.delegates a).showFull.width + s.spacing)),
      max maxHeight (s.delegates a).showFull.maxHeight)

/-- The first loop of `performLayout` over `sortedDelegates` in the arithmetic `rnd`. -/
def classifyAllRounded (rnd : ℚ → ℚ) : List Action → Private × ℚ × ℚ → Private × ℚ × ℚ
  | [], acc => acc
  | a :: rest, (s, maxWidth, maxHeight) =>
    classifyAllRounded rnd rest (classifyRounded rnd s maxWidth maxHeight a)

/-- The body of the backward loop of `maybeHideDelegate` (lines 536-539) in the
arithmetic `rnd`: `currentWidth -= (width + spacing)`. -/
def reclaimOneRounded (rnd : ℚ → ℚ) (p : Action) (acc : Private × ℚ) : Private × ℚ :=
  ((acc.1.setDelegate p (acc.1.delegates p).hide).appendHidden p,
    rnd (acc.2 - rnd ((acc.1.delegates p).width + acc.1.spacing)))

/-- The backward loop of `maybeHideDelegate` (lines 527-548) in the arithmetic `rnd`. -/
def reclaimRounded (rnd : ℚ → ℚ) (a : Action) (totalWidth : ℚ) :
    List Action → Private × ℚ → Private × ℚ
  | [], acc => acc
  | p :: prev, acc =>
    if ¬ (acc.1.delegates p).isVisible then reclaimRounded rnd a totalWidth prev acc
    else if (acc.1.delegates p).keepVisible then reclaimRounded rnd a totalWidth prev acc
    else
      let r := reclaimOneRounded rnd p acc
      if rnd (r.2 + (r.1.delegates a).fullWidth) ≤ totalWidth then r
      else if rnd (r.2 + (r.1.delegates a).iconWidth) ≤ totalWidth then
        (r.1.setDelegate a (r.1.delegates a).showIcon, r.2)
      else reclaimRounded rnd a totalWidth prev r

/-- The function `ToolBarLayout::Private::maybeHideDelegate` in the arithmetic `rnd`: every sum
that is compared with `totalWidth` is rounded first. -/
def maybeHideDelegateRounded (rnd : ℚ → ℚ) (s : Private) (a : Action)
    (currentWidth totalWidth : ℚ) : Private × ℚ :=
  if ¬ (s.delegates a).isVisible ∨ rnd (currentWidth + (s.delegates a).width) < totalWidth then
    (s, currentWidth)
  else if (s.delegates a).keepVisible then
    if rnd (currentWidth + (s.delegates a).iconWidth) > totalWidth then
      let r := reclaimRounded rnd a totalWidth (reclaimRange s a) (s, currentWidth)
      if rnd (r.2 + (r.1.delegates a).width) > totalWidth then
        ((r.1.setDelegate a (r.1.delegates a).hide).appendHidden a, r.2)
      else r
    else (s.setDelegate a (s.delegates a).showIcon, currentWidth)
  else ((s.setDelegate a (s.delegates a).hide).appendHidden a, currentWidth)

/-- One round of the overflow loop of `performLayout` (lines 365-373) in the arithmetic
`rnd`: `visibleActionsWidth += delegate->width() + spacing`. -/
def overflowStepRounded (rnd : ℚ → ℚ) (totalWidth : ℚ) (acc : Private × ℚ) (a : Action) :
    Private × ℚ :=
  let r := maybeHideDelegateRounded rnd acc.1 a acc.2 totalWidth
  if (r.1.delegates a).isVisible then
    (r.1, rnd (r.2 + rnd ((r.1.delegates a).width + r.1.spacing)))
  else r

/-- The overflow loop of `performLayout` over `sortedDelegates` in the arithmetic `rnd`. -/
def overflowLoopRounded (rnd : ℚ → ℚ) (totalWidth : ℚ) :
    List Action → Private × ℚ → Private × ℚ
  | [], acc => acc
  | a :: rest, acc =>
    overflowLoopRounded rnd totalWidth rest (overflowStepRounded rnd totalWidth acc a)

/-- The available layout width of `performLayout` (lines 356-359) in the arithmetic `rnd`. -/
def layoutWidthRounded (rnd : ℚ → ℚ) (s : Private) (more : QQuickItem) : ℚ :=
  let lw := rnd (s.width - rnd (more.width + s.spacing))
  if testFlag s.alignment AlignHCenter then rnd (lw - rnd (more.width + s.spacing)) else lw

/-- Lines 361-380 of `performLayout` in the arithmetic `rnd`. -/
def resolveOverflowRounded (rnd : ℚ → ℚ) (s : Private) (maxWidth totalWidth : ℚ) :
    Private × ℚ :=
  if maxWidth > totalWidth then
    let r := overflowLoopRounded rnd totalWidth s.sortedDelegates (s, 0)
    if ¬ qFuzzyIsNullRounded rnd r.2 then (r.1, rnd (r.2 - s.spacing)) else r
  else (s, maxWidth)

/-- Lines 382-392 of `performLayout` in the arithmetic `rnd`. -/
def placeMoreButtonRounded (rnd : ℚ → ℚ) (s : Private) (more : QQuickItem) (maxHeight : ℚ) :
    QQuickItem :=
  if s.hiddenActions ≠ [] then
    { more with
      x :=
        if s.layoutDirection = LayoutDirection.LeftToRight then rnd (s.width - more.width)
        else 0
      y := qRound (rnd (rnd (maxHeight - more.height) / 2))
      visible := true }
  else { more with visible := false }

/-- The function `ToolBarLayout::Private::layoutStart` in the arithmetic `rnd`. -/
def layoutStartRounded (rnd : ℚ → ℚ) (s : Private) (more : QQuickItem) (layoutWidth : ℚ) : ℚ :=
  let availableWidth :=
    if more.visible then rnd (s.width - rnd (more.width + s.spacing)) else s.width
  if testFlag s.alignment AlignLeft then
    if s.layoutDirection = LayoutDirection.LeftToRight then 0 else s.width
  else if testFlag s.alignment AlignHCenter then
    rnd (rnd (s.width / 2) +
      (if s.layoutDirection = LayoutDirection.LeftToRight then rnd (-layoutWidth / 2)
       else rnd (layoutWidth / 2)))
  else if testFlag s.alignment AlignRight then
    let offset := rnd (availableWidth - layoutWidth)
    if s.layoutDirection = LayoutDirection.LeftToRight then offset else rnd (s.width - offset)
  else 0

/-- One round of the placement loop of `performLayout` (lines 395-411) in the arithmetic
`rnd`. -/
def placeRounded (rnd : ℚ → ℚ) (spacing maxHeight : ℚ) (direction : LayoutDirection)
    (acc : (Action → ToolBarLayoutDelegate) × ℚ) (a : Action) :
    (Action → ToolBarLayoutDelegate) × ℚ :=
  let entry := acc.1 a
  if ¬ entry.isVisible then acc
  else
    let y : ℚ := qRound (rnd (rnd (maxHeight - entry.height) / 2))
    if direction = LayoutDirection.LeftToRight then
      (Function.update acc.1 a (entry.setPosition acc.2 y),
        rnd (acc.2 + rnd (entry.width + spacing)))
    else
      (Function.update acc.1 a (entry.setPosition (rnd (acc.2 - entry.width)) y),
        rnd (acc.2 - rnd (entry.width + spacing)))

/-- The placement loop of `performLayout` over `sortedDelegates` in the arithmetic `rnd`. -/
def placeAllRounded (rnd : ℚ → ℚ) (spacing maxHeight : ℚ) (direction : LayoutDirection) :
    List Action → (Action → ToolBarLayoutDelegate) × ℚ → (Action → ToolBarLayoutDelegate) × ℚ
  | [], acc => acc
  | a :: rest, acc =>
    placeAllRounded rnd spacing maxHeight direction rest
      (placeRounded rnd spacing maxHeight direction acc a)

/-- Lines 325-432 of `performLayout` in the arithmetic `rnd`: the pass proper with every
operation on `qreal` values rounded by `rnd`. -/
def layoutBodyRounded (rnd : ℚ → ℚ) (s : Private) (more : QQuickItem) : Private :=
  let maxHeight0 : ℚ := if more.visible then more.height else 0
  let c := classifyAllRounded rnd s.sortedDelegates (s, 0, maxHeight0)
  let s1 := c.1
  let maxWidth := rnd (c.2.1 - s1.spacing)
  let maxHeight := c.2.2
  let totalWidth := layoutWidthRounded rnd s1 more
  let r := resolveOverflowRounded rnd s1 maxWidth totalWidth
  let s2 := r.1
  let visibleActionsWidth := r.2
  let more1 := placeMoreButtonRounded rnd s2 more maxHeight
  let currentX := layoutStartRounded rnd s2 more1 visibleActionsWidth
  let placed :=
    placeAllRounded rnd s2.spacing maxHeight s2.layoutDirection s2.sortedDelegates
      (s2.delegates, currentX)
  let newVisibleWidth :=
    rnd (visibleActionsWidth + (if more1.visible then more1.width else 0))
  { s2 with
    delegates := placed.1
    moreButtonInstance := some more1
    implicitWidth := maxWidth
    implicitHeight := maxHeight
    visibleWidth :=
      if ¬ qFuzzyCompareRounded rnd newVisibleWidth s2.visibleWidth then newVisibleWidth
      else s2.visibleWidth
    actionsChanged := false
    sortedDelegates := []
    layouting := false }

/-- The function `ToolBarLayout::Private::performLayout` in the arithmetic `rnd`; with `rnd` the
identity it is `performLayout`, with `rnd = roundToDouble` it computes on `double`s. -/
def performLayoutRounded (rnd : ℚ → ℚ) (createDelegate : Action → ToolBarLayoutDelegate)
    (s : Private) : Private :=
  if s.fullDelegate.isNone ∨ s.iconDelegate.isNone ∨ s.moreButton.isNone then s
  else if s.actions = [] then { s with implicitWidth := 0, implicitHeight := 0 }
  else
    let s1 := beginPass createDelegate s
    let ready := s1.delegateKeys.all fun a => (s1.delegates a).ready
    match s1.moreButtonInstance with
    | none => { s1 with layouting := false }
    | some more =>
      if ¬ ready then { s1 with layouting := false } else layoutBodyRounded rnd s1 more

/-- The width the first loop of `performLayout` accumulates for entries of the widths
`ws` that are all shown, in the arithmetic `rnd`: `maxWidth += width + spacing` for each
entry, then `maxWidth -= spacing`. -/
def accumulatedWidth (rnd : ℚ → ℚ) (spacing : ℚ) (ws : List ℚ) : ℚ :=
  rnd (ws.foldl (fun acc w => rnd (acc + rnd (w + spacing))) 0 - spacing)

/-- The number of leading entries the overflow loop keeps among `n` visible entries of
one width `w` that are not keepVisible, in the arithmetic `rnd`, from the running width
`currentWidth`: an entry is kept while `currentWidth + w < totalWidth`, and adds
`w + spacing` to the running width. -/
def keptRun (rnd : ℚ → ℚ) (w spacing totalWidth : ℚ) : Nat → ℚ → Nat
  | 0, _ => 0
  | n + 1, currentWidth =>
    if rnd (currentWidth + w) < totalWidth then
      keptRun rnd w spacing totalWidth n (rnd (currentWidth + rnd (w + spacing))) + 1
    else 0

/-- A `double` of the given decimal value. -/
def asDouble (x : ℚ) : ℚ := roundToDouble x

/-- State and widths after the first loop of the pass run on `s` in the arithmetic `rnd`. -/
def passClassifiedRounded (rnd : ℚ → ℚ) (s : Private) (more : QQuickItem) : Private × ℚ × ℚ :=
  classifyAllRounded rnd s.sortedDelegates (s, 0, if more.visible then more.height else 0)

/-- State and `visibleActionsWidth` after the overflow resolution of the pass run on `s`
in the arithmetic `rnd`. -/
def passResolvedRounded (rnd : ℚ → ℚ) (s : Private) (more : QQuickItem) : Private × ℚ :=
  resolveOverflowRounded rnd (passClassifiedRounded rnd s more).1
    (rnd ((passClassifiedRounded rnd s more).2.1 - (passClassifiedRounded rnd s more).1.spacing))
    (layoutWidthRounded rnd (passClassifiedRounded rnd s more).1 more)

/-- The local `visibleActionsWidth` of a completed pass started in state `s`, in the
arithmetic `rnd`. -/
def visibleActionsWidthRounded (rnd : ℚ → ℚ) (cd : Action → ToolBarLayoutDelegate) (s : Private)
    (more : QQuickItem) : ℚ :=
  (passResolvedRounded rnd (beginPass cd s) more).2

/-- Two actions of width 10.4, spacing 8.2, indicator width 40, container width 77.2, all
values as `double`s: the exact sum 10.4 + 8.2 + 10.4 of these values is 29 and the exact
available width is a little above 29. -/
def scenarioExactFit : Private :=
  sampleState [0, 1] (fun _ => sampleDelegate false (asDouble (52 / 5)) 0)
    (asDouble (386 / 5)) (asDouble (41 / 5)) 40 AlignLeft

/-- Six actions of width 29.1, spacing 7.7, indicator width 24, container width 134.4, all
values as `double`s. -/
def scenarioBoundary : Private :=
  sampleState [0, 1, 2, 3, 4, 5] (fun _ => sampleDelegate false (asDouble (291 / 10)) 0)
    (asDouble (672 / 5)) (asDouble (77 / 10)) 24 AlignLeft

/-! ## Setters and the frame of a pass -/

@[simp] theorem setDelegate_delegates (s : Private) (a : Action) (d : ToolBarLayoutDelegate) :
    (s.setDelegate a d).delegates = Function.update s.delegates a d := rfl

@[simp] theorem setDelegate_hiddenActions (s : Private) (a : Action)
    (d : ToolBarLayoutDelegate) : (s.setDelegate a d).hiddenActions = s.hiddenActions := rfl

@[simp] theorem setDelegate_spacing (s : Private) (a : Action) (d : ToolBarLayoutDelegate) :
    (s.setDelegate a d).spacing = s.spacing := rfl

@[simp] theorem setDelegate_sortedDelegates (s : Private) (a : Action)
    (d : ToolBarLayoutDelegate) : (s.setDelegate a d).sortedDelegates = s.sortedDelegates := rfl

@[simp] theorem appendHidden_delegates (s : Private) (a : Action) :
    (s.appendHidden a).delegates = s.delegates := rfl

@[simp] theorem appendHidden_hiddenActions (s : Private) (a : Action) :
    (s.appendHidden a).hiddenActions = s.hiddenActions ++ [a] := rfl

@[simp] theorem appendHidden_spacing (s : Private) (a : Action) :
    (s.appendHidden a).spacing = s.spacing := rfl

@[simp] theorem appendHidden_sortedDelegates (s : Private) (a : Action) :
    (s.appendHidden a).sortedDelegates = s.sortedDelegates := rfl

@[simp] theorem item_hide (d : ToolBarLayoutDelegate) : d.hide.item = d.item := rfl

@[simp] theorem item_showFull (d : ToolBarLayoutDelegate) : d.showFull.item = d.item := rfl

@[simp] theorem item_showIcon (d : ToolBarLayoutDelegate) : d.showIcon.item = d.item := rfl

@[simp] theorem item_setPosition (d : ToolBarLayoutDelegate) (x y : ℚ) :
    (d.setPosition x y).item = d.item := rfl

theorem item_update (ds : Action → ToolBarLayoutDelegate) (a : Action)
    (d : ToolBarLayoutDelegate) (hd : d.item = (ds a).item) (b : Action) :
    (Function.update ds a d b).item = (ds b).item := by
  by_cases hb : b = a
  · subst hb; simpa using hd
  · simp [Function.update_noteq hb]

@[simp] theorem setDelegate_frame (s : Private) (a : Action) (d : ToolBarLayoutDelegate)
    (hd : d.item = (s.delegates a).item) : (s.setDelegate a d).frame = s.frame := by
  have hf : (fun b => (Function.update s.delegates a d b).item) =
      fun b => (s.delegates b).item := funext (item_update s.delegates a d hd)
  simp only [Private.frame, Private.setDelegate, hf]

@[simp] theorem appendHidden_frame (s : Private) (a : Action) :
    (s.appendHidden a).frame = s.frame := rfl

theorem frame_spacing {s t : Private} (h : t.frame = s.frame) : t.spacing = s.spacing := by
  have h1 := congrArg Private.spacing h
  exact h1

theorem frame_sortedDelegates {s t : Private} (h : t.frame = s.frame) :
    t.sortedDelegates = s.sortedDelegates := by
  have h1 := congrArg Private.sortedDelegates h
  exact h1

theorem frame_item {s t : Private} (h : t.frame = s.frame) (a : Action) :
    (t.delegates a).item = (s.delegates a).item :=
  congrFun (congrArg Private.delegates h) a

theorem item_keepVisible {d e : ToolBarLayoutDelegate} (h : e.item = d.item) :
    e.keepVisible = d.keepVisible := by
  have h1 := congrArg ToolBarLayoutDelegate.keepVisible h
  exact h1

theorem item_fullWidth {d e : ToolBarLayoutDelegate} (h : e.item = d.item) :
    e.fullWidth = d.fullWidth := by
  have h1 := congrArg ToolBarLayoutDelegate.fullWidth h
  exact h1

theorem item_iconWidth {d e : ToolBarLayoutDelegate} (h : e.item = d.item) :
    e.iconWidth = d.iconWidth := by
  have h1 := congrArg ToolBarLayoutDelegate.iconWidth h
  exact h1

theorem item_actionVisible {d e : ToolBarLayoutDelegate} (h : e.item = d.item) :
    e.actionVisible = d.actionVisible := by
  have h1 := congrArg ToolBarLayoutDelegate.actionVisible h
  exact h1

theorem item_hidden {d e : ToolBarLayoutDelegate} (h : e.item = d.item) :
    e.hidden = d.hidden := by
  have h1 := congrArg ToolBarLayoutDelegate.hidden h
  exact h1

theorem item_iconOnly {d e : ToolBarLayoutDelegate} (h : e.item = d.item) :
    e.iconOnly = d.iconOnly := by
  have h1 := congrArg ToolBarLayoutDelegate.iconOnly h
  exact h1

theorem classify_frame (s : Private) (mw mh : ℚ) (a : Action) :
    (classify s mw mh a).1.frame = s.frame := by
  unfold classify
  split_ifs <;> simp

theorem classifyAll_frame (l : List Action) (acc : Private × ℚ × ℚ) :
    (classifyAll l acc).1.frame = acc.1.frame := by
  induction l generalizing acc with
  | nil => rfl
  | cons a rest ih =>
    obtain ⟨s, mw, mh⟩ := acc
    rw [classifyAll, ih, classify_frame]

theorem reclaimOne_frame (p : Action) (acc : Private × ℚ) :
    (reclaimOne p acc).1.frame = acc.1.frame := by
  simp [reclaimOne]

theorem reclaim_frame (a : Action) (tw : ℚ) (prev : List Action) (acc : Private × ℚ) :
    (reclaim a tw prev acc).1.frame = acc.1.frame := by
  induction prev generalizing acc with
  | nil => rfl
  | cons p prev ih =>
    rw [reclaim]
    dsimp only
    split_ifs <;>
      first
        | exact ih acc
        | exact reclaimOne_frame p acc
        | (rw [ih, reclaimOne_frame])
        | simp [reclaimOne_frame]

theorem maybeHideDelegate_frame (s : Private) (a : Action) (cw tw : ℚ) :
    (maybeHideDelegate s a cw tw).1.frame = s.frame := by
  unfold maybeHideDelegate
  dsimp only
  split_ifs <;> simp [reclaim_frame]

theorem overflowStep_frame (tw : ℚ) (acc : Private × ℚ) (a : Action) :
    (overflowStep tw acc a).1.frame = acc.1.frame := by
  unfold overflowStep
  dsimp only
  split_ifs <;> simp [maybeHideDelegate_frame]

theorem overflowLoop_frame (tw : ℚ) (l : List Action) (acc : Private × ℚ) :
    (overflowLoop tw l acc).1.frame = acc.1.frame := by
  induction l generalizing acc with
  | nil => rfl
  | cons a rest ih => rw [overflowLoop, ih, overflowStep_frame]

theorem resolveOverflow_frame (s : Private) (mw tw : ℚ) :
    (resolveOverflow s mw tw).1.frame = s.frame := by
  unfold resolveOverflow
  dsimp only
  split_ifs <;> simp [overflowLoop_frame]

/-! ## Sums of consumed widths -/

@[simp] theorem consumedSum_nil (sp : ℚ) (ds : Action → ToolBarLayoutDelegate) :
    consumedSum sp ds [] = 0 := rfl

@[simp] theorem consumedSum_cons (sp : ℚ) (ds : Action → ToolBarLayoutDelegate) (a : Action)
    (l : List Action) :
    consumedSum sp ds (a :: l) = consumed sp (ds a) + consumedSum sp ds l := by
  simp [consumedSum]

theorem consumedSum_append (sp : ℚ) (ds : Action → ToolBarLayoutDelegate)
    (l m : List Action) :
    consumedSum sp ds (l ++ m) = consumedSum sp ds l + consumedSum sp ds m := by
  simp [consumedSum]

theorem consumedSum_update_le (sp : ℚ) (ds : Action → ToolBarLayoutDelegate) (a : Action)
    (d : ToolBarLayoutDelegate) (h : consumed sp d ≤ consumed sp (ds a)) (l : List Action) :
    consumedSum sp (Function.update ds a d) l ≤ consumedSum sp ds l := by
  induction l with
  | nil => simp
  | cons b l ih =>
    simp only [consumedSum_cons]
    by_cases hb : b = a
    · subst hb
      simp only [Function.update_same]
      linarith
    · simp only [Function.update_noteq hb]
      linarith

theorem consumedSum_update_sub_le (sp : ℚ) (ds : Action → ToolBarLayoutDelegate) (a : Action)
    (d : ToolBarLayoutDelegate) (h0 : consumed sp d = 0) (hn : 0 ≤ consumed sp (ds a))
    (l : List Action) (ha : a ∈ l) :
    consumedSum sp (Function.update ds a d) l ≤ consumedSum sp ds l - consumed sp (ds a) := by
  induction l with
  | nil => simp at ha
  | cons b l ih =>
    simp only [consumedSum_cons]
    by_cases hb : b = a
    · subst hb
      have h1 := consumedSum_update_le sp ds b d (by rw [h0]; exact hn) l
      simp only [Function.update_same, h0]
      linarith
    · have ha1 : a ∈ l := by
        rcases List.mem_cons.1 ha with h | h
        · exact absurd h.symm hb
        · exact h
      have h1 := ih ha1
      simp only [Function.update_noteq hb]
      linarith

theorem NonNegative.of_frame {s t : Private} (h : t.frame = s.frame) (hs : NonNegative s) :
    NonNegative t := by
  refine ⟨by rw [frame_spacing h]; exact hs.1, fun a => ?_⟩
  rw [item_fullWidth (frame_item h a), item_iconWidth (frame_item h a)]
  exact hs.2 a

theorem width_nonneg (d : ToolBarLayoutDelegate) (hf : 0 ≤ d.fullWidth) (hi : 0 ≤ d.iconWidth) :
    0 ≤ d.width := by
  unfold ToolBarLayoutDelegate.width
  split_ifs <;> assumption

theorem consumed_nonneg (sp : ℚ) (d : ToolBarLayoutDelegate) (hs : 0 ≤ sp)
    (hf : 0 ≤ d.fullWidth) (hi : 0 ≤ d.iconWidth) : 0 ≤ consumed sp d := by
  unfold consumed
  split_ifs
  · have := width_nonneg d hf hi
    linarith
  · exact le_refl 0

theorem NonNegative.consumed {s : Private} (hs : NonNegative s) (a : Action) :
    0 ≤ consumed s.spacing (s.delegates a) :=
  consumed_nonneg _ _ hs.1 (hs.2 a).1 (hs.2 a).2

@[simp] theorem isVisible_hide (d : ToolBarLayoutDelegate) : d.hide.isVisible = false := rfl

@[simp] theorem isVisible_showIcon (d : ToolBarLayoutDelegate) : d.showIcon.isVisible = true :=
  rfl

@[simp] theorem isVisible_showFull (d : ToolBarLayoutDelegate) : d.showFull.isVisible = true :=
  rfl

@[simp] theorem consumed_hide (sp : ℚ) (d : ToolBarLayoutDelegate) : consumed sp d.hide = 0 :=
  rfl

@[simp] theorem width_showIcon (d : ToolBarLayoutDelegate) : d.showIcon.width = d.iconWidth :=
  rfl

@[simp] theorem width_showFull (d : ToolBarLayoutDelegate) : d.showFull.width = d.fullWidth :=
  rfl

theorem consumed_of_visible (sp : ℚ) (d : ToolBarLayoutDelegate) (h : d.isVisible = true) :
    consumed sp d = d.width + sp := by
  simp [consumed, h]

theorem consumed_of_not_visible (sp : ℚ) (d : ToolBarLayoutDelegate)
    (h : ¬ d.isVisible = true) : consumed sp d = 0 := by
  simp [consumed, h]

/-! ## The fits invariant of the overflow loop -/

@[simp] theorem reclaimOne_delegates (p : Action) (acc : Private × ℚ) :
    (reclaimOne p acc).1.delegates =
      Function.update acc.1.delegates p (acc.1.delegates p).hide := rfl

@[simp] theorem reclaimOne_snd (p : Action) (acc : Private × ℚ) :
    (reclaimOne p acc).2 = acc.2 - ((acc.1.delegates p).width + acc.1.spacing) := rfl

@[simp] theorem reclaimOne_spacing (p : Action) (acc : Private × ℚ) :
    (reclaimOne p acc).1.spacing = acc.1.spacing := rfl

@[simp] theorem reclaimOne_hiddenActions (p : Action) (acc : Private × ℚ) :
    (reclaimOne p acc).1.hiddenActions = acc.1.hiddenActions ++ [p] := rfl

theorem width_of_visible_le (d : ToolBarLayoutDelegate) (h : d.iconWidth ≤ d.fullWidth) :
    d.iconWidth ≤ d.width := by
  unfold ToolBarLayoutDelegate.width
  split_ifs
  · exact le_refl _
  · exact h

theorem reclaim_fits (a : Action) (tw : ℚ) (pre prev : List Action) (acc : Private × ℚ)
    (hnn : NonNegative acc.1) (hkeep : (acc.1.delegates a).keepVisible = true)
    (hvis : (acc.1.delegates a).isVisible = true)
    (hprev : ∀ p ∈ prev, p ∈ pre ∨ p = a)
    (hsum : consumedSum acc.1.spacing acc.1.delegates pre ≤ acc.2) :
    consumedSum (reclaim a tw prev acc).1.spacing (reclaim a tw prev acc).1.delegates pre
        ≤ (reclaim a tw prev acc).2 ∧
      (reclaim a tw prev acc).2 ≤ acc.2 ∧
      (∀ b, ((reclaim a tw prev acc).1.delegates b).isVisible = true →
        (acc.1.delegates b).isVisible = true) ∧
      ((reclaim a tw prev acc).1.delegates a).isVisible = true := by
  induction prev generalizing acc with
  | nil => exact ⟨hsum, le_refl _, fun _ h => h, hvis⟩
  | cons p prev ih =>
    have hprev1 : ∀ q ∈ prev, q ∈ pre ∨ q = a := fun q hq => hprev q (List.mem_cons_of_mem _ hq)
    rw [reclaim]
    dsimp only
    by_cases hpv : (acc.1.delegates p).isVisible = true
    swap
    · rw [if_pos hpv]
      exact ih acc hnn hkeep hvis hprev1 hsum
    rw [if_neg (not_not.2 hpv)]
    by_cases hpk : (acc.1.delegates p).keepVisible = true
    · rw [if_pos hpk]
      exact ih acc hnn hkeep hvis hprev1 hsum
    rw [if_neg hpk]
    have hpa : p ≠ a := by
      intro h
      rw [h] at hpk
      exact hpk hkeep
    have hpre : p ∈ pre := by
      rcases hprev p (List.mem_cons_self _ _) with h | h
      · exact h
      · exact absurd h hpa
    have hcp : consumed acc.1.spacing (acc.1.delegates p) =
        (acc.1.delegates p).width + acc.1.spacing := consumed_of_visible _ _ hpv
    have hcp0 : 0 ≤ (acc.1.delegates p).width + acc.1.spacing := by
      rw [← hcp]; exact hnn.consumed p
    -- the state after giving back `p`
    have hfr : (reclaimOne p acc).1.frame = acc.1.frame := reclaimOne_frame p acc
    have hsum1 : consumedSum (reclaimOne p acc).1.spacing (reclaimOne p acc).1.delegates pre
        ≤ (reclaimOne p acc).2 := by
      have h1 := consumedSum_update_sub_le acc.1.spacing acc.1.delegates p
        (acc.1.delegates p).hide (consumed_hide _ _) (hnn.consumed p) pre hpre
      simp only [reclaimOne_delegates, reclaimOne_snd, reclaimOne_spacing]
      linarith
    have hle1 : (reclaimOne p acc).2 ≤ acc.2 := by
      simp only [reclaimOne_snd]; linarith
    have hmono1 : ∀ b, ((reclaimOne p acc).1.delegates b).isVisible = true →
        (acc.1.delegates b).isVisible = true := by
      intro b hb
      simp only [reclaimOne_delegates] at hb
      by_cases hbp : b = p
      · rw [hbp]; exact hpv
      · rwa [Function.update_noteq hbp] at hb
    have ha1 : (reclaimOne p acc).1.delegates a = acc.1.delegates a := by
      simp only [reclaimOne_delegates]
      exact Function.update_noteq (Ne.symm hpa) _ _
    have hvis1 : ((reclaimOne p acc).1.delegates a).isVisible = true := by rw [ha1]; exact hvis
    have hkeep1 : ((reclaimOne p acc).1.delegates a).keepVisible = true := by
      rw [ha1]; exact hkeep
    have hnn1 : NonNegative (reclaimOne p acc).1 := hnn.of_frame hfr
    split_ifs with hfull hicon
    · exact ⟨hsum1, hle1, hmono1, hvis1⟩
    · refine ⟨?_, hle1, ?_, ?_⟩
      · simp only [setDelegate_delegates, setDelegate_spacing]
        refine le_trans (consumedSum_update_le _ _ a _ ?_ pre) hsum1
        rw [consumed_of_visible _ _ (isVisible_showIcon _), consumed_of_visible _ _ hvis1,
          width_showIcon]
        have := width_of_visible_le ((reclaimOne p acc).1.delegates a) (by linarith)
        linarith
      · intro b hb
        by_cases hba : b = a
        · rw [hba]; exact hvis
        · simp only [setDelegate_delegates, Function.update_noteq hba] at hb
          exact hmono1 b hb
      · simp
    · obtain ⟨h1, h2, h3, h4⟩ := ih (reclaimOne p acc) hnn1 hkeep1 hvis1 hprev1 hsum1
      exact ⟨h1, le_trans h2 hle1, fun b hb => hmono1 b (h3 b hb), h4⟩

theorem mem_take_indexOf (a : Action) (rest pre : List Action) (p : Action)
    (hp : p ∈ (pre ++ a :: rest).take ((pre ++ a :: rest).indexOf a + 1)) : p ∈ pre ∨ p = a := by
  induction pre with
  | nil =>
    simp only [List.nil_append, List.indexOf_cons_self, zero_add, List.take_succ_cons,
      List.take_zero, List.mem_singleton] at hp
    exact Or.inr hp
  | cons b pre ih =>
    by_cases hb : b = a
    · subst hb
      simp only [List.cons_append, List.indexOf_cons_self, zero_add, List.take_succ_cons,
        List.take_zero, List.mem_singleton] at hp
      exact Or.inr hp
    · rw [List.cons_append, List.indexOf_cons_ne _ hb, List.take_succ_cons] at hp
      rcases List.mem_cons.1 hp with h | h
      · exact Or.inl (h ▸ List.mem_cons_self _ _)
      · rcases ih h with h1 | h1
        · exact Or.inl (List.mem_cons_of_mem _ h1)
        · exact Or.inr h1

theorem mem_reclaimRange (s : Private) (a : Action) (pre rest : List Action)
    (hs : s.sortedDelegates = pre ++ a :: rest) (p : Action) (hp : p ∈ reclaimRange s a) :
    p ∈ pre ∨ p = a := by
  unfold reclaimRange at hp
  rw [hs, List.mem_reverse] at hp
  exact mem_take_indexOf a rest pre p hp

theorem maybeHideDelegate_fits (s : Private) (a : Action) (cw tw : ℚ) (pre : List Action)
    (hnn : NonNegative s) (hrange : ∀ p ∈ reclaimRange s a, p ∈ pre ∨ p = a)
    (hinv : FitsInv tw pre (s, cw)) :
    FitsInv tw pre (maybeHideDelegate s a cw tw) ∧
      (((maybeHideDelegate s a cw tw).1.delegates a).isVisible = true →
        (maybeHideDelegate s a cw tw).2 +
          ((maybeHideDelegate s a cw tw).1.delegates a).width ≤ tw) := by
  obtain ⟨hsum, hdis⟩ := hinv
  dsimp only at hsum hdis
  unfold maybeHideDelegate
  by_cases h1 : ¬ (s.delegates a).isVisible = true ∨ cw + (s.delegates a).width < tw
  · rw [if_pos h1]
    refine ⟨⟨hsum, hdis⟩, fun hv => ?_⟩
    rcases h1 with h1 | h1
    · exact absurd hv h1
    · exact le_of_lt h1
  rw [if_neg h1]
  have hvis : (s.delegates a).isVisible = true := by
    by_contra h; exact h1 (Or.inl h)
  have hnofit : tw ≤ cw + (s.delegates a).width := by
    by_contra h; exact h1 (Or.inr (lt_of_not_le h))
  by_cases hk : (s.delegates a).keepVisible = true
  · rw [if_pos hk]
    by_cases hi : cw + (s.delegates a).iconWidth > tw
    · rw [if_pos hi]
      dsimp only
      obtain ⟨r1, r2, r3, r4⟩ := reclaim_fits a tw pre (reclaimRange s a) (s, cw) hnn hk hvis
        hrange hsum
      have hdis1 : (reclaim a tw (reclaimRange s a) (s, cw)).2 -
            (reclaim a tw (reclaimRange s a) (s, cw)).1.spacing ≤ tw ∨
          ∀ b ∈ pre, ((reclaim a tw (reclaimRange s a) (s, cw)).1.delegates b).isVisible
            = false := by
        rcases hdis with h | h
        · left
          rw [frame_spacing (reclaim_frame a tw _ (s, cw))]
          dsimp only at r2 ⊢
          linarith
        · right
          intro b hb
          by_contra hc
          have := r3 b (by simpa using hc)
          rw [h b hb] at this
          exact Bool.false_ne_true this
      have hnn1 : NonNegative (reclaim a tw (reclaimRange s a) (s, cw)).1 :=
        hnn.of_frame (reclaim_frame a tw _ (s, cw))
      split_ifs with hh
      · refine ⟨⟨?_, ?_⟩, ?_⟩
        · simp only [appendHidden_delegates, appendHidden_spacing, setDelegate_delegates,
            setDelegate_spacing]
          refine le_trans (consumedSum_update_le _ _ a _ ?_ pre) r1
          rw [consumed_hide]
          exact hnn1.consumed a
        · rcases hdis1 with h | h
          · left; exact h
          · right
            intro b hb
            simp only [appendHidden_delegates, setDelegate_delegates]
            by_cases hba : b = a
            · rw [hba]; simp
            · rw [Function.update_noteq hba]; exact h b hb
        · intro hv
          simp at hv
      · exact ⟨⟨r1, hdis1⟩, fun _ => le_of_not_lt hh⟩
    · rw [if_neg hi]
      have hi' : cw + (s.delegates a).iconWidth ≤ tw := le_of_not_lt hi
      refine ⟨⟨?_, ?_⟩, ?_⟩
      · simp only [setDelegate_delegates, setDelegate_spacing]
        refine le_trans (consumedSum_update_le _ _ a _ ?_ pre) hsum
        rw [consumed_of_visible _ _ (isVisible_showIcon _), consumed_of_visible _ _ hvis,
          width_showIcon]
        linarith
      · rcases hdis with h | h
        · left; exact h
        · right
          intro b hb
          have hba : b ≠ a := by
            intro hba
            rw [hba] at hb
            rw [h a hb] at hvis
            exact Bool.false_ne_true hvis
          simp only [setDelegate_delegates, Function.update_noteq hba]
          exact h b hb
      · intro _
        simp only [setDelegate_delegates, Function.update_same, width_showIcon]
        exact hi'
  · rw [if_neg hk]
    refine ⟨⟨?_, ?_⟩, ?_⟩
    · simp only [appendHidden_delegates, appendHidden_spacing, setDelegate_delegates,
        setDelegate_spacing]
      refine le_trans (consumedSum_update_le _ _ a _ ?_ pre) hsum
      rw [consumed_hide]
      exact hnn.consumed a
    · rcases hdis with h | h
      · left; exact h
      · right
        intro b hb
        simp only [appendHidden_delegates, setDelegate_delegates]
        by_cases hba : b = a
        · rw [hba]; simp
        · rw [Function.update_noteq hba]; exact h b hb
    · intro hv
      simp at hv

theorem overflowStep_fits (tw : ℚ) (acc : Private × ℚ) (a : Action) (pre : List Action)
    (hnn : NonNegative acc.1) (hrange : ∀ p ∈ reclaimRange acc.1 a, p ∈ pre ∨ p = a)
    (hinv : FitsInv tw pre acc) : FitsInv tw (pre ++ [a]) (overflowStep tw acc a) := by
  obtain ⟨⟨hsum, hdis⟩, hfit⟩ := maybeHideDelegate_fits acc.1 a acc.2 tw pre hnn hrange hinv
  unfold overflowStep
  dsimp only
  by_cases hv : ((maybeHideDelegate acc.1 a acc.2 tw).1.delegates a).isVisible = true
  · rw [if_pos hv]
    refine ⟨?_, Or.inl ?_⟩
    · dsimp only
      rw [consumedSum_append, consumedSum_cons, consumedSum_nil, consumed_of_visible _ _ hv]
      linarith
    · dsimp only
      have := hfit hv
      linarith
  · rw [if_neg hv]
    refine ⟨?_, ?_⟩
    · rw [consumedSum_append, consumedSum_cons, consumedSum_nil, consumed_of_not_visible _ _ hv]
      linarith
    · rcases hdis with h | h
      · left; exact h
      · right
        intro b hb
        rcases List.mem_append.1 hb with h1 | h1
        · exact h b h1
        · rw [List.mem_singleton.1 h1]
          simpa using hv

theorem overflowLoop_fits (tw : ℚ) (rest pre : List Action) (acc : Private × ℚ)
    (hnn : NonNegative acc.1) (hs : acc.1.sortedDelegates = pre ++ rest)
    (hinv : FitsInv tw pre acc) : FitsInv tw (pre ++ rest) (overflowLoop tw rest acc) := by
  induction rest generalizing pre acc with
  | nil => simpa [overflowLoop] using hinv
  | cons a rest ih =>
    rw [overflowLoop]
    have hfr := overflowStep_frame tw acc a
    have h1 := overflowStep_fits tw acc a pre hnn
      (fun p hp => mem_reclaimRange acc.1 a pre rest hs p hp) hinv
    have h2 := ih (pre ++ [a]) (overflowStep tw acc a) (hnn.of_frame hfr)
      (by rw [frame_sortedDelegates hfr, hs]; simp) h1
    simpa using h2

/-! ## The first loop: tentative modes -/

theorem tentativeMode_congr {d e : ToolBarLayoutDelegate} (h : e.item = d.item) :
    tentativeMode e = tentativeMode d := by
  unfold tentativeMode
  rw [item_actionVisible h, item_hidden h, item_iconOnly h]

theorem consumed_congr (sp : ℚ) {d e : ToolBarLayoutDelegate} (h : e.item = d.item)
    (hm : e.mode = d.mode) : consumed sp e = consumed sp d := by
  unfold consumed ToolBarLayoutDelegate.isVisible ToolBarLayoutDelegate.width
  rw [item_fullWidth h, item_iconWidth h, hm]

theorem classify_mode_self (s : Private) (mw mh : ℚ) (a : Action) :
    ((classify s mw mh a).1.delegates a).mode = tentativeMode (s.delegates a) := by
  unfold classify tentativeMode
  split_ifs <;> simp [ToolBarLayoutDelegate.hide, ToolBarLayoutDelegate.showIcon,
    ToolBarLayoutDelegate.showFull]

theorem classify_delegates_other (s : Private) (mw mh : ℚ) (a b : Action) (h : b ≠ a) :
    (classify s mw mh a).1.delegates b = s.delegates b := by
  unfold classify
  split_ifs <;> simp [Function.update_noteq h]

theorem classify_maxWidth (s : Private) (mw mh : ℚ) (a : Action) :
    (classify s mw mh a).2.1 = mw + consumed s.spacing ((classify s mw mh a).1.delegates a) := by
  unfold classify
  split_ifs <;> simp [consumed]

theorem classifyAll_mode (l : List Action) (acc : Private × ℚ × ℚ) (b : Action) :
    ((classifyAll l acc).1.delegates b).mode =
      if b ∈ l then tentativeMode (acc.1.delegates b) else (acc.1.delegates b).mode := by
  induction l generalizing acc with
  | nil => simp [classifyAll]
  | cons a rest ih =>
    obtain ⟨s, mw, mh⟩ := acc
    rw [classifyAll, ih]
    have hit := tentativeMode_congr (frame_item (classify_frame s mw mh a) b)
    by_cases hb : b ∈ rest
    · simp [hb, hit]
    · by_cases hba : b = a
      · subst hba
        simp [hb, classify_mode_self]
      · simp [hb, hba, classify_delegates_other s mw mh a b hba]

theorem classifyAll_maxWidth (l : List Action) (acc : Private × ℚ × ℚ) :
    (classifyAll l acc).2.1 =
      acc.2.1 + consumedSum acc.1.spacing (classifyAll l acc).1.delegates l := by
  induction l generalizing acc with
  | nil => simp [classifyAll]
  | cons a rest ih =>
    obtain ⟨s, mw, mh⟩ := acc
    rw [classifyAll, ih, consumedSum_cons, classify_maxWidth,
      frame_spacing (classify_frame s mw mh a)]
    have hc : consumed s.spacing ((classifyAll rest (classify s mw mh a)).1.delegates a) =
        consumed s.spacing ((classify s mw mh a).1.delegates a) := by
      apply consumed_congr
      · exact frame_item (classifyAll_frame rest _) a
      · rw [classifyAll_mode, classify_mode_self]
        split_ifs
        · exact tentativeMode_congr (frame_item (classify_frame s mw mh a) a)
        · rfl
    dsimp only
    rw [hc]
    ring

/-! ## Placement changes positions only -/

theorem place_item (sp mh : ℚ) (dir : LayoutDirection)
    (acc : (Action → ToolBarLayoutDelegate) × ℚ) (a b : Action) :
    ((place sp mh dir acc a).1 b).item = (acc.1 b).item ∧
      ((place sp mh dir acc a).1 b).mode = (acc.1 b).mode := by
  unfold place
  dsimp only
  have hm : ∀ x y : ℚ, (Function.update acc.1 a ((acc.1 a).setPosition x y) b).mode =
      (acc.1 b).mode := by
    intro x y
    by_cases hb : b = a
    · subst hb; simp [ToolBarLayoutDelegate.setPosition]
    · simp [Function.update_noteq hb]
  have hi : ∀ x y : ℚ, (Function.update acc.1 a ((acc.1 a).setPosition x y) b).item =
      (acc.1 b).item := fun x y => item_update acc.1 a _ (item_setPosition _ x y) b
  split_ifs
  · exact ⟨hi _ _, hm _ _⟩
  · exact ⟨hi _ _, hm _ _⟩
  · exact ⟨rfl, rfl⟩

theorem placeAll_item (sp mh : ℚ) (dir : LayoutDirection) (l : List Action)
    (acc : (Action → ToolBarLayoutDelegate) × ℚ) (b : Action) :
    ((placeAll sp mh dir l acc).1 b).item = (acc.1 b).item ∧
      ((placeAll sp mh dir l acc).1 b).mode = (acc.1 b).mode := by
  induction l generalizing acc with
  | nil => exact ⟨rfl, rfl⟩
  | cons a rest ih =>
    rw [placeAll]
    obtain ⟨h1, h2⟩ := ih (place sp mh dir acc a)
    obtain ⟨h3, h4⟩ := place_item sp mh dir acc a b
    exact ⟨h1.trans h3, h2.trans h4⟩

/-! ## Entering the pass -/

theorem frame_width {s t : Private} (h : t.frame = s.frame) : t.width = s.width := by
  have h1 := congrArg Private.width h
  exact h1

theorem frame_alignment {s t : Private} (h : t.frame = s.frame) : t.alignment = s.alignment := by
  have h1 := congrArg Private.alignment h
  exact h1

theorem frame_layoutDirection {s t : Private} (h : t.frame = s.frame) :
    t.layoutDirection = s.layoutDirection := by
  have h1 := congrArg Private.layoutDirection h
  exact h1

theorem frame_visibleWidth {s t : Private} (h : t.frame = s.frame) :
    t.visibleWidth = s.visibleWidth := by
  have h1 := congrArg Private.visibleWidth h
  exact h1

theorem frame_layoutWidth {s t : Private} (h : t.frame = s.frame) (more : QQuickItem) :
    layoutWidth t more = layoutWidth s more := by
  unfold layoutWidth
  rw [frame_width h, frame_spacing h, frame_alignment h]

theorem createDelegatesLoop_result (cd : Action → ToolBarLayoutDelegate) (l : List Action)
    (acc : List Action × (Action → ToolBarLayoutDelegate) × List Action) :
    (createDelegatesLoop cd l acc).2.2 = acc.2.2 ++ l := by
  induction l generalizing acc with
  | nil => simp [createDelegatesLoop]
  | cons a rest ih =>
    obtain ⟨keys, ds, result⟩ := acc
    rw [createDelegatesLoop]
    split_ifs <;> simp [ih]

theorem beginPass_sortedDelegates (cd : Action → ToolBarLayoutDelegate) (s : Private) :
    (beginPass cd s).sortedDelegates = s.actions := by
  simp [beginPass, createDelegates, createDelegatesLoop_result]

theorem beginPass_hiddenActions (cd : Action → ToolBarLayoutDelegate) (s : Private) :
    (beginPass cd s).hiddenActions = [] := by
  unfold beginPass createDelegates
  dsimp only
  split_ifs <;> rfl

theorem beginPass_moreButtonInstance (cd : Action → ToolBarLayoutDelegate) (s : Private) :
    (beginPass cd s).moreButtonInstance = s.moreButtonInstance := by
  unfold beginPass createDelegates
  dsimp only
  split_ifs <;> rfl

theorem beginPass_config (cd : Action → ToolBarLayoutDelegate) (s : Private) :
    (beginPass cd s).spacing = s.spacing ∧ (beginPass cd s).width = s.width ∧
      (beginPass cd s).alignment = s.alignment ∧
      (beginPass cd s).layoutDirection = s.layoutDirection ∧
      (beginPass cd s).visibleWidth = s.visibleWidth := by
  unfold beginPass createDelegates
  dsimp only
  split_ifs <;> exact ⟨rfl, rfl, rfl, rfl, rfl⟩

theorem beginPass_layoutWidth (cd : Action → ToolBarLayoutDelegate) (s : Private)
    (more : QQuickItem) : layoutWidth (beginPass cd s) more = layoutWidth s more := by
  obtain ⟨h1, h2, h3, -, -⟩ := beginPass_config cd s
  unfold layoutWidth
  rw [h1, h2, h3]

theorem performLayout_of_completes (cd : Action → ToolBarLayoutDelegate) (s : Private)
    (more : QQuickItem) (hc : passCompletes cd s = true)
    (hm : s.moreButtonInstance = some more) :
    performLayout cd s = layoutBody (beginPass cd s) more := by
  unfold passCompletes at hc
  simp only [Bool.and_eq_true, Bool.not_eq_true', List.isEmpty_eq_false] at hc
  obtain ⟨⟨⟨⟨⟨h1, h2⟩, h3⟩, h4⟩, -⟩, h6⟩ := hc
  have hm1 : (beginPass cd s).moreButtonInstance = some more := by
    rw [beginPass_moreButtonInstance, hm]
  unfold performLayout
  rw [if_neg, if_neg]
  · dsimp only
    rw [hm1]
    dsimp only
    rw [if_neg]
    simpa using h6
  · simpa using h4
  · rw [Option.isSome_iff_ne_none] at h1 h2 h3
    simp [h1, h2, h3]

theorem layoutBody_delegates (s : Private) (more : QQuickItem) (a : Action) :
    ((layoutBody s more).delegates a).item = ((passResolved s more).1.delegates a).item ∧
      ((layoutBody s more).delegates a).mode = ((passResolved s more).1.delegates a).mode :=
  placeAll_item _ _ _ _ _ a

theorem layoutBody_hiddenActions (s : Private) (more : QQuickItem) :
    (layoutBody s more).hiddenActions = (passResolved s more).1.hiddenActions := rfl

theorem passClassified_frame (s : Private) (more : QQuickItem) :
    (passClassified s more).1.frame = s.frame :=
  classifyAll_frame _ _

theorem passResolved_frame (s : Private) (more : QQuickItem) :
    (passResolved s more).1.frame = s.frame :=
  (resolveOverflow_frame _ _ _).trans (passClassified_frame s more)

theorem consumedSum_congr (sp : ℚ) (ds es : Action → ToolBarLayoutDelegate) (l : List Action)
    (h : ∀ a ∈ l, (es a).item = (ds a).item ∧ (es a).mode = (ds a).mode) :
    consumedSum sp es l = consumedSum sp ds l := by
  induction l with
  | nil => rfl
  | cons a rest ih =>
    rw [consumedSum_cons, consumedSum_cons, ih fun b hb => h b (List.mem_cons_of_mem _ hb),
      consumed_congr sp (h a (List.mem_cons_self _ _)).1 (h a (List.mem_cons_self _ _)).2]

theorem isVisible_congr {d e : ToolBarLayoutDelegate} (hm : e.mode = d.mode) :
    e.isVisible = d.isVisible := by
  unfold ToolBarLayoutDelegate.isVisible
  rw [hm]

/-- The fits invariant for the pass proper. -/
theorem layoutBody_fits (s : Private) (more : QQuickItem) (hnn : NonNegative s)
    (hv : ∃ a ∈ s.sortedDelegates, ((layoutBody s more).delegates a).isVisible = true) :
    consumedSum s.spacing (layoutBody s more).delegates s.sortedDelegates - s.spacing
      ≤ layoutWidth s more := by
  rw [consumedSum_congr s.spacing (passResolved s more).1.delegates _ _
    fun a _ => layoutBody_delegates s more a]
  obtain ⟨a, ha, hav⟩ := hv
  rw [isVisible_congr (layoutBody_delegates s more a).2] at hav
  have hcf := passClassified_frame s more
  have hsp := frame_spacing hcf
  have hlw := frame_layoutWidth hcf more
  have hsd := frame_sortedDelegates hcf
  have hmw := classifyAll_maxWidth s.sortedDelegates (s, 0, if more.visible then more.height else 0)
  change (passClassified s more).2.1 = 0 + consumedSum s.spacing
    (passClassified s more).1.delegates s.sortedDelegates at hmw
  revert hav
  unfold passResolved resolveOverflow
  rw [hsp, hlw, hsd]
  by_cases hov : (passClassified s more).2.1 - s.spacing > layoutWidth s more
  · rw [if_pos hov]
    dsimp only
    have hinv := overflowLoop_fits (layoutWidth s more) s.sortedDelegates []
      ((passClassified s more).1, 0) (hnn.of_frame hcf) (by rw [hsd]; simp)
      ⟨by simp, Or.inr (by simp)⟩
    rw [List.nil_append] at hinv
    obtain ⟨h1, h2⟩ := hinv
    rw [frame_spacing (overflowLoop_frame _ _ _)] at h1 h2
    dsimp only at h1 h2
    rw [hsp] at h1 h2
    have key : ((overflowLoop (layoutWidth s more) s.sortedDelegates
        ((passClassified s more).1, 0)).1.delegates a).isVisible = true →
        consumedSum s.spacing (overflowLoop (layoutWidth s more) s.sortedDelegates
            ((passClassified s more).1, 0)).1.delegates s.sortedDelegates - s.spacing
          ≤ layoutWidth s more := by
      intro hav
      rcases h2 with h2 | h2
      · linarith
      · rw [h2 a ha] at hav
        exact absurd hav Bool.false_ne_true
    split_ifs <;> exact key
  · rw [if_neg hov]
    intro _
    dsimp only
    rw [hmw] at hov
    linarith

theorem createDelegatesLoop_delegates (cd : Action → ToolBarLayoutDelegate) (l : List Action)
    (acc : List Action × (Action → ToolBarLayoutDelegate) × List Action) (a : Action) :
    (createDelegatesLoop cd l acc).2.1 a = acc.2.1 a ∨
      (createDelegatesLoop cd l acc).2.1 a = cd a := by
  induction l generalizing acc with
  | nil => exact Or.inl rfl
  | cons b rest ih =>
    obtain ⟨keys, ds, result⟩ := acc
    rw [createDelegatesLoop]
    split_ifs
    · exact ih _
    · rcases ih (keys ++ [b], Function.update ds b (cd b), result ++ [b]) with h | h
      · by_cases hab : a = b
        · right; rw [h, hab]; simp
        · left; rw [h]; simp [Function.update_noteq hab]
      · exact Or.inr h

theorem beginPass_delegates (cd : Action → ToolBarLayoutDelegate) (s : Private) (a : Action) :
    (beginPass cd s).delegates a = s.delegates a ∨ (beginPass cd s).delegates a = cd a := by
  have h := createDelegatesLoop_delegates cd s.actions (s.delegateKeys, s.delegates, []) a
  unfold beginPass createDelegates
  dsimp only
  split_ifs <;> exact h

theorem NonNegativeInput.beginPass {cd : Action → ToolBarLayoutDelegate} {s : Private}
    (h : NonNegativeInput cd s) : NonNegative (beginPass cd s) := by
  refine ⟨by rw [(beginPass_config cd s).1]; exact h.1, fun a => ?_⟩
  rcases beginPass_delegates cd s a with e | e <;> rw [e]
  · exact (h.2 a).1
  · exact (h.2 a).2

/-- C1 (fits invariant): after a completed pass over an input with non-negative item
widths and spacing, whenever at least one action is visible, the sum over the visible
entries of the action list of (width at the chosen mode + spacing), less one trailing
spacing, is at most the layout width `W - (indicatorWidth + spacing)`, reduced by
`indicatorWidth + spacing` once more when the alignment has the centre flag. -/
theorem fits_invariant (cd : Action → ToolBarLayoutDelegate) (s : Private) (more : QQuickItem)
    (hc : passCompletes cd s = true) (hm : s.moreButtonInstance = some more)
    (hnn : NonNegativeInput cd s)
    (hv : ∃ a ∈ s.actions, ((performLayout cd s).delegates a).isVisible = true) :
    consumedSum s.spacing (performLayout cd s).delegates s.actions - s.spacing ≤
      s.width - (more.width + s.spacing) -
        (if testFlag s.alignment AlignHCenter then more.width + s.spacing else 0) := by
  rw [performLayout_of_completes cd s more hc hm] at hv ⊢
  have h := layoutBody_fits (beginPass cd s) more hnn.beginPass
    (by rw [beginPass_sortedDelegates]; exact hv)
  rw [beginPass_sortedDelegates, (beginPass_config cd s).1, beginPass_layoutWidth] at h
  refine le_trans h (le_of_eq ?_)
  unfold layoutWidth
  dsimp only
  split_ifs <;> ring

theorem fits_invariant_witness :
    consumedSum 8 (performLayout sampleProvider (scenarioKeep 1)).delegates
        [0, 1, 2, 3, 4] - 8 ≤ 300 - (40 + 8) - 0 :=
  fits_invariant sampleProvider (scenarioKeep 1)
    (sampleMore 40)
    (by decide!) rfl
    ⟨by norm_num [scenarioKeep, sampleState], fun a => by
      norm_num [scenarioKeep, sampleState, sampleDelegate, sampleProvider]⟩
    ⟨0, by decide, by decide!⟩

/-! ## Overflow resolution never shows a hidden delegate again -/

theorem reclaim_visible_mono (a : Action) (tw : ℚ) (prev : List Action) (acc : Private × ℚ)
    (b : Action) (hb : ((reclaim a tw prev acc).1.delegates b).isVisible = true) :
    (acc.1.delegates b).isVisible = true ∨ b = a := by
  induction prev generalizing acc with
  | nil => exact Or.inl hb
  | cons p prev ih =>
    rw [reclaim] at hb
    dsimp only at hb
    have hone : ∀ c, ((reclaimOne p acc).1.delegates c).isVisible = true →
        (acc.1.delegates c).isVisible = true := by
      intro c hc
      by_cases hcp : c = p
      · rw [hcp] at hc; simp at hc
      · simpa [Function.update_noteq hcp] using hc
    by_cases hpv : (acc.1.delegates p).isVisible = true
    swap
    · rw [if_pos hpv] at hb
      exact ih acc hb
    rw [if_neg (not_not.2 hpv)] at hb
    by_cases hpk : (acc.1.delegates p).keepVisible = true
    · rw [if_pos hpk] at hb
      exact ih acc hb
    rw [if_neg hpk] at hb
    split_ifs at hb
    · exact Or.inl (hone b hb)
    · by_cases hba : b = a
      · exact Or.inr hba
      · simp only [setDelegate_delegates, Function.update_noteq hba] at hb
        exact Or.inl (hone b hb)
    · rcases ih _ hb with h | h
      · exact Or.inl (hone b h)
      · exact Or.inr h

theorem maybeHideDelegate_visible_mono (s : Private) (a : Action) (cw tw : ℚ) (b : Action)
    (hb : ((maybeHideDelegate s a cw tw).1.delegates b).isVisible = true) :
    (s.delegates b).isVisible = true := by
  unfold maybeHideDelegate at hb
  by_cases h1 : ¬ (s.delegates a).isVisible = true ∨ cw + (s.delegates a).width < tw
  · rw [if_pos h1] at hb; exact hb
  rw [if_neg h1] at hb
  have hvis : (s.delegates a).isVisible = true := by
    by_contra h; exact h1 (Or.inl h)
  by_cases hba : b = a
  · rw [hba]; exact hvis
  dsimp only at hb
  split_ifs at hb
  · simp only [appendHidden_delegates, setDelegate_delegates, Function.update_noteq hba] at hb
    rcases reclaim_visible_mono a tw _ (s, cw) b hb with h | h
    · exact h
    · exact absurd h hba
  · rcases reclaim_visible_mono a tw _ (s, cw) b hb with h | h
    · exact h
    · exact absurd h hba
  · simpa [Function.update_noteq hba] using hb
  · simpa [Function.update_noteq hba] using hb

theorem overflowStep_delegates (tw : ℚ) (acc : Private × ℚ) (a : Action) :
    (overflowStep tw acc a).1 = (maybeHideDelegate acc.1 a acc.2 tw).1 := by
  unfold overflowStep
  dsimp only
  split_ifs <;> rfl

theorem overflowLoop_visible_mono (tw : ℚ) (l : List Action) (acc : Private × ℚ) (b : Action)
    (hb : ((overflowLoop tw l acc).1.delegates b).isVisible = true) :
    (acc.1.delegates b).isVisible = true := by
  induction l generalizing acc with
  | nil => exact hb
  | cons a rest ih =>
    rw [overflowLoop] at hb
    have h := ih _ hb
    rw [overflowStep_delegates] at h
    exact maybeHideDelegate_visible_mono _ _ _ _ _ h

theorem overflowLoop_append (tw : ℚ) (l m : List Action) (acc : Private × ℚ) :
    overflowLoop tw (l ++ m) acc = overflowLoop tw m (overflowLoop tw l acc) := by
  induction l generalizing acc with
  | nil => rfl
  | cons a rest ih => rw [List.cons_append, overflowLoop, overflowLoop, ih]

/-! ## A step for an action that is not keepVisible touches that action only -/

theorem maybeHideDelegate_other (s : Private) (a : Action) (cw tw : ℚ)
    (hk : (s.delegates a).isVisible = true → ¬ (s.delegates a).keepVisible = true)
    (b : Action) (hb : b ≠ a) :
    (maybeHideDelegate s a cw tw).1.delegates b = s.delegates b := by
  unfold maybeHideDelegate
  by_cases h1 : ¬ (s.delegates a).isVisible = true ∨ cw + (s.delegates a).width < tw
  · rw [if_pos h1]
  · rw [if_neg h1, if_neg (hk (by by_contra h; exact h1 (Or.inl h)))]
    simp [Function.update_noteq hb]

theorem overflowLoop_other (tw : ℚ) (l : List Action) (acc : Private × ℚ) (b : Action)
    (hl : ∀ a ∈ l, ((acc.1.delegates a).isVisible = true →
      ¬ (acc.1.delegates a).keepVisible = true) ∧ b ≠ a) :
    (overflowLoop tw l acc).1.delegates b = acc.1.delegates b := by
  induction l generalizing acc with
  | nil => rfl
  | cons a rest ih =>
    rw [overflowLoop]
    have hfr := overflowStep_frame tw acc a
    rw [ih, overflowStep_delegates,
      maybeHideDelegate_other _ _ _ _ (hl a (List.mem_cons_self _ _)).1 b
        (hl a (List.mem_cons_self _ _)).2]
    intro c hc
    refine ⟨fun hv => ?_, (hl c (List.mem_cons_of_mem _ hc)).2⟩
    rw [item_keepVisible (frame_item hfr c)]
    rw [overflowStep_delegates] at hv
    exact (hl c (List.mem_cons_of_mem _ hc)).1 (maybeHideDelegate_visible_mono _ _ _ _ _ hv)

/-! ## Hiding a keepVisible delegate is the last resort -/

theorem reclaim_last_resort (a : Action) (tw : ℚ) (prev : List Action) (acc : Private × ℚ)
    (hk : (acc.1.delegates a).keepVisible = true)
    (hcw : acc.2 + (acc.1.delegates a).iconWidth > tw) :
    ((reclaim a tw prev acc).2 + ((reclaim a tw prev acc).1.delegates a).fullWidth ≤ tw ∧
        ((reclaim a tw prev acc).1.delegates a).mode = (acc.1.delegates a).mode) ∨
      ((reclaim a tw prev acc).2 + ((reclaim a tw prev acc).1.delegates a).iconWidth ≤ tw ∧
        ((reclaim a tw prev acc).1.delegates a).mode = DisplayMode.Icon) ∨
      ((∀ p ∈ prev, ¬ (acc.1.delegates p).keepVisible = true →
          ((reclaim a tw prev acc).1.delegates p).isVisible = false) ∧
        (reclaim a tw prev acc).2 + ((reclaim a tw prev acc).1.delegates a).iconWidth > tw ∧
        ((reclaim a tw prev acc).1.delegates a).mode = (acc.1.delegates a).mode) := by
  induction prev generalizing acc with
  | nil => exact Or.inr (Or.inr ⟨fun _ h => by simp at h, hcw, rfl⟩)
  | cons p prev ih =>
    -- a delegate of `prev` that is hidden before the rest of the loop stays hidden
    have hstay : ∀ acc1 : Private × ℚ, ∀ q, q ≠ a → (acc1.1.delegates q).isVisible = false →
        ((reclaim a tw prev acc1).1.delegates q).isVisible = false := by
      intro acc1 q hqa hq
      by_contra hc
      rcases reclaim_visible_mono a tw prev acc1 q (by simpa using hc) with h | h
      · rw [hq] at h; exact Bool.false_ne_true h
      · exact hqa h
    rw [reclaim]
    dsimp only
    by_cases hpv : (acc.1.delegates p).isVisible = true
    swap
    · rw [if_pos hpv]
      rcases ih acc hk hcw with h | h | ⟨h1, h2⟩
      · exact Or.inl h
      · exact Or.inr (Or.inl h)
      · refine Or.inr (Or.inr ⟨?_, h2⟩)
        intro q hq hqk
        rcases List.mem_cons.1 hq with e | e
        · subst e
          refine hstay acc q ?_ (by simpa using hpv)
          intro e; rw [e] at hqk; exact hqk hk
        · exact h1 q e hqk
    rw [if_neg (not_not.2 hpv)]
    by_cases hpk : (acc.1.delegates p).keepVisible = true
    · rw [if_pos hpk]
      rcases ih acc hk hcw with h | h | ⟨h1, h2⟩
      · exact Or.inl h
      · exact Or.inr (Or.inl h)
      · refine Or.inr (Or.inr ⟨?_, h2⟩)
        intro q hq hqk
        rcases List.mem_cons.1 hq with e | e
        · subst e; exact absurd hpk hqk
        · exact h1 q e hqk
    rw [if_neg hpk]
    have hpa : p ≠ a := by
      intro h; rw [h] at hpk; exact hpk hk
    have ha1 : (reclaimOne p acc).1.delegates a = acc.1.delegates a := by
      simp only [reclaimOne_delegates]
      exact Function.update_noteq (Ne.symm hpa) _ _
    have hp1 : ((reclaimOne p acc).1.delegates p).isVisible = false := by simp
    have hk1 : ∀ q, ((reclaimOne p acc).1.delegates q).keepVisible =
        (acc.1.delegates q).keepVisible := fun q =>
      item_keepVisible (frame_item (reclaimOne_frame p acc) q)
    split_ifs with hfull hicon
    · exact Or.inl ⟨hfull, by rw [ha1]⟩
    · exact Or.inr (Or.inl ⟨by simpa using hicon, by simp [ToolBarLayoutDelegate.showIcon]⟩)
    · have hcw1 : (reclaimOne p acc).2 + ((reclaimOne p acc).1.delegates a).iconWidth > tw :=
        lt_of_not_le hicon
      rcases ih (reclaimOne p acc) (by rw [hk1]; exact hk) hcw1 with h | h | ⟨h1, h2, h3⟩
      · exact Or.inl ⟨h.1, by rw [h.2, ha1]⟩
      · exact Or.inr (Or.inl h)
      · refine Or.inr (Or.inr ⟨?_, h2, by rw [h3, ha1]⟩)
        intro q hq hqk
        rcases List.mem_cons.1 hq with e | e
        · subst e
          exact hstay _ q hpa hp1
        · exact h1 q e (by rw [hk1]; exact hqk)

theorem take_indexOf_of_not_mem (a : Action) (pre rest : List Action) (h : a ∉ pre) :
    (pre ++ a :: rest).take ((pre ++ a :: rest).indexOf a + 1) = pre ++ [a] := by
  induction pre with
  | nil => simp
  | cons b pre ih =>
    have hb : b ≠ a := fun e => h (e ▸ List.mem_cons_self _ _)
    rw [List.cons_append, List.indexOf_cons_ne _ hb, List.take_succ_cons,
      ih fun hm => h (List.mem_cons_of_mem _ hm)]
    rfl

/-- The step of the overflow loop for a visible keepVisible delegate `a` whose current
width is at most its full width: if the step hides `a`, every delegate before it that is
not keepVisible is hidden and `a` does not fit at icon width in the space left. -/
theorem maybeHideDelegate_last_resort (s : Private) (a : Action) (cw tw : ℚ)
    (pre rest : List Action) (hs : s.sortedDelegates = pre ++ a :: rest) (hpre : a ∉ pre)
    (hk : (s.delegates a).keepVisible = true)
    (hw : (s.delegates a).width ≤ (s.delegates a).fullWidth)
    (hh : ((maybeHideDelegate s a cw tw).1.delegates a).isVisible = false) :
    (∀ p ∈ pre, ¬ (s.delegates p).keepVisible = true →
        ((maybeHideDelegate s a cw tw).1.delegates p).isVisible = false) ∧
      (maybeHideDelegate s a cw tw).2 + (s.delegates a).iconWidth > tw ∨
    (s.delegates a).isVisible = false := by
  by_cases hvis : (s.delegates a).isVisible = true
  swap
  · right; simpa using hvis
  left
  revert hh
  unfold maybeHideDelegate
  by_cases h1 : ¬ (s.delegates a).isVisible = true ∨ cw + (s.delegates a).width < tw
  · rw [if_pos h1]
    intro hh
    rw [hvis] at hh
    exact absurd hh (by decide)
  rw [if_neg h1, if_pos hk]
  by_cases hi : cw + (s.delegates a).iconWidth > tw
  swap
  · rw [if_neg hi]
    intro hh
    simp at hh
  rw [if_pos hi]
  dsimp only
  have hrange : reclaimRange s a = a :: pre.reverse := by
    unfold reclaimRange
    rw [hs, take_indexOf_of_not_mem a pre rest hpre]
    simp
  have hfr := reclaim_frame a tw (reclaimRange s a) (s, cw)
  have hiw := item_iconWidth (frame_item hfr a)
  have hfw := item_fullWidth (frame_item hfr a)
  dsimp only at hiw hfw
  rcases reclaim_last_resort a tw (reclaimRange s a) (s, cw) hk hi with h | h | ⟨h2, h3, h4⟩
  · -- the loop stopped because the delegate fits at full width
    have hle : (reclaim a tw (reclaimRange s a) (s, cw)).2 +
        ((reclaim a tw (reclaimRange s a) (s, cw)).1.delegates a).width ≤ tw := by
      have e : ((reclaim a tw (reclaimRange s a) (s, cw)).1.delegates a).width =
          (s.delegates a).width := by
        unfold ToolBarLayoutDelegate.width
        rw [h.2, hiw, hfw]
      rw [e]
      rw [hfw] at h
      linarith [h.1]
    rw [if_neg (not_lt.2 hle)]
    intro hh
    have hv : ((reclaim a tw (reclaimRange s a) (s, cw)).1.delegates a).isVisible = true := by
      unfold ToolBarLayoutDelegate.isVisible
      rw [h.2]
      exact hvis
    rw [hv] at hh
    exact absurd hh (by decide)
  · -- the loop stopped because the delegate fits at icon width
    have hle : (reclaim a tw (reclaimRange s a) (s, cw)).2 +
        ((reclaim a tw (reclaimRange s a) (s, cw)).1.delegates a).width ≤ tw := by
      have e : ((reclaim a tw (reclaimRange s a) (s, cw)).1.delegates a).width =
          ((reclaim a tw (reclaimRange s a) (s, cw)).1.delegates a).iconWidth := by
        unfold ToolBarLayoutDelegate.width
        rw [h.2]
        simp
      rw [e]
      exact h.1
    rw [if_neg (not_lt.2 hle)]
    intro hh
    have hv : ((reclaim a tw (reclaimRange s a) (s, cw)).1.delegates a).isVisible = true := by
      unfold ToolBarLayoutDelegate.isVisible
      rw [h.2]
      rfl
    rw [hv] at hh
    exact absurd hh (by decide)
  · -- the loop ran out of delegates to give back
    have hpreh : ∀ p ∈ pre, ¬ (s.delegates p).keepVisible = true →
        ((reclaim a tw (reclaimRange s a) (s, cw)).1.delegates p).isVisible = false := by
      intro p hp hpk
      refine h2 p ?_ hpk
      rw [hrange]
      exact List.mem_cons_of_mem _ (List.mem_reverse.2 hp)
    split_ifs
    · intro _
      refine ⟨?_, by dsimp only; rw [← hiw]; exact h3⟩
      intro p hp hpk
      have hpa : p ≠ a := fun e => hpre (e ▸ hp)
      simp only [appendHidden_delegates, setDelegate_delegates, Function.update_noteq hpa]
      exact hpreh p hp hpk
    · intro _
      exact ⟨hpreh, by rw [← hiw]; exact h3⟩

theorem isVisible_eq_false_iff (d : ToolBarLayoutDelegate) :
    d.isVisible = false ↔ d.mode = DisplayMode.Hidden := by
  unfold ToolBarLayoutDelegate.isVisible
  cases d.mode <;> simp

theorem isVisible_of_mode_full (d : ToolBarLayoutDelegate) (h : d.mode = DisplayMode.Full) :
    d.isVisible = true := by
  unfold ToolBarLayoutDelegate.isVisible
  rw [h]
  rfl

theorem passResolved_overflow (s : Private) (more : QQuickItem)
    (h : (passClassified s more).2.1 - s.spacing > layoutWidth s more) :
    (passResolved s more).1 =
      (overflowLoop (layoutWidth s more) s.sortedDelegates ((passClassified s more).1, 0)).1 := by
  have hcf := passClassified_frame s more
  unfold passResolved resolveOverflow
  rw [frame_spacing hcf, frame_layoutWidth hcf more, frame_sortedDelegates hcf, if_pos h]
  dsimp only
  split_ifs <;> rfl

theorem passResolved_fits (s : Private) (more : QQuickItem)
    (h : ¬ (passClassified s more).2.1 - s.spacing > layoutWidth s more) :
    passResolved s more =
      ((passClassified s more).1, (passClassified s more).2.1 - s.spacing) := by
  have hcf := passClassified_frame s more
  unfold passResolved resolveOverflow
  rw [frame_spacing hcf, frame_layoutWidth hcf more, if_neg h]

theorem passClassified_mode (s : Private) (more : QQuickItem) (a : Action)
    (ha : a ∈ s.sortedDelegates) :
    ((passClassified s more).1.delegates a).mode = tentativeMode (s.delegates a) := by
  unfold passClassified
  rw [classifyAll_mode, if_pos ha]

/-- The pass proper: a keepVisible action that is the only one of its kind, was tentatively
Full and ends Hidden has only hidden actions before it. -/
theorem layoutBody_priority (s : Private) (more : QQuickItem) (pre rest : List Action)
    (k : Action) (hact : s.sortedDelegates = pre ++ k :: rest)
    (hk : (s.delegates k).keepVisible = true)
    (hothers : ∀ b ∈ pre ++ rest, (s.delegates b).keepVisible = false)
    (htent : tentativeMode (s.delegates k) = DisplayMode.Full)
    (hfin : ((layoutBody s more).delegates k).mode = DisplayMode.Hidden) :
    ∀ p ∈ pre, ((layoutBody s more).delegates p).mode = DisplayMode.Hidden := by
  rw [(layoutBody_delegates s more k).2] at hfin
  intro p hp
  rw [(layoutBody_delegates s more p).2]
  have hcf := passClassified_frame s more
  have hkmem : k ∈ s.sortedDelegates := by rw [hact]; simp
  have hkc : ((passClassified s more).1.delegates k).mode = DisplayMode.Full := by
    rw [passClassified_mode s more k hkmem, htent]
  have hkeep : ∀ (t : Private), t.frame = s.frame → ∀ b,
      (t.delegates b).keepVisible = (s.delegates b).keepVisible := fun t ht b =>
    item_keepVisible (frame_item ht b)
  have hne : ∀ b ∈ pre ++ rest, k ≠ b := by
    intro b hb e
    have := hothers b hb
    rw [← e, hk] at this
    exact Bool.noConfusion this
  by_cases hov : (passClassified s more).2.1 - s.spacing > layoutWidth s more
  swap
  · rw [passResolved_fits s more hov] at hfin
    dsimp only at hfin
    rw [hkc] at hfin
    exact DisplayMode.noConfusion hfin
  rw [passResolved_overflow s more hov] at hfin ⊢
  rw [hact, overflowLoop_append, overflowLoop] at hfin ⊢
  -- the state before the step of `k`, after it, and at the end of the loop
  have hA := overflowLoop_frame (layoutWidth s more) pre ((passClassified s more).1, 0)
  have hAk : (overflowLoop (layoutWidth s more) pre ((passClassified s more).1, 0)).1.delegates k
      = (passClassified s more).1.delegates k := by
    apply overflowLoop_other
    intro a ha
    refine ⟨fun _ => ?_, hne a (List.mem_append_left _ ha)⟩
    dsimp only
    rw [hkeep _ hcf, hothers a (List.mem_append_left _ ha)]
    exact Bool.false_ne_true
  have hB := overflowStep_frame (layoutWidth s more)
    (overflowLoop (layoutWidth s more) pre ((passClassified s more).1, 0)) k
  have hBF : ∀ b, b ∉ rest → (overflowLoop (layoutWidth s more) rest
      (overflowStep (layoutWidth s more)
        (overflowLoop (layoutWidth s more) pre ((passClassified s more).1, 0)) k)).1.delegates b
      = (overflowStep (layoutWidth s more)
        (overflowLoop (layoutWidth s more) pre ((passClassified s more).1, 0)) k).1.delegates b := by
    intro b hb
    apply overflowLoop_other
    intro a ha
    refine ⟨fun _ => ?_, fun e => hb (e ▸ ha)⟩
    rw [hkeep _ (hB.trans (hA.trans hcf)), hothers a (List.mem_append_right _ ha)]
    exact Bool.false_ne_true
  have hkrest : k ∉ rest := fun h => hne k (List.mem_append_right _ h) rfl
  have hkpre : k ∉ pre := fun h => hne k (List.mem_append_left _ h) rfl
  rw [hBF k hkrest, overflowStep_delegates] at hfin
  have hstep := maybeHideDelegate_last_resort
    (overflowLoop (layoutWidth s more) pre ((passClassified s more).1, 0)).1 k
    (overflowLoop (layoutWidth s more) pre ((passClassified s more).1, 0)).2
    (layoutWidth s more) pre rest
    (by rw [frame_sortedDelegates (hA.trans hcf), hact]) hkpre
    (by rw [hkeep _ (hA.trans hcf)]; exact hk)
    (by
      rw [hAk]
      unfold ToolBarLayoutDelegate.width
      rw [hkc]
      simp)
    ((isVisible_eq_false_iff _).2 hfin)
  rcases hstep with ⟨h1, -⟩ | h1
  · have hpk : ¬ ((overflowLoop (layoutWidth s more) pre
        ((passClassified s more).1, 0)).1.delegates p).keepVisible = true := by
      rw [hkeep _ (hA.trans hcf), hothers p (List.mem_append_left _ hp)]
      exact Bool.false_ne_true
    have h2 := h1 p hp hpk
    rw [← overflowStep_delegates] at h2
    rw [← isVisible_eq_false_iff]
    by_contra hc
    have h3 := overflowLoop_visible_mono (layoutWidth s more) rest _ p (by simpa using hc)
    rw [h2] at h3
    exact Bool.false_ne_true h3
  · rw [hAk, isVisible_of_mode_full _ hkc] at h1
    exact absurd h1 (by decide)

/-- C2 (priority ordering), amended: in a completed pass over an action list with exactly
one keepVisible action `k` and otherwise non-priority actions, if `k` was tentatively Full
and ends the pass Hidden, then every action before it in the list ends Hidden.  (A demotion
of `k` to Icon does not wait for the earlier actions to be hidden.) -/
theorem priority_hidden_after_others (cd : Action → ToolBarLayoutDelegate) (s : Private)
    (more : QQuickItem) (pre rest : List Action) (k : Action)
    (hc : passCompletes cd s = true) (hm : s.moreButtonInstance = some more)
    (hact : s.actions = pre ++ k :: rest)
    (hk : ((beginPass cd s).delegates k).keepVisible = true)
    (hothers : ∀ b ∈ pre ++ rest, ((beginPass cd s).delegates b).keepVisible = false)
    (htent : tentativeMode ((beginPass cd s).delegates k) = DisplayMode.Full)
    (hfin : ((performLayout cd s).delegates k).mode = DisplayMode.Hidden) :
    ∀ p ∈ pre, ((performLayout cd s).delegates p).mode = DisplayMode.Hidden := by
  rw [performLayout_of_completes cd s more hc hm] at hfin ⊢
  exact layoutBody_priority (beginPass cd s) more pre rest k
    (by rw [beginPass_sortedDelegates, hact]) hk hothers htent hfin

/-- C2, refuted as stated, on the spec's own scenario (five actions of width 80, icon
width 32, spacing 8, indicator width 40, W = 300, action 4 the only keepVisible one):
the space is insufficient (432 > 252), action 4 is tentatively Full and is demoted to
Icon, yet the non-priority actions 0 and 1 before it are still shown Full. -/
theorem priority_ordering_counterexample :
    ((scenarioKeep AlignLeft).delegates 4).keepVisible = true ∧
      (∀ b ∈ [0, 1, 2, 3], ((scenarioKeep AlignLeft).delegates b).keepVisible = false) ∧
      (passClassified (beginPass sampleProvider (scenarioKeep AlignLeft)) (sampleMore 40)).2.1 - 8
        > layoutWidth (scenarioKeep AlignLeft) (sampleMore 40) ∧
      tentativeMode ((scenarioKeep AlignLeft).delegates 4) = DisplayMode.Full ∧
      ((performLayout sampleProvider (scenarioKeep AlignLeft)).delegates 4).mode
        = DisplayMode.Icon ∧
      ¬ (∀ p ∈ [0, 1, 2, 3],
        ((performLayout sampleProvider (scenarioKeep AlignLeft)).delegates p).mode
          = DisplayMode.Hidden) := by
  refine ⟨rfl, by decide, by decide!, by decide, by decide!, ?_⟩
  intro h
  have h0 := h 0 (by decide)
  revert h0
  decide!

theorem priority_hidden_after_others_witness :
    ((performLayout sampleProvider scenarioNarrow).delegates 0).mode = DisplayMode.Hidden :=
  priority_hidden_after_others sampleProvider scenarioNarrow (sampleMore 40) [0] [] 1
    (by decide!) rfl rfl (by decide!) (by decide!) (by decide!) (by decide!) 0 (by decide)

/-- C3 (a keepVisible action is hidden only as a last resort): at any point of the overflow
loop over distinct delegates, if `maybeHideDelegate` hides a visible keepVisible delegate
whose icon width is at most its full width, then every delegate before it in the list that
is not keepVisible is hidden at that point, and the delegate does not fit at icon width in
the space left (`currentWidth + iconWidth > totalWidth`).  In the spec's scenario (five
actions of width 80, icon width 32, spacing 8, indicator width 40, W = 300, action 4
keepVisible) action 4 is not hidden: it is shown as Icon. -/
theorem keepVisible_hidden_last_resort :
    (∀ (s : Private) (a : Action) (currentWidth totalWidth : ℚ) (pre rest : List Action),
      s.sortedDelegates = pre ++ a :: rest → s.sortedDelegates.Nodup →
      (s.delegates a).keepVisible = true →
      (s.delegates a).iconWidth ≤ (s.delegates a).fullWidth →
      (s.delegates a).isVisible = true →
      ((maybeHideDelegate s a currentWidth totalWidth).1.delegates a).isVisible = false →
        (∀ p ∈ pre, (s.delegates p).keepVisible = false →
          ((maybeHideDelegate s a currentWidth totalWidth).1.delegates p).mode
            = DisplayMode.Hidden) ∧
        (maybeHideDelegate s a currentWidth totalWidth).2 + (s.delegates a).iconWidth
          > totalWidth) ∧
    ((performLayout sampleProvider (scenarioKeep AlignLeft)).delegates 4).mode
      = DisplayMode.Icon := by
  refine ⟨?_, by decide!⟩
  intro s a cw tw pre rest hs hnd hk hiw hvis hh
  have hpre : a ∉ pre := by
    rw [hs] at hnd
    have := (List.nodup_append.1 hnd).2.2
    intro hmem
    exact this hmem (List.mem_cons_self _ _)
  have hw : (s.delegates a).width ≤ (s.delegates a).fullWidth := by
    unfold ToolBarLayoutDelegate.width
    split_ifs
    · exact hiw
    · exact le_refl _
  rcases maybeHideDelegate_last_resort s a cw tw pre rest hs hpre hk hw hh with ⟨h1, h2⟩ | h
  · refine ⟨fun p hp hpk => ?_, h2⟩
    rw [← isVisible_eq_false_iff]
    exact h1 p hp (by rw [hpk]; exact Bool.false_ne_true)
  · rw [hvis] at h
    exact absurd h (by decide)

theorem keepVisible_hidden_last_resort_witness :
    ((maybeHideDelegate scenarioStep 1 88 12).1.delegates 0).mode = DisplayMode.Hidden ∧
      (maybeHideDelegate scenarioStep 1 88 12).2 + (scenarioStep.delegates 1).iconWidth > 12 :=
  have h := keepVisible_hidden_last_resort.1 scenarioStep 1 88 12 [0] [] rfl (by decide) rfl
    (by norm_num [scenarioStep, sampleState, sampleDelegate, ToolBarLayoutDelegate.showFull])
    rfl (by decide!)
  ⟨h.1 0 (by decide) rfl, h.2⟩

/-! ## Shrinking the container -/

theorem width_congr {d e : ToolBarLayoutDelegate} (h : e.item = d.item)
    (hm : e.mode = d.mode) : e.width = d.width := by
  unfold ToolBarLayoutDelegate.width
  rw [item_fullWidth h, item_iconWidth h, hm]

theorem overflowStep_skip (tw : ℚ) (acc : Private × ℚ) (a : Action)
    (hv : ¬ (acc.1.delegates a).isVisible = true) : overflowStep tw acc a = acc := by
  unfold overflowStep maybeHideDelegate
  rw [if_pos (Or.inl hv)]
  dsimp only
  rw [if_neg hv]

theorem overflowStep_keep (tw : ℚ) (acc : Private × ℚ) (a : Action)
    (hv : (acc.1.delegates a).isVisible = true)
    (hfit : acc.2 + (acc.1.delegates a).width < tw) :
    overflowStep tw acc a = (acc.1, acc.2 + ((acc.1.delegates a).width + acc.1.spacing)) := by
  unfold overflowStep maybeHideDelegate
  rw [if_pos (Or.inr hfit)]
  dsimp only
  rw [if_pos hv]

theorem overflowStep_hide (tw : ℚ) (acc : Private × ℚ) (a : Action)
    (hv : (acc.1.delegates a).isVisible = true)
    (hk : ¬ (acc.1.delegates a).keepVisible = true)
    (hfit : ¬ acc.2 + (acc.1.delegates a).width < tw) :
    overflowStep tw acc a =
      ((acc.1.setDelegate a (acc.1.delegates a).hide).appendHidden a, acc.2) := by
  unfold overflowStep maybeHideDelegate
  have h1 : ¬ (¬ (acc.1.delegates a).isVisible = true ∨ acc.2 + (acc.1.delegates a).width < tw) :=
    fun h => h.elim (fun h => h hv) hfit
  rw [if_neg h1, if_neg hk]
  dsimp only
  rw [if_neg]
  simp

theorem overflowLoop_all_hidden (tw : ℚ) (l : List Action) (acc : Private × ℚ)
    (h : ∀ c ∈ l, (acc.1.delegates c).isVisible = true →
      ¬ (acc.1.delegates c).keepVisible = true ∧ tw ≤ acc.2 + (acc.1.delegates c).width) :
    ∀ c ∈ l, ((overflowLoop tw l acc).1.delegates c).isVisible = false := by
  induction l generalizing acc with
  | nil => intro c hc; simp at hc
  | cons a rest ih =>
    rw [overflowLoop]
    -- after the step of `a`, `a` is hidden and the hypothesis holds for the rest
    have hstep : ((overflowStep tw acc a).1.delegates a).isVisible = false ∧
        ∀ c ∈ rest, ((overflowStep tw acc a).1.delegates c).isVisible = true →
          ¬ ((overflowStep tw acc a).1.delegates c).keepVisible = true ∧
            tw ≤ (overflowStep tw acc a).2 + ((overflowStep tw acc a).1.delegates c).width := by
      by_cases hv : (acc.1.delegates a).isVisible = true
      · obtain ⟨hk, hw⟩ := h a (List.mem_cons_self _ _) hv
        rw [overflowStep_hide tw acc a hv hk (not_lt.2 hw)]
        refine ⟨by simp, fun c hc hcv => ?_⟩
        have hca : c ≠ a := by
          intro e; rw [e] at hcv; simp at hcv
        simp only [appendHidden_delegates, setDelegate_delegates, Function.update_noteq hca]
          at hcv ⊢
        exact h c (List.mem_cons_of_mem _ hc) hcv
      · rw [overflowStep_skip tw acc a hv]
        exact ⟨by simpa using hv, fun c hc hcv => h c (List.mem_cons_of_mem _ hc) hcv⟩
    intro c hc
    rcases List.mem_cons.1 hc with e | e
    · subst e
      by_contra hcon
      have := overflowLoop_visible_mono tw rest _ c (by simpa using hcon)
      rw [hstep.1] at this
      exact Bool.false_ne_true this
    · exact ih _ hstep.2 c e

theorem beginPass_withWidth (cd : Action → ToolBarLayoutDelegate) (s : Private) (w : ℚ) :
    beginPass cd (s.withWidth w) = (beginPass cd s).withWidth w := by
  unfold beginPass createDelegates Private.withWidth
  dsimp only
  split_ifs <;> rfl

theorem passCompletes_withWidth (cd : Action → ToolBarLayoutDelegate) (s : Private) (w : ℚ) :
    passCompletes cd (s.withWidth w) = passCompletes cd s := by
  unfold passCompletes
  rw [beginPass_withWidth]
  rfl

theorem passClassified_similar (s : Private) (more : QQuickItem) (w : ℚ) :
    Similar (passClassified s more).1.delegates
      (passClassified (s.withWidth w) more).1.delegates := by
  intro b
  refine ⟨?_, ?_⟩
  · rw [frame_item (passClassified_frame (s.withWidth w) more) b,
      frame_item (passClassified_frame s more) b]
    rfl
  · unfold passClassified
    rw [classifyAll_mode, classifyAll_mode]
    rfl

theorem passClassified_maxWidth (s : Private) (more : QQuickItem) :
    (passClassified s more).2.1 =
      consumedSum s.spacing (passClassified s more).1.delegates s.sortedDelegates := by
  have h := classifyAll_maxWidth s.sortedDelegates
    (s, 0, if more.visible then more.height else 0)
  unfold passClassified
  rw [h]
  simp

theorem passClassified_withWidth_maxWidth (s : Private) (more : QQuickItem) (w : ℚ) :
    (passClassified (s.withWidth w) more).2.1 = (passClassified s more).2.1 := by
  rw [passClassified_maxWidth, passClassified_maxWidth]
  exact consumedSum_congr _ _ _ _ fun a _ => passClassified_similar s more w a

theorem passClassified_width (s : Private) (more : QQuickItem) (a : Action)
    (ha : a ∈ s.sortedDelegates) :
    ((passClassified s more).1.delegates a).width = tentativeWidth (s.delegates a) := by
  have hi := frame_item (passClassified_frame s more) a
  unfold ToolBarLayoutDelegate.width tentativeWidth
  rw [passClassified_mode s more a ha, item_iconWidth hi, item_fullWidth hi]

theorem passClassified_isVisible (s : Private) (more : QQuickItem) (a : Action)
    (ha : a ∈ s.sortedDelegates) :
    ((passClassified s more).1.delegates a).isVisible = true ↔
      tentativeMode (s.delegates a) ≠ DisplayMode.Hidden := by
  unfold ToolBarLayoutDelegate.isVisible
  rw [passClassified_mode s more a ha]
  simp

theorem classify_hiddenActions (s : Private) (mw mh : ℚ) (a : Action) :
    (classify s mw mh a).1.hiddenActions =
      s.hiddenActions ++
        (if (s.delegates a).actionVisible = true ∧ (s.delegates a).hidden = true then [a]
         else []) := by
  unfold classify
  by_cases h1 : (s.delegates a).actionVisible = true
  · by_cases h2 : (s.delegates a).hidden = true
    · simp [h1, h2]
    · by_cases h3 : (s.delegates a).iconOnly = true <;> simp [h1, h2, h3]
  · simp [h1]

theorem classifyAll_hiddenActions_of_full (l : List Action) (acc : Private × ℚ × ℚ)
    (h : ∀ a ∈ l, tentativeMode (acc.1.delegates a) = DisplayMode.Full) :
    (classifyAll l acc).1.hiddenActions = acc.1.hiddenActions := by
  induction l generalizing acc with
  | nil => rfl
  | cons a rest ih =>
    obtain ⟨s, mw, mh⟩ := acc
    rw [classifyAll, ih, classify_hiddenActions]
    · have ha := h a (List.mem_cons_self _ _)
      dsimp only at ha ⊢
      unfold tentativeMode at ha
      by_cases h1 : (s.delegates a).actionVisible = true
      · by_cases h2 : (s.delegates a).hidden = true
        · simp [h1, h2] at ha
        · simp [h2]
      · simp [h1] at ha
    · intro c hc
      rw [tentativeMode_congr (frame_item (classify_frame s mw mh a) c)]
      exact h c (List.mem_cons_of_mem _ hc)

theorem consumedSum_of_full (sp : ℚ) (ds : Action → ToolBarLayoutDelegate) (l : List Action)
    (h : ∀ a ∈ l, (ds a).mode = DisplayMode.Full) :
    consumedSum sp ds l = (l.map fun a => (ds a).fullWidth).sum + l.length * sp := by
  induction l with
  | nil => simp
  | cons a rest ih =>
    have ha := h a (List.mem_cons_self _ _)
    rw [consumedSum_cons, ih fun c hc => h c (List.mem_cons_of_mem _ hc),
      consumed_of_visible _ _ (isVisible_of_mode_full _ ha)]
    unfold ToolBarLayoutDelegate.width
    rw [ha]
    simp only [List.map_cons, List.sum_cons, List.length_cons, Nat.cast_add, Nat.cast_one]
    simp
    ring

theorem layoutBody_moreButtonInstance (s : Private) (more : QQuickItem) :
    (layoutBody s more).moreButtonInstance =
      some (placeMoreButton (passResolved s more).1 more (passClassified s more).2.2) := rfl

/-- The pass proper: when every action is tentatively Full and the sum fits, nothing
changes after the first loop. -/
theorem layoutBody_everything_fits (s : Private) (more : QQuickItem)
    (helig : ∀ a ∈ s.sortedDelegates, tentativeMode (s.delegates a) = DisplayMode.Full)
    (hfit : (s.sortedDelegates.map fun a => (s.delegates a).fullWidth).sum +
      ((s.sortedDelegates.length : ℚ) - 1) * s.spacing ≤ layoutWidth s more) :
    (∀ a ∈ s.sortedDelegates, ((layoutBody s more).delegates a).mode = DisplayMode.Full) ∧
      (layoutBody s more).hiddenActions = s.hiddenActions ∧
      (passResolved s more).2 =
        (s.sortedDelegates.map fun a => (s.delegates a).fullWidth).sum +
          ((s.sortedDelegates.length : ℚ) - 1) * s.spacing := by
  have hcf := passClassified_frame s more
  have hmode : ∀ a ∈ s.sortedDelegates,
      ((passClassified s more).1.delegates a).mode = DisplayMode.Full := fun a ha => by
    rw [passClassified_mode s more a ha, helig a ha]
  have hmw : (passClassified s more).2.1 - s.spacing =
      (s.sortedDelegates.map fun a => (s.delegates a).fullWidth).sum +
        ((s.sortedDelegates.length : ℚ) - 1) * s.spacing := by
    rw [passClassified_maxWidth, consumedSum_of_full _ _ _ hmode]
    have e : (s.sortedDelegates.map fun a => ((passClassified s more).1.delegates a).fullWidth)
        = s.sortedDelegates.map fun a => (s.delegates a).fullWidth :=
      List.map_congr_left fun a _ => item_fullWidth (frame_item hcf a)
    rw [e]
    ring
  have hres := passResolved_fits s more (by rw [hmw]; exact not_lt.2 hfit)
  refine ⟨fun a ha => ?_, ?_, ?_⟩
  · rw [(layoutBody_delegates s more a).2, hres]
    exact hmode a ha
  · rw [layoutBody_hiddenActions, hres]
    exact classifyAll_hiddenActions_of_full _ _ helig
  · rw [hres]
    exact hmw

/-- Everything fits, in exact arithmetic: in a completed pass in which every action is
tentatively Full and `sumWidth = (sum of full widths) + (N - 1) * spacing` is at most the
layout width, each action stays Full, the hidden-actions list is empty, the indicator is
not shown, and the visible actions width equals `sumWidth`. -/
theorem everything_fits (cd : Action → ToolBarLayoutDelegate) (s : Private)
    (more : QQuickItem) (hc : passCompletes cd s = true)
    (hm : s.moreButtonInstance = some more)
    (helig : ∀ a ∈ s.actions,
      tentativeMode ((beginPass cd s).delegates a) = DisplayMode.Full)
    (hfit : (s.actions.map fun a => ((beginPass cd s).delegates a).fullWidth).sum +
      ((s.actions.length : ℚ) - 1) * s.spacing ≤ layoutWidth s more) :
    (∀ a ∈ s.actions, ((performLayout cd s).delegates a).mode = DisplayMode.Full) ∧
      (performLayout cd s).hiddenActions = [] ∧
      (∃ m, (performLayout cd s).moreButtonInstance = some m ∧ m.visible = false) ∧
      visibleActionsWidth cd s more =
        (s.actions.map fun a => ((beginPass cd s).delegates a).fullWidth).sum +
          ((s.actions.length : ℚ) - 1) * s.spacing := by
  have hsd := beginPass_sortedDelegates cd s
  have h := layoutBody_everything_fits (beginPass cd s) more (by rw [hsd]; exact helig)
    (by rw [hsd, (beginPass_config cd s).1, beginPass_layoutWidth]; exact hfit)
  rw [hsd, (beginPass_config cd s).1, beginPass_hiddenActions] at h
  rw [performLayout_of_completes cd s more hc hm]
  refine ⟨h.1, h.2.1, ⟨_, layoutBody_moreButtonInstance _ more, ?_⟩, h.2.2⟩
  unfold placeMoreButton
  have hh : (passResolved (beginPass cd s) more).1.hiddenActions = [] := by
    rw [← layoutBody_hiddenActions]; exact h.2.1
  rw [if_neg (by rw [hh]; exact fun hne => hne rfl)]

theorem everything_fits_witness :
    (∀ a ∈ [0, 1, 2, 3, 4],
        ((performLayout sampleProvider (scenarioPlain 500)).delegates a).mode
          = DisplayMode.Full) ∧
      (performLayout sampleProvider (scenarioPlain 500)).hiddenActions = [] ∧
      (∃ m, (performLayout sampleProvider (scenarioPlain 500)).moreButtonInstance = some m ∧
        m.visible = false) ∧
      visibleActionsWidth sampleProvider (scenarioPlain 500) (sampleMore 40) =
        ([0, 1, 2, 3, 4].map fun a =>
          ((beginPass sampleProvider (scenarioPlain 500)).delegates a).fullWidth).sum +
          (((5 : ℕ) : ℚ) - 1) * 8 :=
  everything_fits sampleProvider (scenarioPlain 500) (sampleMore 40) (by decide!) rfl
    (by decide!) (by decide!)

/-- C7 (indicator control): after every completed pass the "more" button is shown if and
only if the hidden-actions list is not empty; when shown it is at `x = W - indicatorWidth`
in left-to-right direction and at `x = 0` otherwise. -/
theorem indicator_control (cd : Action → ToolBarLayoutDelegate) (s : Private)
    (more : QQuickItem) (hc : passCompletes cd s = true)
    (hm : s.moreButtonInstance = some more) :
    ∃ m, (performLayout cd s).moreButtonInstance = some m ∧
      (m.visible = true ↔ (performLayout cd s).hiddenActions ≠ []) ∧
      (m.visible = true →
        m.x = if s.layoutDirection = LayoutDirection.LeftToRight then s.width - more.width
          else 0) := by
  rw [performLayout_of_completes cd s more hc hm]
  have hfr := passResolved_frame (beginPass cd s) more
  have hdir : (passResolved (beginPass cd s) more).1.layoutDirection = s.layoutDirection := by
    rw [frame_layoutDirection hfr, (beginPass_config cd s).2.2.2.1]
  have hwid : (passResolved (beginPass cd s) more).1.width = s.width := by
    rw [frame_width hfr, (beginPass_config cd s).2.1]
  refine ⟨_, layoutBody_moreButtonInstance _ more, ?_, ?_⟩
  · rw [layoutBody_hiddenActions]
    unfold placeMoreButton
    by_cases h : (passResolved (beginPass cd s) more).1.hiddenActions ≠ []
    · rw [if_pos h]
      exact ⟨fun _ => h, fun _ => rfl⟩
    · rw [if_neg h]
      exact ⟨fun hv => absurd hv Bool.false_ne_true, fun hne => absurd hne h⟩
  · unfold placeMoreButton
    rw [hdir, hwid]
    by_cases h : (passResolved (beginPass cd s) more).1.hiddenActions ≠ []
    · rw [if_pos h]
      intro _
      rfl
    · rw [if_neg h]
      intro hv
      exact absurd hv Bool.false_ne_true

theorem indicator_control_witness :
    ∃ m, (performLayout sampleProvider (scenarioKeep AlignLeft)).moreButtonInstance = some m ∧
      (m.visible = true ↔
        (performLayout sampleProvider (scenarioKeep AlignLeft)).hiddenActions ≠ []) ∧
      (m.visible = true →
        m.x = if (scenarioKeep AlignLeft).layoutDirection = LayoutDirection.LeftToRight then
          (scenarioKeep AlignLeft).width - (sampleMore 40).width else 0) :=
  indicator_control sampleProvider (scenarioKeep AlignLeft) (sampleMore 40) (by decide!) rfl

/-! ## Consistency of the hidden list -/

theorem HiddenInv.hide {l : List Action} {t : Private} (h : HiddenInv l t) (p : Action)
    (hp : p ∈ l) (hv : (t.delegates p).isVisible = true) :
    HiddenInv l ((t.setDelegate p (t.delegates p).hide).appendHidden p) := by
  obtain ⟨h1, h2, h3⟩ := h
  have hpn : p ∉ t.hiddenActions := by
    intro hmem
    have := ((h1 p).1 hmem).2.1
    rw [hv] at this
    exact Bool.noConfusion this
  refine ⟨fun a => ?_, ?_, fun a ha hav => ?_⟩
  · simp only [appendHidden_hiddenActions, appendHidden_delegates, setDelegate_delegates,
      List.mem_append, List.mem_singleton]
    by_cases hap : a = p
    · subst hap
      simp only [Function.update_same, isVisible_hide, true_and, or_true, true_iff]
      exact ⟨hp, h3 a hp hv⟩
    · simp only [Function.update_noteq hap, hap, or_false]
      exact h1 a
  · simp only [appendHidden_hiddenActions]
    exact List.Nodup.append h2 (List.nodup_singleton p) (by simpa using hpn)
  · simp only [appendHidden_delegates, setDelegate_delegates] at hav ⊢
    by_cases hap : a = p
    · subst hap; simp at hav
    · rw [Function.update_noteq hap] at hav ⊢
      exact h3 a ha hav

theorem HiddenInv.showIcon {l : List Action} {t : Private} (h : HiddenInv l t) (a : Action)
    (hv : (t.delegates a).isVisible = true) :
    HiddenInv l (t.setDelegate a (t.delegates a).showIcon) := by
  obtain ⟨h1, h2, h3⟩ := h
  have key : ∀ b, ((t.setDelegate a (t.delegates a).showIcon).delegates b).isVisible =
        (t.delegates b).isVisible ∧
      ((t.setDelegate a (t.delegates a).showIcon).delegates b).actionVisible =
        (t.delegates b).actionVisible := by
    intro b
    by_cases hb : b = a
    · subst hb
      simp only [setDelegate_delegates, Function.update_same, isVisible_showIcon, hv]
      exact ⟨trivial, rfl⟩
    · simp [Function.update_noteq hb]
  refine ⟨fun b => ?_, h2, fun b hb hbv => ?_⟩
  · rw [(key b).1, (key b).2]
    exact h1 b
  · rw [(key b).1] at hbv
    rw [(key b).2]
    exact h3 b hb hbv

theorem reclaim_hiddenInv (l : List Action) (a : Action) (tw : ℚ) (prev : List Action)
    (acc : Private × ℚ) (hprev : ∀ p ∈ prev, p ∈ l)
    (hk : (acc.1.delegates a).keepVisible = true)
    (hvis : (acc.1.delegates a).isVisible = true) (h : HiddenInv l acc.1) :
    HiddenInv l (reclaim a tw prev acc).1 ∧
      ((reclaim a tw prev acc).1.delegates a).isVisible = true := by
  induction prev generalizing acc with
  | nil => exact ⟨h, hvis⟩
  | cons p prev ih =>
    have hprev1 : ∀ q ∈ prev, q ∈ l := fun q hq => hprev q (List.mem_cons_of_mem _ hq)
    rw [reclaim]
    dsimp only
    by_cases hpv : (acc.1.delegates p).isVisible = true
    swap
    · rw [if_pos hpv]
      exact ih acc hprev1 hk hvis h
    rw [if_neg (not_not.2 hpv)]
    by_cases hpk : (acc.1.delegates p).keepVisible = true
    · rw [if_pos hpk]
      exact ih acc hprev1 hk hvis h
    rw [if_neg hpk]
    have hpa : p ≠ a := by
      intro e; rw [e] at hpk; exact hpk hk
    have h1 : HiddenInv l (reclaimOne p acc).1 :=
      h.hide p (hprev p (List.mem_cons_self _ _)) hpv
    have ha1 : (reclaimOne p acc).1.delegates a = acc.1.delegates a := by
      simp only [reclaimOne_delegates]
      exact Function.update_noteq (Ne.symm hpa) _ _
    have hvis1 : ((reclaimOne p acc).1.delegates a).isVisible = true := by rw [ha1]; exact hvis
    split_ifs
    · exact ⟨h1, hvis1⟩
    · exact ⟨h1.showIcon a hvis1, by simp⟩
    · exact ih (reclaimOne p acc) hprev1 (by rw [ha1]; exact hk) hvis1 h1

theorem mem_reclaimRange_sorted (s : Private) (a p : Action) (hp : p ∈ reclaimRange s a) :
    p ∈ s.sortedDelegates := by
  unfold reclaimRange at hp
  exact List.mem_of_mem_take (List.mem_reverse.1 hp)

theorem maybeHideDelegate_hiddenInv (s : Private) (a : Action) (cw tw : ℚ)
    (ha : a ∈ s.sortedDelegates) (h : HiddenInv s.sortedDelegates s) :
    HiddenInv s.sortedDelegates (maybeHideDelegate s a cw tw).1 := by
  unfold maybeHideDelegate
  by_cases h1 : ¬ (s.delegates a).isVisible = true ∨ cw + (s.delegates a).width < tw
  · rw [if_pos h1]; exact h
  rw [if_neg h1]
  have hvis : (s.delegates a).isVisible = true := by
    by_contra hc; exact h1 (Or.inl hc)
  by_cases hk : (s.delegates a).keepVisible = true
  · rw [if_pos hk]
    by_cases hi : cw + (s.delegates a).iconWidth > tw
    · rw [if_pos hi]
      dsimp only
      obtain ⟨r1, r2⟩ := reclaim_hiddenInv s.sortedDelegates a tw (reclaimRange s a) (s, cw)
        (fun p hp => mem_reclaimRange_sorted s a p hp) hk hvis h
      split_ifs
      · exact r1.hide a ha r2
      · exact r1
    · rw [if_neg hi]
      exact h.showIcon a hvis
  · rw [if_neg hk]
    exact h.hide a ha hvis

theorem overflowLoop_hiddenInv (tw : ℚ) (l sorted : List Action) (acc : Private × ℚ)
    (hs : acc.1.sortedDelegates = sorted) (hl : ∀ a ∈ l, a ∈ sorted)
    (h : HiddenInv sorted acc.1) : HiddenInv sorted (overflowLoop tw l acc).1 := by
  induction l generalizing acc with
  | nil => exact h
  | cons a rest ih =>
    rw [overflowLoop]
    refine ih _ ?_ (fun c hc => hl c (List.mem_cons_of_mem _ hc)) ?_
    · rw [frame_sortedDelegates (overflowStep_frame tw acc a)]; exact hs
    · rw [overflowStep_delegates]
      have := maybeHideDelegate_hiddenInv acc.1 a acc.2 tw
        (by rw [hs]; exact hl a (List.mem_cons_self _ _)) (by rw [hs]; exact h)
      rw [hs] at this
      exact this

theorem classify_hiddenInv (pre : List Action) (s : Private) (mw mh : ℚ) (a : Action)
    (ha : a ∉ pre) (h : HiddenInv pre s) : HiddenInv (pre ++ [a]) (classify s mw mh a).1 := by
  obtain ⟨h1, h2, h3⟩ := h
  have han : a ∉ s.hiddenActions := fun hmem => ha ((h1 a).1 hmem).1
  have hother : ∀ b, b ≠ a → (classify s mw mh a).1.delegates b = s.delegates b :=
    fun b hb => classify_delegates_other s mw mh a b hb
  have hav : ((classify s mw mh a).1.delegates a).actionVisible = (s.delegates a).actionVisible :=
    item_actionVisible (frame_item (classify_frame s mw mh a) a)
  have hvis : ((classify s mw mh a).1.delegates a).isVisible = true ↔
      tentativeMode (s.delegates a) ≠ DisplayMode.Hidden := by
    unfold ToolBarLayoutDelegate.isVisible
    rw [classify_mode_self]
    simp
  have hten : tentativeMode (s.delegates a) ≠ DisplayMode.Hidden ↔
      ((s.delegates a).actionVisible = true ∧ ¬ (s.delegates a).hidden = true) := by
    unfold tentativeMode
    by_cases c1 : (s.delegates a).actionVisible = true
    · by_cases c2 : (s.delegates a).hidden = true
      · simp [c1, c2]
      · by_cases c3 : (s.delegates a).iconOnly = true <;> simp [c1, c2, c3]
    · simp [c1]
  have hhid := classify_hiddenActions s mw mh a
  refine ⟨fun b => ?_, ?_, fun b hb hbv => ?_⟩
  · rw [hhid]
    by_cases hba : b = a
    · subst hba
      rw [hav]
      have hnv : ((classify s mw mh b).1.delegates b).isVisible = false ↔
          ¬ ((s.delegates b).actionVisible = true ∧ ¬ (s.delegates b).hidden = true) := by
        rw [← hten, ← hvis]
        simp
      rw [hnv]
      by_cases c1 : (s.delegates b).actionVisible = true
      · by_cases c2 : (s.delegates b).hidden = true
        · simp [c1, c2]
        · simp [c1, c2, han]
      · simp [c1, han]
    · rw [hother b hba]
      have : b ∈ s.hiddenActions ++
          (if (s.delegates a).actionVisible = true ∧ (s.delegates a).hidden = true then [a]
           else []) ↔ b ∈ s.hiddenActions := by
        split_ifs <;> simp [hba]
      rw [this, h1 b]
      simp [hba]
  · rw [hhid]
    split_ifs
    · exact List.Nodup.append h2 (List.nodup_singleton a) (by simpa using han)
    · simpa using h2
  · by_cases hba : b = a
    · subst hba
      rw [hav]
      exact ((hten.1 (hvis.1 hbv))).1
    · rw [hother b hba] at hbv ⊢
      rcases List.mem_append.1 hb with hb1 | hb1
      · exact h3 b hb1 hbv
      · exact absurd (List.mem_singleton.1 hb1) hba

theorem classifyAll_hiddenInv (l pre : List Action) (acc : Private × ℚ × ℚ)
    (hnd : (pre ++ l).Nodup) (h : HiddenInv pre acc.1) :
    HiddenInv (pre ++ l) (classifyAll l acc).1 := by
  induction l generalizing pre acc with
  | nil => simpa [classifyAll] using h
  | cons a rest ih =>
    obtain ⟨s, mw, mh⟩ := acc
    rw [classifyAll]
    have ha : a ∉ pre := by
      have := (List.nodup_append.1 hnd).2.2
      intro hmem
      exact this hmem (List.mem_cons_self _ _)
    have h1 := ih (pre ++ [a]) (classify s mw mh a) (by simpa using hnd)
      (classify_hiddenInv pre s mw mh a ha h)
    simpa using h1

/-- The pass proper keeps the hidden list consistent when the delegates are distinct and
the list starts empty. -/
theorem layoutBody_hiddenInv (s : Private) (more : QQuickItem) (hnd : s.sortedDelegates.Nodup)
    (hh : s.hiddenActions = []) : HiddenInv s.sortedDelegates (passResolved s more).1 := by
  have hcf := passClassified_frame s more
  have h0 : HiddenInv [] s := by
    refine ⟨fun a => ?_, by rw [hh]; exact List.nodup_nil, fun a ha => by simp at ha⟩
    rw [hh]
    simp
  have hc : HiddenInv s.sortedDelegates (passClassified s more).1 := by
    have := classifyAll_hiddenInv s.sortedDelegates []
      (s, 0, if more.visible then more.height else 0) (by simpa using hnd) h0
    simpa using this
  by_cases hov : (passClassified s more).2.1 - s.spacing > layoutWidth s more
  · rw [passResolved_overflow s more hov]
    exact overflowLoop_hiddenInv _ _ s.sortedDelegates _ (frame_sortedDelegates hcf)
      (fun a ha => ha) hc
  · rw [passResolved_fits s more hov]
    exact hc

/-- C6 (hidden-list consistency): after a completed pass over distinct actions, an action
of the list is in `hiddenActions` if and only if its delegate is not visible (mode Hidden)
and the action is not explicitly hidden; every entry of `hiddenActions` is such an action
of the list, so explicitly hidden actions are never in it; and no action appears in it
twice. -/
theorem hidden_list_consistent (cd : Action → ToolBarLayoutDelegate) (s : Private)
    (more : QQuickItem) (hc : passCompletes cd s = true)
    (hm : s.moreButtonInstance = some more) (hnd : s.actions.Nodup) :
    (∀ a ∈ s.actions, (a ∈ (performLayout cd s).hiddenActions ↔
        ((performLayout cd s).delegates a).mode = DisplayMode.Hidden ∧
          ((performLayout cd s).delegates a).actionVisible = true)) ∧
      (∀ a ∈ (performLayout cd s).hiddenActions,
        a ∈ s.actions ∧ ((performLayout cd s).delegates a).actionVisible = true) ∧
      (performLayout cd s).hiddenActions.Nodup := by
  rw [performLayout_of_completes cd s more hc hm]
  obtain ⟨h1, h2, -⟩ := layoutBody_hiddenInv (beginPass cd s) more
    (by rw [beginPass_sortedDelegates]; exact hnd) (beginPass_hiddenActions cd s)
  rw [beginPass_sortedDelegates] at h1
  have hmode : ∀ a, ((layoutBody (beginPass cd s) more).delegates a).mode = DisplayMode.Hidden ↔
      ((passResolved (beginPass cd s) more).1.delegates a).isVisible = false := fun a => by
    rw [(layoutBody_delegates _ more a).2, isVisible_eq_false_iff]
  have hav : ∀ a, ((layoutBody (beginPass cd s) more).delegates a).actionVisible =
      ((passResolved (beginPass cd s) more).1.delegates a).actionVisible := fun a =>
    item_actionVisible (layoutBody_delegates _ more a).1
  rw [layoutBody_hiddenActions]
  refine ⟨fun a ha => ?_, fun a ha => ?_, h2⟩
  · rw [hmode, hav, h1 a]
    simp [ha]
  · rw [hav]
    exact ⟨((h1 a).1 ha).1, ((h1 a).1 ha).2.2⟩

theorem hidden_list_consistent_witness :
    (∀ a ∈ [0, 1, 2, 3, 4],
      (a ∈ (performLayout sampleProvider (scenarioKeep AlignLeft)).hiddenActions ↔
        ((performLayout sampleProvider (scenarioKeep AlignLeft)).delegates a).mode
            = DisplayMode.Hidden ∧
          ((performLayout sampleProvider (scenarioKeep AlignLeft)).delegates a).actionVisible
            = true)) ∧
      (∀ a ∈ (performLayout sampleProvider (scenarioKeep AlignLeft)).hiddenActions,
        a ∈ [0, 1, 2, 3, 4] ∧
          ((performLayout sampleProvider (scenarioKeep AlignLeft)).delegates a).actionVisible
            = true) ∧
      (performLayout sampleProvider (scenarioKeep AlignLeft)).hiddenActions.Nodup :=
  hidden_list_consistent sampleProvider (scenarioKeep AlignLeft) (sampleMore 40) (by decide!)
    rfl (by decide)

/-! ## Passes that return early -/

theorem performLayout_of_no_template (cd : Action → ToolBarLayoutDelegate) (s : Private)
    (h : s.fullDelegate = none ∨ s.iconDelegate = none ∨ s.moreButton = none) :
    performLayout cd s = s := by
  unfold performLayout
  rw [if_pos]
  simpa [Option.isNone_iff_eq_none] using h

theorem performLayout_of_empty (cd : Action → ToolBarLayoutDelegate) (s : Private)
    (h1 : s.fullDelegate.isSome = true) (h2 : s.iconDelegate.isSome = true)
    (h3 : s.moreButton.isSome = true) (he : s.actions = []) :
    performLayout cd s = { s with implicitWidth := 0, implicitHeight := 0 } := by
  unfold performLayout
  rw [if_neg, if_pos he]
  rw [Option.isSome_iff_ne_none] at h1 h2 h3
  simp [h1, h2, h3]

theorem beginPass_implicit (cd : Action → ToolBarLayoutDelegate) (s : Private) :
    (beginPass cd s).implicitWidth = s.implicitWidth ∧
      (beginPass cd s).implicitHeight = s.implicitHeight := by
  unfold beginPass createDelegates
  dsimp only
  split_ifs <;> exact ⟨rfl, rfl⟩

/-- A pass that gets past the template and empty-list checks but finds a delegate not
ready, or no "more" button instance, returns with the hidden list cleared and the visible
width and implicit size untouched. -/
theorem performLayout_of_not_ready (cd : Action → ToolBarLayoutDelegate) (s : Private)
    (h1 : s.fullDelegate.isSome = true) (h2 : s.iconDelegate.isSome = true)
    (h3 : s.moreButton.isSome = true) (hne : s.actions ≠ [])
    (hc : passCompletes cd s = false) :
    (performLayout cd s).hiddenActions = [] ∧
      (performLayout cd s).visibleWidth = s.visibleWidth ∧
      (performLayout cd s).implicitWidth = s.implicitWidth ∧
      (performLayout cd s).implicitHeight = s.implicitHeight := by
  have hh := beginPass_hiddenActions cd s
  have hv := (beginPass_config cd s).2.2.2.2
  have hi := beginPass_implicit cd s
  have hall : (beginPass cd s).moreButtonInstance.isSome = true →
      ¬ ((beginPass cd s).delegateKeys.all
        fun a => ((beginPass cd s).delegates a).ready) = true := by
    intro hm hr
    have : passCompletes cd s = true := by
      unfold passCompletes
      simp [h1, h2, h3, hm, hne]
      simpa using hr
    rw [hc] at this
    exact Bool.false_ne_true this
  unfold performLayout
  rw [if_neg, if_neg hne]
  · dsimp only
    cases hmb : (beginPass cd s).moreButtonInstance with
    | none => exact ⟨hh, hv, hi.1, hi.2⟩
    | some more =>
      dsimp only
      rw [if_pos (hall (by rw [hmb]; rfl))]
      exact ⟨hh, hv, hi.1, hi.2⟩
  · rw [Option.isSome_iff_ne_none] at h1 h2 h3
    simp [h1, h2, h3]

/-- C8 at the failing input: a completed pass over the spec's scenario leaves actions 2
and 3 in the hidden list and the indicator shown; after `clearActions` the next pass,
run with an empty action list, sets the natural size to (0, 0) but leaves the hidden
list `[2, 3]` and the indicator shown. -/
theorem empty_list_keeps_hidden_and_indicator :
    scenarioLaidOut.hiddenActions = [2, 3] ∧
      (clearActions scenarioLaidOut).actions = [] ∧
      (performLayout sampleProvider (clearActions scenarioLaidOut)).implicitWidth = 0 ∧
      (performLayout sampleProvider (clearActions scenarioLaidOut)).implicitHeight = 0 ∧
      (performLayout sampleProvider (clearActions scenarioLaidOut)).hiddenActions = [2, 3] ∧
      ((performLayout sampleProvider (clearActions scenarioLaidOut)).moreButtonInstance.map
        fun m => m.visible) = some true := by
  refine ⟨by decide!, by decide!, by decide!, by decide!, by decide!, by decide!⟩

/-- C9 at the failing input: after a completed pass over the spec's scenario (hidden list
`[2, 3]`), an action whose delegate is still being created is added; the next pass aborts
because that delegate is not ready, but the hidden list has already been cleared, while
the visible width and the natural size are as before. -/
theorem unready_abort_clears_hidden :
    passCompletes pendingProvider (addAction scenarioLaidOut 5) = false ∧
      (addAction scenarioLaidOut 5).hiddenActions = [2, 3] ∧
      (performLayout pendingProvider (addAction scenarioLaidOut 5)).hiddenActions = [] ∧
      (performLayout pendingProvider (addAction scenarioLaidOut 5)).visibleWidth =
        (addAction scenarioLaidOut 5).visibleWidth ∧
      (performLayout pendingProvider (addAction scenarioLaidOut 5)).implicitWidth =
        (addAction scenarioLaidOut 5).implicitWidth ∧
      (performLayout pendingProvider (addAction scenarioLaidOut 5)).implicitHeight =
        (addAction scenarioLaidOut 5).implicitHeight ∧
      (performLayout pendingProvider (addAction scenarioLaidOut 5)).layouting = false := by
  refine ⟨by decide!, by decide!, by decide!, by decide!, by decide!, by decide!, by decide!⟩

/-! ## The running width is exact for distinct delegates -/

theorem consumedSum_update_of_not_mem (sp : ℚ) (ds : Action → ToolBarLayoutDelegate)
    (a : Action) (d : ToolBarLayoutDelegate) (l : List Action) (h : a ∉ l) :
    consumedSum sp (Function.update ds a d) l = consumedSum sp ds l := by
  induction l with
  | nil => rfl
  | cons b l ih =>
    have hb : b ≠ a := fun e => h (e ▸ List.mem_cons_self _ _)
    rw [consumedSum_cons, consumedSum_cons, Function.update_noteq hb,
      ih fun hm => h (List.mem_cons_of_mem _ hm)]

theorem consumedSum_update_of_mem (sp : ℚ) (ds : Action → ToolBarLayoutDelegate)
    (a : Action) (d : ToolBarLayoutDelegate) (l : List Action) (hnd : l.Nodup) (h : a ∈ l) :
    consumedSum sp (Function.update ds a d) l =
      consumedSum sp ds l - consumed sp (ds a) + consumed sp d := by
  induction l with
  | nil => simp at h
  | cons b l ih =>
    obtain ⟨hb, hl⟩ := List.nodup_cons.1 hnd
    rw [consumedSum_cons, consumedSum_cons]
    by_cases hba : b = a
    · subst hba
      rw [Function.update_same, consumedSum_update_of_not_mem sp ds b d l hb]
      ring
    · have hal : a ∈ l := by
        rcases List.mem_cons.1 h with e | e
        · exact absurd e.symm hba
        · exact e
      rw [Function.update_noteq hba, ih hl hal]
      ring

theorem reclaim_exact (a : Action) (tw : ℚ) (pre prev : List Action) (acc : Private × ℚ)
    (hnd : pre.Nodup) (ha : a ∉ pre) (hk : (acc.1.delegates a).keepVisible = true)
    (hprev : ∀ p ∈ prev, p ∈ pre ∨ p = a)
    (hsum : consumedSum acc.1.spacing acc.1.delegates pre = acc.2) :
    consumedSum (reclaim a tw prev acc).1.spacing (reclaim a tw prev acc).1.delegates pre =
      (reclaim a tw prev acc).2 := by
  induction prev generalizing acc with
  | nil => exact hsum
  | cons p prev ih =>
    have hprev1 : ∀ q ∈ prev, q ∈ pre ∨ q = a := fun q hq => hprev q (List.mem_cons_of_mem _ hq)
    rw [reclaim]
    dsimp only
    by_cases hpv : (acc.1.delegates p).isVisible = true
    swap
    · rw [if_pos hpv]
      exact ih acc hk hprev1 hsum
    rw [if_neg (not_not.2 hpv)]
    by_cases hpk : (acc.1.delegates p).keepVisible = true
    · rw [if_pos hpk]
      exact ih acc hk hprev1 hsum
    rw [if_neg hpk]
    have hpa : p ≠ a := by
      intro e; rw [e] at hpk; exact hpk hk
    have hpre : p ∈ pre := by
      rcases hprev p (List.mem_cons_self _ _) with e | e
      · exact e
      · exact absurd e hpa
    have hsum1 : consumedSum (reclaimOne p acc).1.spacing (reclaimOne p acc).1.delegates pre =
        (reclaimOne p acc).2 := by
      simp only [reclaimOne_delegates, reclaimOne_snd, reclaimOne_spacing]
      rw [consumedSum_update_of_mem _ _ _ _ _ hnd hpre, consumed_hide,
        consumed_of_visible _ _ hpv, hsum]
      ring
    have ha1 : (reclaimOne p acc).1.delegates a = acc.1.delegates a := by
      simp only [reclaimOne_delegates]
      exact Function.update_noteq (Ne.symm hpa) _ _
    split_ifs
    · exact hsum1
    · simp only [setDelegate_delegates, setDelegate_spacing]
      rw [consumedSum_update_of_not_mem _ _ _ _ _ ha]
      exact hsum1
    · exact ih (reclaimOne p acc) (by rw [ha1]; exact hk) hprev1 hsum1

theorem maybeHideDelegate_exact (s : Private) (a : Action) (cw tw : ℚ) (pre : List Action)
    (hnd : pre.Nodup) (ha : a ∉ pre) (hrange : ∀ p ∈ reclaimRange s a, p ∈ pre ∨ p = a)
    (hsum : consumedSum s.spacing s.delegates pre = cw) :
    consumedSum (maybeHideDelegate s a cw tw).1.spacing
      (maybeHideDelegate s a cw tw).1.delegates pre = (maybeHideDelegate s a cw tw).2 := by
  unfold maybeHideDelegate
  by_cases h1 : ¬ (s.delegates a).isVisible = true ∨ cw + (s.delegates a).width < tw
  · rw [if_pos h1]; exact hsum
  rw [if_neg h1]
  by_cases hk : (s.delegates a).keepVisible = true
  · rw [if_pos hk]
    by_cases hi : cw + (s.delegates a).iconWidth > tw
    · rw [if_pos hi]
      dsimp only
      have hr := reclaim_exact a tw pre (reclaimRange s a) (s, cw) hnd ha hk hrange hsum
      split_ifs
      · simp only [appendHidden_delegates, appendHidden_spacing, setDelegate_delegates,
          setDelegate_spacing]
        rw [consumedSum_update_of_not_mem _ _ _ _ _ ha]
        exact hr
      · exact hr
    · rw [if_neg hi]
      simp only [setDelegate_delegates, setDelegate_spacing]
      rw [consumedSum_update_of_not_mem _ _ _ _ _ ha]
      exact hsum
  · rw [if_neg hk]
    simp only [appendHidden_delegates, appendHidden_spacing, setDelegate_delegates,
      setDelegate_spacing]
    rw [consumedSum_update_of_not_mem _ _ _ _ _ ha]
    exact hsum

theorem overflowLoop_exact (tw : ℚ) (rest pre : List Action) (acc : Private × ℚ)
    (hnd : (pre ++ rest).Nodup) (hs : acc.1.sortedDelegates = pre ++ rest)
    (hsum : consumedSum acc.1.spacing acc.1.delegates pre = acc.2) :
    consumedSum (overflowLoop tw rest acc).1.spacing (overflowLoop tw rest acc).1.delegates
      (pre ++ rest) = (overflowLoop tw rest acc).2 := by
  induction rest generalizing pre acc with
  | nil => simpa [overflowLoop] using hsum
  | cons a rest ih =>
    rw [overflowLoop]
    have hfr := overflowStep_frame tw acc a
    have hndp : pre.Nodup := (List.nodup_append.1 hnd).1
    have hap : a ∉ pre := by
      have := (List.nodup_append.1 hnd).2.2
      intro hmem
      exact this hmem (List.mem_cons_self _ _)
    have hm := maybeHideDelegate_exact acc.1 a acc.2 tw pre hndp hap
      (fun p hp => mem_reclaimRange acc.1 a pre rest hs p hp) hsum
    have hstep : consumedSum (overflowStep tw acc a).1.spacing
        (overflowStep tw acc a).1.delegates (pre ++ [a]) = (overflowStep tw acc a).2 := by
      unfold overflowStep
      dsimp only
      by_cases hv : ((maybeHideDelegate acc.1 a acc.2 tw).1.delegates a).isVisible = true
      · rw [if_pos hv]
        dsimp only
        rw [consumedSum_append, consumedSum_cons, consumedSum_nil, consumed_of_visible _ _ hv,
          hm]
        ring
      · rw [if_neg hv, consumedSum_append, consumedSum_cons, consumedSum_nil,
          consumed_of_not_visible _ _ hv, hm]
        ring
    have h2 := ih (pre ++ [a]) (overflowStep tw acc a) (by simpa using hnd)
      (by rw [frame_sortedDelegates hfr, hs]; simp) hstep
    simpa using h2

/-! ## Sequential placement -/

theorem place_other (sp mh : ℚ) (dir : LayoutDirection)
    (acc : (Action → ToolBarLayoutDelegate) × ℚ) (a b : Action) (hb : b ≠ a) :
    (place sp mh dir acc a).1 b = acc.1 b := by
  unfold place
  dsimp only
  split_ifs <;> simp [Function.update_noteq hb]

theorem placeAll_other (sp mh : ℚ) (dir : LayoutDirection) (l : List Action)
    (acc : (Action → ToolBarLayoutDelegate) × ℚ) (b : Action) (hb : b ∉ l) :
    (placeAll sp mh dir l acc).1 b = acc.1 b := by
  induction l generalizing acc with
  | nil => rfl
  | cons a rest ih =>
    have hba : b ≠ a := fun e => hb (by rw [e]; exact List.mem_cons_self _ _)
    rw [placeAll, ih _ fun h => hb (List.mem_cons_of_mem _ h), place_other _ _ _ _ _ _ hba]

theorem place_forward (sp mh : ℚ) (acc : (Action → ToolBarLayoutDelegate) × ℚ) (a : Action) :
    (place sp mh LayoutDirection.LeftToRight acc a).2 = acc.2 + consumed sp (acc.1 a) ∧
      ((acc.1 a).isVisible = true →
        ((place sp mh LayoutDirection.LeftToRight acc a).1 a).x = acc.2) := by
  unfold place
  dsimp only
  by_cases hv : (acc.1 a).isVisible = true
  · rw [if_neg (not_not.2 hv), if_pos rfl, consumed_of_visible _ _ hv]
    exact ⟨rfl, fun _ => by simp [ToolBarLayoutDelegate.setPosition]⟩
  · rw [if_pos hv, consumed_of_not_visible _ _ hv]
    exact ⟨by ring, fun h => absurd h hv⟩

theorem placeAll_forward (sp mh : ℚ) (pre rest : List Action) (a : Action)
    (acc : (Action → ToolBarLayoutDelegate) × ℚ) (hnd : (pre ++ a :: rest).Nodup)
    (hv : (acc.1 a).isVisible = true) :
    ((placeAll sp mh LayoutDirection.LeftToRight (pre ++ a :: rest) acc).1 a).x =
      acc.2 + consumedSum sp acc.1 pre := by
  induction pre generalizing acc with
  | nil =>
    have har : a ∉ rest := (List.nodup_cons.1 (by simpa using hnd)).1
    rw [List.nil_append, placeAll, placeAll_other _ _ _ _ _ _ har,
      (place_forward sp mh acc a).2 hv]
    simp
  | cons p pre ih =>
    have hnd1 : (pre ++ a :: rest).Nodup := (List.nodup_cons.1 (by simpa using hnd)).2
    have hpa : a ≠ p := by
      intro e
      have := (List.nodup_cons.1 (by simpa using hnd : (p :: (pre ++ a :: rest)).Nodup)).1
      exact this (by rw [← e]; simp)
    rw [List.cons_append, placeAll, ih _ hnd1, (place_forward sp mh acc p).1, consumedSum_cons]
    · rw [consumedSum_congr sp acc.1 _ pre fun b _ => place_item sp mh _ acc p b]
      ring
    · rw [place_other _ _ _ _ _ _ hpa]
      exact hv

/-! ## Centre alignment -/

theorem layoutBody_delegates_eq (s : Private) (more : QQuickItem) :
    (layoutBody s more).delegates =
      (placeAll (passResolved s more).1.spacing (passClassified s more).2.2
        (passResolved s more).1.layoutDirection (passResolved s more).1.sortedDelegates
        ((passResolved s more).1.delegates,
          layoutStart (passResolved s more).1
            (placeMoreButton (passResolved s more).1 more (passClassified s more).2.2)
            (passResolved s more).2)).1 := rfl

theorem layoutStart_centre_forward (s : Private) (more : QQuickItem) (lw : ℚ)
    (hl : testFlag s.alignment AlignLeft = false)
    (hcen : testFlag s.alignment AlignHCenter = true)
    (hdir : s.layoutDirection = LayoutDirection.LeftToRight) :
    layoutStart s more lw = s.width / 2 - lw / 2 := by
  unfold layoutStart
  dsimp only
  rw [if_neg (by rw [hl]; exact Bool.false_ne_true), if_pos hcen, if_pos hdir]
  ring

theorem passResolved_overflow_snd (s : Private) (more : QQuickItem)
    (h : (passClassified s more).2.1 - s.spacing > layoutWidth s more) :
    (passResolved s more).2 =
      if ¬ qFuzzyIsNull (overflowLoop (layoutWidth s more) s.sortedDelegates
          ((passClassified s more).1, 0)).2 = true then
        (overflowLoop (layoutWidth s more) s.sortedDelegates ((passClassified s more).1, 0)).2
          - s.spacing
      else
        (overflowLoop (layoutWidth s more) s.sortedDelegates ((passClassified s more).1, 0)).2 := by
  have hcf := passClassified_frame s more
  unfold passResolved resolveOverflow
  rw [frame_spacing hcf, frame_layoutWidth hcf more, frame_sortedDelegates hcf, if_pos h]
  dsimp only
  split_ifs <;> rfl

/-- In a pass over distinct delegates the visible actions width is the consumed sum of
the visible delegates less one spacing, unless the overflow loop ends with a running
width that is fuzzily zero while the spacing is not zero. -/
theorem passResolved_width (s : Private) (more : QQuickItem) (hnd : s.sortedDelegates.Nodup)
    (hcond : (passClassified s more).2.1 - s.spacing ≤ layoutWidth s more ∨
      qFuzzyIsNull (consumedSum s.spacing (passResolved s more).1.delegates s.sortedDelegates)
        = false ∨ s.spacing = 0) :
    (passResolved s more).2 =
      consumedSum s.spacing (passResolved s more).1.delegates s.sortedDelegates - s.spacing := by
  have hcf := passClassified_frame s more
  by_cases hov : (passClassified s more).2.1 - s.spacing > layoutWidth s more
  · have hex := overflowLoop_exact (layoutWidth s more) s.sortedDelegates []
      ((passClassified s more).1, 0) (by simpa using hnd)
      (by rw [frame_sortedDelegates hcf]; simp) (by simp)
    rw [List.nil_append, frame_spacing (overflowLoop_frame _ _ _)] at hex
    dsimp only at hex
    rw [frame_spacing hcf] at hex
    rw [passResolved_overflow s more hov] at hcond ⊢
    rw [passResolved_overflow_snd s more hov, ← hex]
    rcases hcond with h | h | h
    · exact absurd hov (not_lt.2 h)
    · rw [if_pos (by rw [h]; exact Bool.false_ne_true)]
    · rw [h]
      split_ifs <;> ring
  · rw [passResolved_fits s more hov]
    dsimp only
    rw [passClassified_maxWidth]

/-- The pass proper: position of a visible action under centre alignment, left to
right. -/
theorem layoutBody_centre (s : Private) (more : QQuickItem) (hnd : s.sortedDelegates.Nodup)
    (hl : testFlag s.alignment AlignLeft = false)
    (hcen : testFlag s.alignment AlignHCenter = true)
    (hdir : s.layoutDirection = LayoutDirection.LeftToRight)
    (pre rest : List Action) (a : Action) (hs : s.sortedDelegates = pre ++ a :: rest)
    (hv : ((layoutBody s more).delegates a).isVisible = true) :
    ((layoutBody s more).delegates a).x =
      s.width / 2 - (passResolved s more).2 / 2 +
        consumedSum s.spacing (layoutBody s more).delegates pre := by
  have hfr := passResolved_frame s more
  have hv1 : ((passResolved s more).1.delegates a).isVisible = true := by
    rw [← isVisible_congr (layoutBody_delegates s more a).2]; exact hv
  rw [consumedSum_congr s.spacing (passResolved s more).1.delegates _ pre
    fun b _ => layoutBody_delegates s more b]
  rw [layoutBody_delegates_eq, frame_layoutDirection hfr, hdir, frame_sortedDelegates hfr, hs,
    placeAll_forward _ _ pre rest a _ (by rw [← hs]; exact hnd) hv1]
  dsimp only
  rw [layoutStart_centre_forward _ _ _ (by rw [frame_alignment hfr]; exact hl)
    (by rw [frame_alignment hfr]; exact hcen) (by rw [frame_layoutDirection hfr]; exact hdir),
    frame_width hfr, frame_spacing hfr]

/-- C10, refuted as stated: the spec's centring scenario with the same action listed
twice (two entries of width 50, spacing 10, W = 300, alignment centre, left to right).
Everything fits, the visible actions width is 110, the first visible action is action 0,
and it ends up at x = 155, not at W/2 - 110/2 = 95. -/
theorem centre_first_visible_counterexample :
    testFlag scenarioCentreTwice.alignment AlignHCenter = true ∧
      scenarioCentreTwice.layoutDirection = LayoutDirection.LeftToRight ∧
      scenarioCentreTwice.actions = [0, 0] ∧
      visibleActionsWidth sampleProvider scenarioCentreTwice (sampleMore 40) = 110 ∧
      ((performLayout sampleProvider scenarioCentreTwice).delegates 0).isVisible = true ∧
      ((performLayout sampleProvider scenarioCentreTwice).delegates 0).x = 155 ∧
      ((performLayout sampleProvider scenarioCentreTwice).delegates 0).x ≠
        scenarioCentreTwice.width / 2 -
          visibleActionsWidth sampleProvider scenarioCentreTwice (sampleMore 40) / 2 := by
  refine ⟨by decide, rfl, rfl, by decide!, by decide!, by decide!, by decide!⟩

/-- The margins of the block differ when the overflow loop ends with a fuzzily zero
running width: an action of width 0 followed by one of width 100, spacing 10⁻¹²,
W = 50, indicator width 10, alignment centre.  Action 1 is hidden, action 0 is the only
visible one; the visible actions width is 10⁻¹² although the block has width 0, so the
left margin is 25 - 10⁻¹²/2 and the right margin 25 + 10⁻¹²/2. -/
theorem centre_margins_fuzzy_example :
    (performLayout sampleProvider scenarioCentreTiny).hiddenActions = [1] ∧
      visibleActionsWidth sampleProvider scenarioCentreTiny (sampleMore 10)
        = 1 / 1000000000000 ∧
      ((performLayout sampleProvider scenarioCentreTiny).delegates 0).x
        = 25 - 1 / 2000000000000 ∧
      scenarioCentreTiny.width -
        (((performLayout sampleProvider scenarioCentreTiny).delegates 0).x +
          ((performLayout sampleProvider scenarioCentreTiny).delegates 0).width)
        = 25 + 1 / 2000000000000 := by
  refine ⟨by decide!, by decide!, by decide!, by decide!⟩

/-- C10 (centre alignment), amended: in a completed pass over distinct actions with the
centre flag set (and the left flag not set), laid out left to right, a visible action is
placed at `W/2 - consumedWidth/2` plus the consumed widths (width + spacing) of the
visible actions before it, where `consumedWidth` is the final visible actions width; so
the first visible action is at `x = W/2 - consumedWidth/2`.  The right margin left by the
last visible action equals this left margin whenever everything fits, or the consumed sum
of the visible actions is not fuzzily zero, or the spacing is zero; for non-negative
widths, spacing and indicator width the margin is then not negative.  In the spec's
scenario (two actions of width 50, spacing 10, W = 300) nothing is hidden,
`consumedWidth = 110` and the actions are placed at x = 95 and x = 155. -/
theorem centre_alignment :
    (∀ (cd : Action → ToolBarLayoutDelegate) (s : Private) (more : QQuickItem)
        (pre rest : List Action) (a : Action),
      passCompletes cd s = true → s.moreButtonInstance = some more → s.actions.Nodup →
      testFlag s.alignment AlignLeft = false → testFlag s.alignment AlignHCenter = true →
      s.layoutDirection = LayoutDirection.LeftToRight → s.actions = pre ++ a :: rest →
      ((performLayout cd s).delegates a).isVisible = true →
        ((performLayout cd s).delegates a).x =
            s.width / 2 - visibleActionsWidth cd s more / 2 +
              consumedSum s.spacing (performLayout cd s).delegates pre ∧
          ((∀ p ∈ pre, ((performLayout cd s).delegates p).isVisible = false) →
            ((performLayout cd s).delegates a).x =
              s.width / 2 - visibleActionsWidth cd s more / 2) ∧
          ((∀ q ∈ rest, ((performLayout cd s).delegates q).isVisible = false) →
            (maxWidth cd s more ≤ layoutWidth s more ∨
              qFuzzyIsNull (consumedSum s.spacing (performLayout cd s).delegates s.actions)
                = false ∨ s.spacing = 0) →
            s.width - (((performLayout cd s).delegates a).x +
                ((performLayout cd s).delegates a).width) =
              s.width / 2 - visibleActionsWidth cd s more / 2 ∧
            (NonNegativeInput cd s → 0 ≤ more.width →
              0 ≤ s.width / 2 - visibleActionsWidth cd s more / 2))) ∧
    ((performLayout sampleProvider scenarioCentre).hiddenActions = [] ∧
      visibleActionsWidth sampleProvider scenarioCentre (sampleMore 40) = 110 ∧
      ((performLayout sampleProvider scenarioCentre).delegates 0).x = 95 ∧
      ((performLayout sampleProvider scenarioCentre).delegates 1).x = 155) := by
  refine ⟨?_, by decide!, by decide!, by decide!, by decide!⟩
  intro cd s more pre rest a hc hm hnd hl hcen hdir hact hv
  have hsd := beginPass_sortedDelegates cd s
  obtain ⟨hsp, hwd, hal, hld, -⟩ := beginPass_config cd s
  rw [performLayout_of_completes cd s more hc hm] at hv ⊢
  have hx := layoutBody_centre (beginPass cd s) more (by rw [hsd]; exact hnd)
    (by rw [hal]; exact hl) (by rw [hal]; exact hcen) (by rw [hld]; exact hdir) pre rest a
    (by rw [hsd]; exact hact) hv
  rw [hwd, hsp] at hx
  have hzero : ∀ l : List Action,
      (∀ p ∈ l, ((layoutBody (beginPass cd s) more).delegates p).isVisible = false) →
      consumedSum s.spacing (layoutBody (beginPass cd s) more).delegates l = 0 := by
    intro l hlz
    induction l with
    | nil => rfl
    | cons p l ih =>
      rw [consumedSum_cons, ih fun q hq => hlz q (List.mem_cons_of_mem _ hq),
        consumed_of_not_visible _ _ (by rw [hlz p (List.mem_cons_self _ _)]; exact
          Bool.false_ne_true)]
      ring
  refine ⟨hx, fun hpre => ?_, fun hrest hcond => ?_⟩
  · unfold visibleActionsWidth
    rw [hx, hzero pre hpre]
    ring
  · have hsum : consumedSum s.spacing (layoutBody (beginPass cd s) more).delegates s.actions =
        consumedSum s.spacing (layoutBody (beginPass cd s) more).delegates pre +
          (((layoutBody (beginPass cd s) more).delegates a).width + s.spacing) := by
      rw [hact, consumedSum_append, consumedSum_cons, hzero rest hrest,
        consumed_of_visible _ _ hv]
      ring
    have hcs : consumedSum s.spacing (passResolved (beginPass cd s) more).1.delegates s.actions
        = consumedSum s.spacing (layoutBody (beginPass cd s) more).delegates s.actions :=
      (consumedSum_congr s.spacing _ _ s.actions
        fun b _ => layoutBody_delegates (beginPass cd s) more b).symm
    have hvaw := passResolved_width (beginPass cd s) more (by rw [hsd]; exact hnd) (by
      rw [hsd, hsp, beginPass_layoutWidth, hcs]
      exact hcond)
    rw [hsd, hsp, hcs, hsum] at hvaw
    unfold visibleActionsWidth
    refine ⟨by rw [hx, hvaw]; ring, fun hnn hmw => ?_⟩
    have hfit := layoutBody_fits (beginPass cd s) more hnn.beginPass
      ⟨a, by rw [hsd, hact]; simp, hv⟩
    rw [hsd, hsp, beginPass_layoutWidth, hsum] at hfit
    have hlw : layoutWidth s more ≤ s.width := by
      unfold layoutWidth
      dsimp only
      have := hnn.1
      rw [if_pos hcen]
      linarith
    rw [hvaw]
    linarith

theorem centre_alignment_witness :
    ((performLayout sampleProvider scenarioCentre).delegates 1).x =
        scenarioCentre.width / 2 -
          visibleActionsWidth sampleProvider scenarioCentre (sampleMore 40) / 2 +
          consumedSum scenarioCentre.spacing
            (performLayout sampleProvider scenarioCentre).delegates [0] :=
  (centre_alignment.1 sampleProvider scenarioCentre (sampleMore 40) [0] [] 1 (by decide!) rfl
    (by decide) (by decide) (by decide) rfl rfl (by decide!)).1

/-! ## The natural size -/

theorem layoutBody_implicitWidth (s : Private) (more : QQuickItem) :
    (layoutBody s more).implicitWidth = (passClassified s more).2.1 - s.spacing := by
  have h : (layoutBody s more).implicitWidth =
      (passClassified s more).2.1 - (passClassified s more).1.spacing := rfl
  rw [h, frame_spacing (passClassified_frame s more)]

theorem consumed_passClassified (s : Private) (more : QQuickItem) (a : Action)
    (ha : a ∈ s.sortedDelegates) :
    consumed s.spacing ((passClassified s more).1.delegates a) =
      tentativeConsumed s.spacing (s.delegates a) := by
  unfold consumed tentativeConsumed
  by_cases hv : tentativeMode (s.delegates a) ≠ DisplayMode.Hidden
  · rw [if_pos ((passClassified_isVisible s more a ha).2 hv), if_pos hv,
      passClassified_width s more a ha]
  · rw [if_neg (fun h => hv ((passClassified_isVisible s more a ha).1 h)), if_neg hv]

theorem passClassified_maxWidth_tentative (s : Private) (more : QQuickItem) :
    (passClassified s more).2.1 =
      (s.sortedDelegates.map fun a => tentativeConsumed s.spacing (s.delegates a)).sum := by
  rw [passClassified_maxWidth]
  unfold consumedSum
  exact congrArg List.sum (List.map_congr_left fun a ha => consumed_passClassified s more a ha)

/-- C11 (the natural size is unconstrained): after a completed pass the implicit width is
the sum from the first loop, i.e. the sum over the entries of the action list that are
eligible and not force-hidden of (width at the tentative mode + spacing), less one
spacing; it is the same for every container width. -/
theorem natural_width_unconstrained (cd : Action → ToolBarLayoutDelegate) (s : Private)
    (more : QQuickItem) (w2 : ℚ) (hc : passCompletes cd s = true)
    (hm : s.moreButtonInstance = some more) :
    (performLayout cd s).implicitWidth =
        (s.actions.map fun a =>
          tentativeConsumed s.spacing ((beginPass cd s).delegates a)).sum - s.spacing ∧
      (performLayout cd (s.withWidth w2)).implicitWidth = (performLayout cd s).implicitWidth := by
  have h1 : (performLayout cd s).implicitWidth =
      (s.actions.map fun a =>
        tentativeConsumed s.spacing ((beginPass cd s).delegates a)).sum - s.spacing := by
    rw [performLayout_of_completes cd s more hc hm, layoutBody_implicitWidth,
      passClassified_maxWidth_tentative, beginPass_sortedDelegates, (beginPass_config cd s).1]
  refine ⟨h1, ?_⟩
  rw [performLayout_of_completes cd s more hc hm,
    performLayout_of_completes cd (s.withWidth w2) more
      (by rw [passCompletes_withWidth]; exact hc) hm,
    beginPass_withWidth, layoutBody_implicitWidth, layoutBody_implicitWidth,
    passClassified_withWidth_maxWidth]
  rfl

theorem natural_width_unconstrained_witness :
    (performLayout sampleProvider (scenarioKeep AlignLeft)).implicitWidth =
        ([0, 1, 2, 3, 4].map fun a =>
          tentativeConsumed 8
            ((beginPass sampleProvider (scenarioKeep AlignLeft)).delegates a)).sum - 8 ∧
      (performLayout sampleProvider ((scenarioKeep AlignLeft).withWidth 100)).implicitWidth =
        (performLayout sampleProvider (scenarioKeep AlignLeft)).implicitWidth :=
  natural_width_unconstrained sampleProvider (scenarioKeep AlignLeft) (sampleMore 40) 100
    (by decide!) rfl

/-- In the spec's scenario the natural width is 432 although the visible actions width
after overflow resolution is 208. -/
theorem natural_width_scenario :
    (performLayout sampleProvider (scenarioKeep AlignLeft)).implicitWidth = 432 ∧
      visibleActionsWidth sampleProvider (scenarioKeep AlignLeft) (sampleMore 40) = 208 := by
  refine ⟨by decide!, by decide!⟩

/-- C20 at the failing inputs: a completed pass over one action that is explicitly
hidden (spacing 8, W = 300) reports the implicit width -8 and the visible actions width
-8 (published visible width -8); over one action that is force-hidden it reports the
implicit width -8 and the visible actions width -8 as well. -/
theorem hidden_only_widths_negative :
    passCompletes sampleProvider scenarioAllHidden = true ∧
      (performLayout sampleProvider scenarioAllHidden).implicitWidth = -8 ∧
      visibleActionsWidth sampleProvider scenarioAllHidden (sampleMore 40) = -8 ∧
      (performLayout sampleProvider scenarioAllHidden).visibleWidth = -8 ∧
      passCompletes sampleProvider scenarioAllForceHidden = true ∧
      (performLayout sampleProvider scenarioAllForceHidden).implicitWidth = -8 ∧
      visibleActionsWidth sampleProvider scenarioAllForceHidden (sampleMore 40) = -8 := by
  refine ⟨by decide!, by decide!, by decide!, by decide!, by decide!, by decide!, by decide!⟩

/-! ## The cache of delegates -/

theorem mem_removalLoop (actions : List Action) (removed keys : List Action) (a : Action) :
    a ∈ removalLoop actions removed keys ↔ a ∈ keys ∧ ¬ (a ∈ removed ∧ a ∉ actions) := by
  induction removed generalizing keys with
  | nil => simp [removalLoop]
  | cons r rest ih =>
    rw [removalLoop, ih]
    by_cases hr : r ∉ actions
    · rw [if_pos hr]
      by_cases har : a = r
      · subst har
        simp [hr]
      · simp [har, List.mem_filter]
    · rw [if_neg hr]
      by_cases har : a = r
      · subst har
        have : a ∈ actions := not_not.1 hr
        simp [this]
      · simp [har]

/-- C14 (cache eviction respects re-added actions): when the removal timer fires, a
cached delegate is erased if and only if its action is in `removedActions` and not in the
action list; every action of the action list that has a cached delegate keeps it,
unchanged; and `removedActions` is empty afterwards. -/
theorem eviction_respects_readded (s : Private) (a : Action) :
    (a ∈ s.delegateKeys →
        (a ∉ (removalTimeout s).delegateKeys ↔ a ∈ s.removedActions ∧ a ∉ s.actions)) ∧
      (a ∈ s.actions → a ∈ s.delegateKeys →
        a ∈ (removalTimeout s).delegateKeys ∧
          (removalTimeout s).delegates a = s.delegates a) ∧
      (∀ b ∈ (removalTimeout s).delegateKeys, b ∈ s.delegateKeys) ∧
      (removalTimeout s).removedActions = [] := by
  have hmem : ∀ b, b ∈ (removalTimeout s).delegateKeys ↔
      b ∈ s.delegateKeys ∧ ¬ (b ∈ s.removedActions ∧ b ∉ s.actions) :=
    fun b => mem_removalLoop s.actions s.removedActions s.delegateKeys b
  refine ⟨fun hk => ?_, fun ha hk => ⟨?_, rfl⟩, fun b hb => ((hmem b).1 hb).1, rfl⟩
  · rw [hmem a]
    simp [hk]
  · rw [hmem a]
    exact ⟨hk, fun h => h.2 ha⟩

/-- The scenario of C14: in the laid-out spec scenario action 1 is removed and added
again before the removal timer fires, action 3 is removed for good: the timer erases the
delegate of action 3 and keeps that of action 1. -/
theorem eviction_scenario :
    (removalTimeout (addAction (removeAction (removeAction scenarioLaidOut 1) 3) 1)).delegateKeys
        = [0, 1, 2, 4] ∧
      (addAction (removeAction (removeAction scenarioLaidOut 1) 3) 1).removedActions = [1, 3] ∧
      (addAction (removeAction (removeAction scenarioLaidOut 1) 3) 1).actions = [0, 2, 4, 1] := by
  refine ⟨by decide!, by decide!, by decide!⟩

/-! ## The invalidation coalescer -/

/-- C17, refuted as stated: inside a running pass over the spec's scenario (`layouting`
set, no polish pending) a mutation calls `relayout()`: the state is left as it is, nothing
is recorded (`layoutQueued` and the polish request stay unset), and when the running pass
has finished no polish is pending, so no further pass is scheduled. -/
theorem relayout_in_pass_counterexample :
    scenarioRunning.completed = true ∧ scenarioRunning.layouting = true ∧
      scenarioRunning.polishScheduled = false ∧
      (relayout scenarioRunning).polishScheduled = false ∧
      (relayout scenarioRunning).layoutQueued = false ∧
      (layoutBody (relayout scenarioRunning) (sampleMore 40)).layouting = false ∧
      (layoutBody (relayout scenarioRunning) (sampleMore 40)).polishScheduled = false ∧
      (layoutBody (relayout scenarioRunning) (sampleMore 40)).layoutQueued = false := by
  refine ⟨rfl, rfl, rfl, by decide!, by decide!, by decide!, by decide!, by decide!⟩

/-- C17 (mutation during a running pass), amended: a call of `relayout()` while a pass is
running (`layouting` set) does not start a nested pass and records nothing: it leaves the
whole state as it is, so the running pass ends with the polish request and the
`layoutQueued` flag it started with, and the call schedules no further pass. -/
theorem relayout_in_pass_ignored (s : Private) (h : s.layouting = true) :
    relayout s = s ∧
      (∀ more, (layoutBody (relayout s) more).polishScheduled = s.polishScheduled ∧
        (layoutBody (relayout s) more).layoutQueued = s.layoutQueued) := by
  have hr : relayout s = s := by
    unfold relayout
    rw [if_neg]
    rintro ⟨-, h2⟩
    exact h2 h
  refine ⟨hr, fun more => ?_⟩
  rw [hr]
  have hfr := passResolved_frame s more
  have h1 : (layoutBody s more).polishScheduled = (passResolved s more).1.polishScheduled := rfl
  have h2 : (layoutBody s more).layoutQueued = (passResolved s more).1.layoutQueued := rfl
  rw [h1, h2]
  have h3 := congrArg Private.polishScheduled hfr
  have h4 := congrArg Private.layoutQueued hfr
  exact ⟨h3, h4⟩

theorem relayout_in_pass_ignored_witness :
    relayout scenarioRunning = scenarioRunning ∧
      (∀ more, (layoutBody (relayout scenarioRunning) more).polishScheduled
          = scenarioRunning.polishScheduled ∧
        (layoutBody (relayout scenarioRunning) more).layoutQueued
          = scenarioRunning.layoutQueued) :=
  relayout_in_pass_ignored scenarioRunning rfl

theorem relayout_outside_pass (s : Private) (hc : s.completed = true)
    (hl : s.layouting = false) : relayout s = { s with polishScheduled := true } := by
  unfold relayout
  rw [if_pos]
  exact ⟨hc, by rw [hl]; exact Bool.false_ne_true⟩

/-! ## Modes only move toward less space -/

theorem Demoted.refl (d : ToolBarLayoutDelegate) : Demoted d d := Or.inl rfl

theorem isVisible_of_mode_eq {d e : ToolBarLayoutDelegate} (h : e.mode = d.mode)
    (hv : e.isVisible = true) : d.isVisible = true := by
  rw [← isVisible_congr h]; exact hv

theorem Demoted.trans {d e f : ToolBarLayoutDelegate} (h1 : Demoted d e) (h2 : Demoted e f)
    (hk : e.keepVisible = d.keepVisible) : Demoted d f := by
  rcases h2 with h | h | ⟨h, hek, hev⟩
  · rcases h1 with g | g | ⟨g, gk, gv⟩
    · exact Or.inl (h.trans g)
    · exact Or.inr (Or.inl (h.trans g))
    · exact Or.inr (Or.inr ⟨h.trans g, gk, gv⟩)
  · exact Or.inr (Or.inl h)
  · rcases h1 with g | g | ⟨-, gk, gv⟩
    · exact Or.inr (Or.inr ⟨h, by rw [← hk]; exact hek, isVisible_of_mode_eq g hev⟩)
    · have := (isVisible_eq_false_iff e).2 g
      rw [hev] at this
      exact absurd this (by decide)
    · exact Or.inr (Or.inr ⟨h, gk, gv⟩)

theorem reclaimOne_demoted (p : Action) (acc : Private × ℚ) (b : Action) :
    Demoted (acc.1.delegates b) ((reclaimOne p acc).1.delegates b) := by
  by_cases hb : b = p
  · subst hb
    exact Or.inr (Or.inl (by simp [ToolBarLayoutDelegate.hide]))
  · rw [reclaimOne_delegates, Function.update_noteq hb]
    exact Demoted.refl _

theorem reclaim_demoted (a : Action) (tw : ℚ) (prev : List Action) (acc : Private × ℚ)
    (hk : (acc.1.delegates a).keepVisible = true)
    (hvis : (acc.1.delegates a).isVisible = true) (b : Action) :
    Demoted (acc.1.delegates b) ((reclaim a tw prev acc).1.delegates b) := by
  induction prev generalizing acc with
  | nil => exact Demoted.refl _
  | cons p prev ih =>
    rw [reclaim]
    dsimp only
    by_cases hpv : (acc.1.delegates p).isVisible = true
    swap
    · rw [if_pos hpv]
      exact ih acc hk hvis
    rw [if_neg (not_not.2 hpv)]
    by_cases hpk : (acc.1.delegates p).keepVisible = true
    · rw [if_pos hpk]
      exact ih acc hk hvis
    rw [if_neg hpk]
    have hpa : p ≠ a := by
      intro e; rw [e] at hpk; exact hpk hk
    have ha1 : (reclaimOne p acc).1.delegates a = acc.1.delegates a := by
      simp only [reclaimOne_delegates]
      exact Function.update_noteq (Ne.symm hpa) _ _
    have hkeep : ∀ c, ((reclaimOne p acc).1.delegates c).keepVisible =
        (acc.1.delegates c).keepVisible := fun c =>
      item_keepVisible (frame_item (reclaimOne_frame p acc) c)
    split_ifs
    · exact reclaimOne_demoted p acc b
    · by_cases hba : b = a
      · subst hba
        exact Or.inr (Or.inr ⟨by simp [ToolBarLayoutDelegate.showIcon], hk, hvis⟩)
      · simp only [setDelegate_delegates, Function.update_noteq hba]
        exact reclaimOne_demoted p acc b
    · exact (reclaimOne_demoted p acc b).trans
        (ih (reclaimOne p acc) (by rw [ha1]; exact hk) (by rw [ha1]; exact hvis)) (hkeep b)

theorem maybeHideDelegate_demoted (s : Private) (a : Action) (cw tw : ℚ) (b : Action) :
    Demoted (s.delegates b) ((maybeHideDelegate s a cw tw).1.delegates b) := by
  unfold maybeHideDelegate
  by_cases h1 : ¬ (s.delegates a).isVisible = true ∨ cw + (s.delegates a).width < tw
  · rw [if_pos h1]; exact Demoted.refl _
  rw [if_neg h1]
  have hvis : (s.delegates a).isVisible = true := by
    by_contra hc; exact h1 (Or.inl hc)
  have hhide : ∀ t : Private, Demoted (s.delegates b) (t.delegates b) →
      Demoted (s.delegates b)
        (((t.setDelegate a (t.delegates a).hide).appendHidden a).delegates b) := by
    intro t ht
    by_cases hba : b = a
    · subst hba
      exact Or.inr (Or.inl (by simp [ToolBarLayoutDelegate.hide]))
    · simp only [appendHidden_delegates, setDelegate_delegates, Function.update_noteq hba]
      exact ht
  by_cases hk : (s.delegates a).keepVisible = true
  · rw [if_pos hk]
    by_cases hi : cw + (s.delegates a).iconWidth > tw
    · rw [if_pos hi]
      dsimp only
      have hr := reclaim_demoted a tw (reclaimRange s a) (s, cw) hk hvis b
      split_ifs
      · exact hhide _ hr
      · exact hr
    · rw [if_neg hi]
      by_cases hba : b = a
      · subst hba
        exact Or.inr (Or.inr ⟨by simp [ToolBarLayoutDelegate.showIcon], hk, hvis⟩)
      · simp only [setDelegate_delegates, Function.update_noteq hba]
        exact Demoted.refl _
  · rw [if_neg hk]
    exact hhide s (Demoted.refl _)

theorem overflowLoop_demoted (tw : ℚ) (l : List Action) (acc : Private × ℚ) (b : Action) :
    Demoted (acc.1.delegates b) ((overflowLoop tw l acc).1.delegates b) := by
  induction l generalizing acc with
  | nil => exact Demoted.refl _
  | cons a rest ih =>
    rw [overflowLoop]
    have h1 : Demoted (acc.1.delegates b) ((overflowStep tw acc a).1.delegates b) := by
      rw [overflowStep_delegates]
      exact maybeHideDelegate_demoted _ _ _ _ _
    exact h1.trans (ih _) (item_keepVisible (frame_item (overflowStep_frame tw acc a) b))

theorem passResolved_demoted (s : Private) (more : QQuickItem) (b : Action) :
    Demoted ((passClassified s more).1.delegates b) ((passResolved s more).1.delegates b) := by
  by_cases hov : (passClassified s more).2.1 - s.spacing > layoutWidth s more
  · rw [passResolved_overflow s more hov]
    exact overflowLoop_demoted _ _ _ _
  · rw [passResolved_fits s more hov]
    exact Demoted.refl _

/-- C16 (mode monotonicity within a pass): after a completed pass the mode of every action
of the list is at or below its tentative mode in the order Full > Icon > Hidden; an action
that is not keepVisible ends in its tentative mode or Hidden, never demoted to Icon; and
a delegate that is hidden at some point of the overflow loop is hidden at the end of the
pass. -/
theorem mode_monotone (cd : Action → ToolBarLayoutDelegate) (s : Private)
    (more : QQuickItem) (a : Action) (hc : passCompletes cd s = true)
    (hm : s.moreButtonInstance = some more) (ha : a ∈ s.actions) :
    ((performLayout cd s).delegates a).mode.rank ≤
        (tentativeMode ((beginPass cd s).delegates a)).rank ∧
      (((beginPass cd s).delegates a).keepVisible = false →
        ((performLayout cd s).delegates a).mode = tentativeMode ((beginPass cd s).delegates a) ∨
          ((performLayout cd s).delegates a).mode = DisplayMode.Hidden) ∧
      (maxWidth cd s more > layoutWidth s more → ∀ pre rest, s.actions = pre ++ rest →
        ((overflowLoop (layoutWidth s more) pre
          ((passClassified (beginPass cd s) more).1, 0)).1.delegates a).mode
            = DisplayMode.Hidden →
        ((performLayout cd s).delegates a).mode = DisplayMode.Hidden) := by
  rw [performLayout_of_completes cd s more hc hm, (layoutBody_delegates _ more a).2]
  have hsd := beginPass_sortedDelegates cd s
  have hmode := passClassified_mode (beginPass cd s) more a (by rw [hsd]; exact ha)
  have hd := passResolved_demoted (beginPass cd s) more a
  have hkc : ((passClassified (beginPass cd s) more).1.delegates a).keepVisible =
      ((beginPass cd s).delegates a).keepVisible :=
    item_keepVisible (frame_item (passClassified_frame _ more) a)
  refine ⟨?_, fun hnk => ?_, fun hov pre rest hact hh => ?_⟩
  · rcases hd with h | h | ⟨h, -, hv⟩
    · rw [h, hmode]
    · rw [h]; exact Nat.zero_le _
    · rw [h]
      unfold ToolBarLayoutDelegate.isVisible at hv
      rw [hmode] at hv
      cases hten : tentativeMode ((beginPass cd s).delegates a)
      · decide
      · decide
      · rw [hten] at hv
        exact absurd hv (by decide)
  · rcases hd with h | h | ⟨-, hk, -⟩
    · exact Or.inl (h.trans hmode)
    · exact Or.inr h
    · rw [hkc, hnk] at hk
      exact absurd hk (by decide)
  · have hov' : (passClassified (beginPass cd s) more).2.1 - (beginPass cd s).spacing >
        layoutWidth (beginPass cd s) more := by
      rw [(beginPass_config cd s).1, beginPass_layoutWidth]
      exact hov
    rw [passResolved_overflow _ more hov', hsd, hact, overflowLoop_append,
      beginPass_layoutWidth, ← isVisible_eq_false_iff]
    rw [← isVisible_eq_false_iff] at hh
    by_contra hcon
    have := overflowLoop_visible_mono _ rest _ a (by simpa using hcon)
    rw [hh] at this
    exact absurd this (by decide)

theorem mode_monotone_witness :
    ((performLayout sampleProvider (scenarioKeep AlignLeft)).delegates 4).mode.rank ≤
        (tentativeMode ((beginPass sampleProvider (scenarioKeep AlignLeft)).delegates 4)).rank ∧
      ((performLayout sampleProvider (scenarioKeep AlignLeft)).delegates 4).mode
        = DisplayMode.Icon :=
  ⟨(mode_monotone sampleProvider (scenarioKeep AlignLeft) (sampleMore 40) 4 (by decide!) rfl
    (by decide)).1, by decide!⟩

/-! ## Overflow resolution reads modes and attributes only -/

@[simp] theorem core_delegates (s : Private) (a : Action) :
    s.core.delegates a = (s.delegates a).shape := rfl

@[simp] theorem core_spacing (s : Private) : s.core.spacing = s.spacing := rfl

@[simp] theorem core_sortedDelegates (s : Private) :
    s.core.sortedDelegates = s.sortedDelegates := rfl

@[simp] theorem core_hiddenActions (s : Private) :
    s.core.hiddenActions = s.hiddenActions := rfl

@[simp] theorem shape_isVisible (d : ToolBarLayoutDelegate) : d.shape.isVisible = d.isVisible :=
  rfl

@[simp] theorem shape_width (d : ToolBarLayoutDelegate) : d.shape.width = d.width := rfl

@[simp] theorem shape_keepVisible (d : ToolBarLayoutDelegate) :
    d.shape.keepVisible = d.keepVisible := rfl

@[simp] theorem shape_fullWidth (d : ToolBarLayoutDelegate) : d.shape.fullWidth = d.fullWidth :=
  rfl

@[simp] theorem shape_iconWidth (d : ToolBarLayoutDelegate) : d.shape.iconWidth = d.iconWidth :=
  rfl

@[simp] theorem shape_mode (d : ToolBarLayoutDelegate) : d.shape.mode = d.mode := rfl

@[simp] theorem shape_hide (d : ToolBarLayoutDelegate) : d.shape.hide = d.hide.shape := rfl

@[simp] theorem shape_showIcon (d : ToolBarLayoutDelegate) :
    d.shape.showIcon = d.showIcon.shape := rfl

@[simp] theorem core_setDelegate (s : Private) (a : Action) (d : ToolBarLayoutDelegate) :
    s.core.setDelegate a d.shape = (s.setDelegate a d).core := by
  unfold Private.core Private.setDelegate
  simp only [Private.mk.injEq, true_and, and_true]
  funext b
  by_cases hb : b = a
  · subst hb; simp
  · simp [Function.update_noteq hb]

@[simp] theorem core_appendHidden (s : Private) (a : Action) :
    s.core.appendHidden a = (s.appendHidden a).core := rfl

theorem shape_eq_iff (d e : ToolBarLayoutDelegate) :
    e.shape = d.shape ↔ e.item = d.item ∧ e.mode = d.mode := by
  cases d; cases e
  simp only [ToolBarLayoutDelegate.shape, ToolBarLayoutDelegate.item,
    ToolBarLayoutDelegate.mk.injEq]
  tauto

theorem core_eq_of {s t : Private} (hsp : t.spacing = s.spacing)
    (hsd : t.sortedDelegates = s.sortedDelegates) (hh : t.hiddenActions = s.hiddenActions)
    (hd : Similar s.delegates t.delegates) : t.core = s.core := by
  unfold Private.core
  rw [hsp, hsd, hh]
  simp only [Private.mk.injEq, true_and, and_true]
  funext b
  exact (shape_eq_iff _ _).2 (hd b)

theorem core_similar {s t : Private} (h : t.core = s.core) : Similar s.delegates t.delegates := by
  intro b
  have h1 : t.core.delegates b = s.core.delegates b := by rw [h]
  exact (shape_eq_iff _ _).1 h1

theorem core_eq_hiddenActions {s t : Private} (h : t.core = s.core) :
    t.hiddenActions = s.hiddenActions := by
  have h1 : t.core.hiddenActions = s.core.hiddenActions := by rw [h]
  exact h1

theorem reclaimOne_core (p : Action) (acc : Private × ℚ) :
    reclaimOne p (acc.1.core, acc.2) = ((reclaimOne p acc).1.core, (reclaimOne p acc).2) := by
  unfold reclaimOne
  simp

theorem reclaim_core (a : Action) (tw : ℚ) (prev : List Action) (acc : Private × ℚ) :
    reclaim a tw prev (acc.1.core, acc.2) =
      ((reclaim a tw prev acc).1.core, (reclaim a tw prev acc).2) := by
  induction prev generalizing acc with
  | nil => rfl
  | cons p prev ih =>
    simp only [reclaim, core_delegates, shape_isVisible, shape_keepVisible, reclaimOne_core,
      shape_fullWidth, shape_iconWidth]
    split_ifs <;>
      first
        | exact ih acc
        | exact ih (reclaimOne p acc)
        | rfl
        | simp

theorem reclaimRange_core (s : Private) (a : Action) :
    reclaimRange s.core a = reclaimRange s a := rfl

theorem maybeHideDelegate_core (s : Private) (a : Action) (cw tw : ℚ) :
    maybeHideDelegate s.core a cw tw =
      ((maybeHideDelegate s a cw tw).1.core, (maybeHideDelegate s a cw tw).2) := by
  have hr := reclaim_core a tw (reclaimRange s a) (s, cw)
  simp only at hr
  simp only [maybeHideDelegate, core_delegates, shape_isVisible, shape_keepVisible,
    shape_width, shape_iconWidth, reclaimRange_core, hr]
  split_ifs <;> simp

theorem overflowStep_core (tw : ℚ) (acc : Private × ℚ) (a : Action) :
    overflowStep tw (acc.1.core, acc.2) a =
      ((overflowStep tw acc a).1.core, (overflowStep tw acc a).2) := by
  simp only [overflowStep, maybeHideDelegate_core, core_delegates, shape_isVisible,
    shape_width, core_spacing]
  split_ifs <;> rfl

theorem overflowLoop_core (tw : ℚ) (l : List Action) (acc : Private × ℚ) :
    overflowLoop tw l (acc.1.core, acc.2) =
      ((overflowLoop tw l acc).1.core, (overflowLoop tw l acc).2) := by
  induction l generalizing acc with
  | nil => rfl
  | cons a rest ih =>
    rw [overflowLoop, overflowLoop, overflowStep_core]
    exact ih _

theorem resolveOverflow_core (s : Private) (mw tw : ℚ) :
    resolveOverflow s.core mw tw =
      ((resolveOverflow s mw tw).1.core, (resolveOverflow s mw tw).2) := by
  have h := overflowLoop_core tw s.sortedDelegates (s, 0)
  simp only at h
  simp only [resolveOverflow, core_sortedDelegates, core_spacing, h]
  split_ifs <;> rfl

/-- Overflow resolution gives the same modes, hidden list and width on two states that
agree on spacing, delegate list, hidden list and the modes and attributes of the
delegates. -/
theorem resolveOverflow_congr {s t : Private} (h : t.core = s.core) (mw tw : ℚ) :
    (resolveOverflow t mw tw).1.core = (resolveOverflow s mw tw).1.core ∧
      (resolveOverflow t mw tw).2 = (resolveOverflow s mw tw).2 := by
  have h1 := resolveOverflow_core s mw tw
  have h2 := resolveOverflow_core t mw tw
  rw [h, h1] at h2
  exact ⟨(congrArg Prod.fst h2).symm, (congrArg Prod.snd h2).symm⟩

/-! ## The first loop reads attributes only -/

theorem item_naturalHeight {d e : ToolBarLayoutDelegate} (h : e.item = d.item) :
    e.naturalHeight = d.naturalHeight := by
  have h1 := congrArg ToolBarLayoutDelegate.naturalHeight h
  exact h1

theorem classify_alike {s t : Private} (h : Alike s t) (mw mw' mh mh' : ℚ) (a : Action) :
    Alike (classify s mw mh a).1 (classify t mw' mh' a).1 := by
  obtain ⟨hsp, hh, hi⟩ := h
  unfold classify
  rw [item_actionVisible (hi a), item_hidden (hi a), item_iconOnly (hi a)]
  have hup : ∀ d e : ToolBarLayoutDelegate, e.item = d.item → ∀ b,
      (Function.update t.delegates a e b).item = (Function.update s.delegates a d b).item := by
    intro d e hde b
    by_cases hb : b = a
    · subst hb; simpa using hde
    · simp only [Function.update_noteq hb]; exact hi b
  have hha : t.hiddenActions ++ [a] = s.hiddenActions ++ [a] := by rw [hh]
  split_ifs <;>
    first
      | exact ⟨hsp, hh, hup _ _ (hi a)⟩
      | exact ⟨hsp, hha, hup _ _ (hi a)⟩

theorem classify_maxHeight {s t : Private} (h : Alike s t) (mw mw' mh : ℚ) (a : Action) :
    (classify t mw' mh a).2.2 = (classify s mw mh a).2.2 := by
  obtain ⟨-, -, hi⟩ := h
  unfold classify
  rw [item_actionVisible (hi a), item_hidden (hi a), item_iconOnly (hi a)]
  split_ifs <;>
    simp [ToolBarLayoutDelegate.maxHeight, ToolBarLayoutDelegate.showIcon,
      ToolBarLayoutDelegate.showFull, item_naturalHeight (hi a)]

theorem classifyAll_alike (l : List Action) (acc acc' : Private × ℚ × ℚ)
    (h : Alike acc.1 acc'.1) :
    Alike (classifyAll l acc).1 (classifyAll l acc').1 ∧
      (acc'.2.2 = acc.2.2 → (classifyAll l acc').2.2 = (classifyAll l acc).2.2) := by
  induction l generalizing acc acc' with
  | nil => exact ⟨h, fun e => e⟩
  | cons a rest ih =>
    obtain ⟨s, mw, mh⟩ := acc
    obtain ⟨t, mw', mh'⟩ := acc'
    rw [classifyAll, classifyAll]
    have h1 := ih (classify s mw mh a) (classify t mw' mh' a) (classify_alike h _ _ _ _ a)
    refine ⟨h1.1, fun e => h1.2 ?_⟩
    simp only at e
    rw [e]
    exact classify_maxHeight h _ _ _ a

/-- The first loop and the overflow resolution give the same modes, hidden list and widths
on two states with the same delegate list, spacing, hidden list and available width that
agree on the attributes of the delegates and on the modes of the delegates outside the
list. -/
theorem passResolved_congr (s t : Private) (more more' : QQuickItem) (h : Alike s t)
    (hsd : t.sortedDelegates = s.sortedDelegates)
    (hmode : ∀ b, b ∉ s.sortedDelegates → (t.delegates b).mode = (s.delegates b).mode)
    (hlw : layoutWidth t more' = layoutWidth s more) :
    (passResolved t more').1.core = (passResolved s more).1.core ∧
      (passResolved t more').2 = (passResolved s more).2 ∧
      (passClassified t more').2.1 = (passClassified s more).2.1 ∧
      ((if more'.visible then more'.height else 0) = (if more.visible then more.height else 0) →
        (passClassified t more').2.2 = (passClassified s more).2.2) := by
  have hal := classifyAll_alike s.sortedDelegates (s, 0, if more.visible then more.height else 0)
    (t, 0, if more'.visible then more'.height else 0) h
  have hsim : Similar (passClassified s more).1.delegates (passClassified t more').1.delegates := by
    intro b
    refine ⟨?_, ?_⟩
    · rw [frame_item (passClassified_frame t more') b, frame_item (passClassified_frame s more) b]
      exact h.2.2 b
    · unfold passClassified
      rw [classifyAll_mode, classifyAll_mode, hsd]
      by_cases hb : b ∈ s.sortedDelegates
      · rw [if_pos hb, if_pos hb]
        exact tentativeMode_congr (h.2.2 b)
      · rw [if_neg hb, if_neg hb]
        exact hmode b hb
  have hspc : (passClassified t more').1.spacing = (passClassified s more).1.spacing := by
    rw [frame_spacing (passClassified_frame t more'), frame_spacing (passClassified_frame s more)]
    exact h.1
  have hcore : (passClassified t more').1.core = (passClassified s more).1.core := by
    refine core_eq_of hspc ?_ ?_ hsim
    · rw [frame_sortedDelegates (passClassified_frame t more'),
        frame_sortedDelegates (passClassified_frame s more)]
      exact hsd
    · have := hal.1.2.1
      unfold passClassified
      rw [hsd]
      exact this
  have hmw : (passClassified t more').2.1 = (passClassified s more).2.1 := by
    rw [passClassified_maxWidth, passClassified_maxWidth, hsd, h.1]
    exact consumedSum_congr _ _ _ _ fun a _ => hsim a
  have hmh : (if more'.visible then more'.height else 0) =
      (if more.visible then more.height else 0) →
      (passClassified t more').2.2 = (passClassified s more).2.2 := by
    intro e
    have := hal.2 e
    unfold passClassified
    rw [hsd]
    exact this
  refine ⟨?_, ?_, hmw, hmh⟩
  · unfold passResolved
    rw [hmw, hspc, frame_layoutWidth (passClassified_frame t more'),
      frame_layoutWidth (passClassified_frame s more), hlw]
    exact (resolveOverflow_congr hcore _ _).1
  · unfold passResolved
    rw [hmw, hspc, frame_layoutWidth (passClassified_frame t more'),
      frame_layoutWidth (passClassified_frame s more), hlw]
    exact (resolveOverflow_congr hcore _ _).2

/-! ## The placement loop on two runs -/

theorem place_hidden (sp mh : ℚ) (dir : LayoutDirection)
    (acc : (Action → ToolBarLayoutDelegate) × ℚ) (a : Action)
    (hv : ¬ (acc.1 a).isVisible = true) : place sp mh dir acc a = acc := by
  unfold place
  dsimp only
  rw [if_pos hv]

theorem place_visible_forward (sp mh : ℚ) (acc : (Action → ToolBarLayoutDelegate) × ℚ)
    (a : Action) (hv : (acc.1 a).isVisible = true) :
    place sp mh LayoutDirection.LeftToRight acc a =
      (Function.update acc.1 a
        ((acc.1 a).setPosition acc.2 (qRound ((mh - (acc.1 a).height) / 2))),
        acc.2 + ((acc.1 a).width + sp)) := by
  unfold place
  dsimp only
  rw [if_neg (not_not.2 hv), if_pos rfl]

theorem place_visible_reverse (sp mh : ℚ) (acc : (Action → ToolBarLayoutDelegate) × ℚ)
    (a : Action) (hv : (acc.1 a).isVisible = true) :
    place sp mh LayoutDirection.RightToLeft acc a =
      (Function.update acc.1 a
        ((acc.1 a).setPosition (acc.2 - (acc.1 a).width)
          (qRound ((mh - (acc.1 a).height) / 2))),
        acc.2 - ((acc.1 a).width + sp)) := by
  unfold place
  dsimp only
  rw [if_neg (not_not.2 hv), if_neg (by decide)]

theorem place_similar (sp mh mh' : ℚ) (dir dir' : LayoutDirection)
    (acc acc' : (Action → ToolBarLayoutDelegate) × ℚ) (a : Action)
    (h : Similar acc.1 acc'.1) :
    Similar (place sp mh dir acc a).1 (place sp mh' dir' acc' a).1 := by
  intro b
  have h1 := place_item sp mh dir acc a b
  have h2 := place_item sp mh' dir' acc' a b
  exact ⟨h2.1.trans ((h b).1.trans h1.1.symm), h2.2.trans ((h b).2.trans h1.2.symm)⟩

/-- Two runs of the placement loop over the same list on stores that agree on modes and
attributes: a relation `C` between the cursors kept by every round yields the relation
`P` that every round establishes between the two placed delegates. -/
theorem placeAll_rel (sp mh mh' : ℚ) (dir dir' : LayoutDirection) (C : ℚ → ℚ → Prop)
    (P : ToolBarLayoutDelegate → ToolBarLayoutDelegate → Prop)
    (hstep : ∀ (acc acc' : (Action → ToolBarLayoutDelegate) × ℚ) (a : Action),
      Similar acc.1 acc'.1 → C acc.2 acc'.2 →
        C (place sp mh dir acc a).2 (place sp mh' dir' acc' a).2 ∧
          ((acc.1 a).isVisible = true →
            P ((place sp mh dir acc a).1 a) ((place sp mh' dir' acc' a).1 a)))
    (l : List Action) (acc acc' : (Action → ToolBarLayoutDelegate) × ℚ)
    (hsim : Similar acc.1 acc'.1) (hC : C acc.2 acc'.2) (a : Action) (ha : a ∈ l)
    (hv : (acc.1 a).isVisible = true) :
    P ((placeAll sp mh dir l acc).1 a) ((placeAll sp mh' dir' l acc').1 a) := by
  induction l generalizing acc acc' with
  | nil => simp at ha
  | cons p rest ih =>
    rw [placeAll, placeAll]
    have hs := hstep acc acc' p hsim hC
    by_cases har : a ∈ rest
    · refine ih _ _ (place_similar sp mh mh' dir dir' acc acc' p hsim) hs.1 har ?_
      rw [isVisible_congr (place_item sp mh dir acc p a).2]
      exact hv
    · have hap : a = p := by
        rcases List.mem_cons.1 ha with e | e
        · exact e
        · exact absurd e har
      subst hap
      rw [placeAll_other _ _ _ _ _ _ har, placeAll_other _ _ _ _ _ _ har]
      exact hs.2 hv

theorem similar_isVisible {ds es : Action → ToolBarLayoutDelegate} (h : Similar ds es)
    (a : Action) : (es a).isVisible = (ds a).isVisible :=
  isVisible_congr (h a).2

theorem similar_width {ds es : Action → ToolBarLayoutDelegate} (h : Similar ds es)
    (a : Action) : (es a).width = (ds a).width :=
  width_congr (h a).1 (h a).2

theorem setPosition_width (d : ToolBarLayoutDelegate) (x y : ℚ) :
    (d.setPosition x y).width = d.width := rfl

/-- The reverse placement loop started at `w - x0` mirrors the forward loop started at
`x0`: every placed delegate has `x_reverse = w - x_forward - width`. -/
theorem placeAll_mirror (w sp mh mh' : ℚ) (l : List Action)
    (acc acc' : (Action → ToolBarLayoutDelegate) × ℚ) (hsim : Similar acc.1 acc'.1)
    (hx : acc'.2 = w - acc.2) (a : Action) (ha : a ∈ l) (hv : (acc.1 a).isVisible = true) :
    ((placeAll sp mh' LayoutDirection.RightToLeft l acc').1 a).x =
      w - ((placeAll sp mh LayoutDirection.LeftToRight l acc).1 a).x -
        ((placeAll sp mh LayoutDirection.LeftToRight l acc).1 a).width := by
  refine placeAll_rel sp mh mh' LayoutDirection.LeftToRight LayoutDirection.RightToLeft
    (fun x x' => x' = w - x) (fun d d' => d'.x = w - d.x - d.width) ?_ l acc acc' hsim hx a ha hv
  intro acc acc' a hsim hC
  by_cases hv : (acc.1 a).isVisible = true
  · have hv' : (acc'.1 a).isVisible = true := by rw [similar_isVisible hsim a]; exact hv
    rw [place_visible_forward sp mh acc a hv, place_visible_reverse sp mh' acc' a hv']
    simp only [Function.update_same, setPosition_width, similar_width hsim a]
    simp only at hC
    refine ⟨by rw [hC]; ring, fun _ => ?_⟩
    show acc'.2 - (acc.1 a).width = w - acc.2 - (acc.1 a).width
    rw [hC]
  · have hv' : ¬ (acc'.1 a).isVisible = true := by rw [similar_isVisible hsim a]; exact hv
    rw [place_hidden sp mh _ acc a hv, place_hidden sp mh' _ acc' a hv']
    exact ⟨hC, fun h => absurd h hv⟩

/-- Two runs of the placement loop in the same direction from the same start on stores
that agree on modes and attributes place every visible delegate of the list at the same
`x`, and at the same `y` when the maximum heights agree. -/
theorem placeAll_same (sp mh mh' : ℚ) (dir : LayoutDirection) (l : List Action)
    (acc acc' : (Action → ToolBarLayoutDelegate) × ℚ) (hsim : Similar acc.1 acc'.1)
    (hx : acc'.2 = acc.2) (a : Action) (ha : a ∈ l) (hv : (acc.1 a).isVisible = true) :
    ((placeAll sp mh' dir l acc').1 a).x = ((placeAll sp mh dir l acc).1 a).x ∧
      (mh' = mh →
        ((placeAll sp mh' dir l acc').1 a).y = ((placeAll sp mh dir l acc).1 a).y) := by
  refine placeAll_rel sp mh mh' dir dir (fun x x' => x' = x)
    (fun d d' => d'.x = d.x ∧ (mh' = mh → d'.y = d.y)) ?_ l acc acc' hsim hx a ha hv
  intro acc acc' a hsim hC
  simp only at hC
  by_cases hv : (acc.1 a).isVisible = true
  · have hv' : (acc'.1 a).isVisible = true := by rw [similar_isVisible hsim a]; exact hv
    have hh : (acc'.1 a).height = (acc.1 a).height := item_naturalHeight (hsim a).1
    cases dir
    · rw [place_visible_forward sp mh acc a hv, place_visible_forward sp mh' acc' a hv']
      simp only [Function.update_same, similar_width hsim a, hC, hh]
      exact ⟨trivial, fun _ => ⟨rfl, fun e => by rw [e]; rfl⟩⟩
    · rw [place_visible_reverse sp mh acc a hv, place_visible_reverse sp mh' acc' a hv']
      simp only [Function.update_same, similar_width hsim a, hC, hh]
      exact ⟨trivial, fun _ => ⟨rfl, fun e => by rw [e]; rfl⟩⟩
  · have hv' : ¬ (acc'.1 a).isVisible = true := by rw [similar_isVisible hsim a]; exact hv
    rw [place_hidden sp mh _ acc a hv, place_hidden sp mh' _ acc' a hv']
    exact ⟨hC, fun h => absurd h hv⟩

/-! ## Reverse direction mirrors forward direction -/

theorem placeMoreButton_width (s : Private) (more : QQuickItem) (mh : ℚ) :
    (placeMoreButton s more mh).width = more.width := by
  unfold placeMoreButton
  split_ifs <;> rfl

theorem placeMoreButton_visible (s : Private) (more : QQuickItem) (mh : ℚ) :
    (placeMoreButton s more mh).visible = true ↔ s.hiddenActions ≠ [] := by
  unfold placeMoreButton
  split_ifs with h <;> simp [h]

theorem placeMoreButton_x (s : Private) (more : QQuickItem) (mh : ℚ)
    (h : s.hiddenActions ≠ []) :
    (placeMoreButton s more mh).x =
      if s.layoutDirection = LayoutDirection.LeftToRight then s.width - more.width else 0 := by
  unfold placeMoreButton
  rw [if_pos h]

theorem placeMoreButton_visible_congr {s t : Private} (h : t.hiddenActions = s.hiddenActions)
    (more more' : QQuickItem) (mh mh' : ℚ) :
    (placeMoreButton t more' mh').visible = (placeMoreButton s more mh).visible := by
  unfold placeMoreButton
  rw [h]
  split_ifs <;> rfl

theorem classifyAll_other (l : List Action) (acc : Private × ℚ × ℚ) (b : Action)
    (hb : b ∉ l) : (classifyAll l acc).1.delegates b = acc.1.delegates b := by
  induction l generalizing acc with
  | nil => rfl
  | cons a rest ih =>
    obtain ⟨s, mw, mh⟩ := acc
    rw [classifyAll, ih _ (fun h => hb (List.mem_cons_of_mem _ h))]
    exact classify_delegates_other s mw mh a b (fun e => hb (by rw [e]; exact List.mem_cons_self _ _))

theorem reclaim_unlisted (a : Action) (tw : ℚ) (prev : List Action) (acc : Private × ℚ)
    (b : Action) (hba : b ≠ a) (hb : b ∉ prev) :
    (reclaim a tw prev acc).1.delegates b = acc.1.delegates b := by
  induction prev generalizing acc with
  | nil => rfl
  | cons p prev ih =>
    have hbp : b ≠ p := fun e => hb (by rw [e]; exact List.mem_cons_self _ _)
    have hb' : b ∉ prev := fun h => hb (List.mem_cons_of_mem _ h)
    have h1 : (reclaimOne p acc).1.delegates b = acc.1.delegates b := by
      rw [reclaimOne_delegates]
      exact Function.update_noteq hbp _ _
    rw [reclaim]
    dsimp only
    split_ifs <;>
      first
        | exact ih acc hb'
        | exact h1
        | exact (ih _ hb').trans h1
        | (simp only [setDelegate_delegates, Function.update_noteq hba]; exact h1)

theorem maybeHideDelegate_unlisted (s : Private) (a : Action) (cw tw : ℚ) (b : Action)
    (hba : b ≠ a) (hb : b ∉ s.sortedDelegates) :
    (maybeHideDelegate s a cw tw).1.delegates b = s.delegates b := by
  have hr : b ∉ reclaimRange s a := fun h => hb (mem_reclaimRange_sorted s a b h)
  have h1 := reclaim_unlisted a tw (reclaimRange s a) (s, cw) b hba hr
  unfold maybeHideDelegate
  dsimp only
  split_ifs <;>
    simp only [appendHidden_delegates, setDelegate_delegates, Function.update_noteq hba, h1]

theorem overflowLoop_unlisted (tw : ℚ) (l : List Action) (acc : Private × ℚ) (b : Action)
    (hb : b ∉ acc.1.sortedDelegates) (hl : ∀ a ∈ l, a ∈ acc.1.sortedDelegates) :
    (overflowLoop tw l acc).1.delegates b = acc.1.delegates b := by
  induction l generalizing acc with
  | nil => rfl
  | cons a rest ih =>
    have hsd : (overflowStep tw acc a).1.sortedDelegates = acc.1.sortedDelegates :=
      frame_sortedDelegates (overflowStep_frame tw acc a)
    have hba : b ≠ a := fun e => hb (by rw [e]; exact hl a (List.mem_cons_self _ _))
    rw [overflowLoop, ih _ (by rw [hsd]; exact hb)
      (fun c hc => by rw [hsd]; exact hl c (List.mem_cons_of_mem _ hc)), overflowStep_delegates]
    exact maybeHideDelegate_unlisted _ _ _ _ _ hba hb

theorem passResolved_unlisted (s : Private) (more : QQuickItem) (b : Action)
    (hb : b ∉ s.sortedDelegates) : (passResolved s more).1.delegates b = s.delegates b := by
  have hc : (passClassified s more).1.delegates b = s.delegates b :=
    classifyAll_other _ _ b hb
  have hsd : (passClassified s more).1.sortedDelegates = s.sortedDelegates :=
    frame_sortedDelegates (passClassified_frame s more)
  have hov := overflowLoop_unlisted (layoutWidth (passClassified s more).1 more)
    (passClassified s more).1.sortedDelegates ((passClassified s more).1, 0) b
    (by rw [hsd]; exact hb) (fun a ha => ha)
  unfold passResolved resolveOverflow
  dsimp only
  split_ifs <;>
    first
      | exact hov.trans hc
      | exact hc

theorem layoutBody_unlisted (s : Private) (more : QQuickItem) (b : Action)
    (hb : b ∉ s.sortedDelegates) : (layoutBody s more).delegates b = s.delegates b := by
  rw [layoutBody_delegates_eq, placeAll_other _ _ _ _ _ b
    (by rw [frame_sortedDelegates (passResolved_frame s more)]; exact hb)]
  exact passResolved_unlisted s more b hb

theorem layoutStart_congr (r r' : Private) (m m' : QQuickItem) (lw : ℚ)
    (hw : r'.width = r.width) (hal : r'.alignment = r.alignment)
    (hsp : r'.spacing = r.spacing) (hd : r'.layoutDirection = r.layoutDirection)
    (hmv : m'.visible = m.visible) (hmw : m'.width = m.width) :
    layoutStart r' m' lw = layoutStart r m lw := by
  unfold layoutStart
  rw [hw, hal, hsp, hmv, hmw, hd]

theorem placeMoreButton_height (s : Private) (more : QQuickItem) (mh : ℚ) :
    (placeMoreButton s more mh).height = more.height := by
  unfold placeMoreButton
  split_ifs <;> rfl

theorem placeMoreButton_y (s : Private) (more : QQuickItem) (mh : ℚ)
    (h : s.hiddenActions ≠ []) :
    (placeMoreButton s more mh).y = qRound ((mh - more.height) / 2) := by
  unfold placeMoreButton
  rw [if_pos h]

/-- The pass proper gives the same modes, hidden list and positions on two states with the
same delegate list, configuration and indicator size that agree on the attributes of the
delegates and on the modes of the delegates outside the list; the `y` positions agree when
the indicator was shown in both or in neither before the pass. -/
theorem layoutBody_congr (s t : Private) (more more' : QQuickItem) (h : Alike s t)
    (hsd : t.sortedDelegates = s.sortedDelegates)
    (hmode : ∀ b, b ∉ s.sortedDelegates → (t.delegates b).mode = (s.delegates b).mode)
    (hw : t.width = s.width) (hal : t.alignment = s.alignment)
    (hdir : t.layoutDirection = s.layoutDirection) (hmw : more'.width = more.width)
    (hmh : more'.height = more.height) :
    (∀ a, ((layoutBody t more').delegates a).mode = ((layoutBody s more).delegates a).mode) ∧
      (layoutBody t more').hiddenActions = (layoutBody s more).hiddenActions ∧
      (∀ a ∈ s.sortedDelegates, ((layoutBody s more).delegates a).isVisible = true →
        ((layoutBody t more').delegates a).x = ((layoutBody s more).delegates a).x ∧
          (more'.visible = more.visible →
            ((layoutBody t more').delegates a).y = ((layoutBody s more).delegates a).y)) ∧
      ∃ m m', (layoutBody s more).moreButtonInstance = some m ∧
        (layoutBody t more').moreButtonInstance = some m' ∧ m'.visible = m.visible ∧
        m.width = more.width ∧ m.height = more.height ∧
        (m.visible = true → m'.x = m.x ∧ (more'.visible = more.visible → m'.y = m.y)) := by
  have hlw : layoutWidth t more' = layoutWidth s more := by
    unfold layoutWidth
    rw [hw, hal, h.1, hmw]
  have hres := passResolved_congr s t more more' h hsd hmode hlw
  have hsim := core_similar hres.1
  have hhid := core_eq_hiddenActions hres.1
  have hfs := passResolved_frame s more
  have hft := passResolved_frame t more'
  have hmax : more'.visible = more.visible →
      (passClassified t more').2.2 = (passClassified s more).2.2 := fun e =>
    hres.2.2.2 (by rw [e, hmh])
  refine ⟨fun a => ?_, ?_, fun a ha hv => ?_, ?_⟩
  · rw [(layoutBody_delegates _ _ a).2, (layoutBody_delegates _ _ a).2]
    exact (hsim a).2
  · rw [layoutBody_hiddenActions, layoutBody_hiddenActions]
    exact hhid
  · have hvr : ((passResolved s more).1.delegates a).isVisible = true := by
      rw [← isVisible_congr (layoutBody_delegates _ more a).2]
      exact hv
    rw [layoutBody_delegates_eq, layoutBody_delegates_eq]
    rw [frame_spacing hfs, frame_spacing hft, frame_layoutDirection hfs,
      frame_layoutDirection hft, frame_sortedDelegates hfs, frame_sortedDelegates hft,
      h.1, hdir, hsd]
    have hx : layoutStart (passResolved t more').1
        (placeMoreButton (passResolved t more').1 more' (passClassified t more').2.2)
        (passResolved t more').2 =
      layoutStart (passResolved s more).1
        (placeMoreButton (passResolved s more).1 more (passClassified s more).2.2)
        (passResolved s more).2 := by
      rw [hres.2.1]
      refine layoutStart_congr _ _ _ _ _ ?_ ?_ ?_ ?_ ?_ ?_
      · rw [frame_width hfs, frame_width hft, hw]
      · rw [frame_alignment hfs, frame_alignment hft, hal]
      · rw [frame_spacing hfs, frame_spacing hft, h.1]
      · rw [frame_layoutDirection hfs, frame_layoutDirection hft, hdir]
      · exact placeMoreButton_visible_congr hhid _ _ _ _
      · rw [placeMoreButton_width, placeMoreButton_width, hmw]
    have hp := placeAll_same s.spacing (passClassified s more).2.2 (passClassified t more').2.2
      s.layoutDirection s.sortedDelegates ((passResolved s more).1.delegates, _)
      ((passResolved t more').1.delegates, _) hsim hx a ha hvr
    exact ⟨hp.1, fun e => hp.2 (hmax e)⟩
  · refine ⟨_, _, layoutBody_moreButtonInstance _ more, layoutBody_moreButtonInstance _ more',
      placeMoreButton_visible_congr hhid _ _ _ _, placeMoreButton_width _ _ _,
      placeMoreButton_height _ _ _, fun hvis => ?_⟩
    have hne := (placeMoreButton_visible _ _ _).1 hvis
    have hne' : (passResolved t more').1.hiddenActions ≠ [] := by rw [hhid]; exact hne
    refine ⟨?_, fun e => ?_⟩
    · rw [placeMoreButton_x _ _ _ hne, placeMoreButton_x _ _ _ hne',
        frame_layoutDirection hfs, frame_layoutDirection hft, frame_width hfs,
        frame_width hft, hdir, hw, hmw]
    · rw [placeMoreButton_y _ _ _ hne, placeMoreButton_y _ _ _ hne', hmax e, hmh]

/-! ## The second run of the pass -/

theorem createDelegatesLoop_of_keys (cd : Action → ToolBarLayoutDelegate) (l : List Action)
    (keys : List Action) (ds : Action → ToolBarLayoutDelegate) (result : List Action)
    (h : ∀ a ∈ l, a ∈ keys) :
    createDelegatesLoop cd l (keys, ds, result) = (keys, ds, result ++ l) := by
  induction l generalizing result with
  | nil => simp [createDelegatesLoop]
  | cons a rest ih =>
    rw [createDelegatesLoop, if_pos (h a (List.mem_cons_self _ _)),
      ih _ (fun b hb => h b (List.mem_cons_of_mem _ hb))]
    simp

theorem createDelegatesLoop_mem_keys (cd : Action → ToolBarLayoutDelegate) (l : List Action)
    (acc : List Action × (Action → ToolBarLayoutDelegate) × List Action) (a : Action)
    (h : a ∈ acc.1 ∨ a ∈ l) : a ∈ (createDelegatesLoop cd l acc).1 := by
  induction l generalizing acc with
  | nil =>
    rcases h with h | h
    · exact h
    · simp at h
  | cons b rest ih =>
    obtain ⟨keys, ds, result⟩ := acc
    rw [createDelegatesLoop]
    split_ifs with hb
    · refine ih _ ?_
      rcases h with h | h
      · exact Or.inl h
      · rcases List.mem_cons.1 h with e | e
        · exact Or.inl (by rw [e]; exact hb)
        · exact Or.inr e
    · refine ih _ ?_
      rcases h with h | h
      · exact Or.inl (List.mem_append_left _ h)
      · rcases List.mem_cons.1 h with e | e
        · exact Or.inl (by rw [e]; simp)
        · exact Or.inr e

theorem beginPass_mem_keys (cd : Action → ToolBarLayoutDelegate) (s : Private) (a : Action)
    (ha : a ∈ s.actions) : a ∈ (beginPass cd s).delegateKeys := by
  have h := createDelegatesLoop_mem_keys cd s.actions (s.delegateKeys, s.delegates, []) a
    (Or.inr ha)
  unfold beginPass createDelegates
  dsimp only
  split_ifs <;> exact h

theorem beginPass_of_keys (cd : Action → ToolBarLayoutDelegate) (s : Private)
    (more : QQuickItem) (hm : s.moreButtonInstance = some more)
    (h : ∀ a ∈ s.actions, a ∈ s.delegateKeys) :
    beginPass cd s =
      { s with layouting := true, hiddenActions := [], sortedDelegates := s.actions } := by
  unfold beginPass createDelegates
  dsimp only
  rw [createDelegatesLoop_of_keys cd s.actions s.delegateKeys s.delegates [] h]
  rw [if_neg (by simp [hm])]
  simp

theorem beginPass_static (cd : Action → ToolBarLayoutDelegate) (s : Private) :
    (beginPass cd s).actions = s.actions ∧ (beginPass cd s).fullDelegate = s.fullDelegate ∧
      (beginPass cd s).iconDelegate = s.iconDelegate ∧
      (beginPass cd s).moreButton = s.moreButton := by
  unfold beginPass createDelegates
  dsimp only
  split_ifs <;> exact ⟨rfl, rfl, rfl, rfl⟩

theorem layoutBody_static (s : Private) (more : QQuickItem) :
    (layoutBody s more).actions = s.actions ∧
      (layoutBody s more).delegateKeys = s.delegateKeys ∧
      (layoutBody s more).fullDelegate = s.fullDelegate ∧
      (layoutBody s more).iconDelegate = s.iconDelegate ∧
      (layoutBody s more).moreButton = s.moreButton ∧
      (layoutBody s more).spacing = s.spacing ∧
      (layoutBody s more).width = s.width ∧
      (layoutBody s more).alignment = s.alignment ∧
      (layoutBody s more).layoutDirection = s.layoutDirection := by
  have hf := passResolved_frame s more
  have h1 := congrArg Private.actions hf
  have h2 := congrArg Private.delegateKeys hf
  have h3 := congrArg Private.fullDelegate hf
  have h4 := congrArg Private.iconDelegate hf
  have h5 := congrArg Private.moreButton hf
  have h6 := frame_spacing hf
  have h7 := frame_width hf
  have h8 := frame_alignment hf
  have h9 := frame_layoutDirection hf
  exact ⟨h1, h2, h3, h4, h5, h6, h7, h8, h9⟩

theorem item_ready {d e : ToolBarLayoutDelegate} (h : e.item = d.item) : e.ready = d.ready := by
  have h1 := congrArg ToolBarLayoutDelegate.ready h
  exact h1

/-- The state left by a completed pass lets the next pass complete, and that next pass
repeats the modes, the hidden list, the `x` positions and the indicator's visibility; the
`y` positions are repeated when the indicator was shown before the first pass exactly when
the first pass shows it. -/
theorem second_run (cd : Action → ToolBarLayoutDelegate) (s : Private) (more : QQuickItem)
    (hc : passCompletes cd s = true) (hm : s.moreButtonInstance = some more) :
    ∃ m1 m2, (performLayout cd s).moreButtonInstance = some m1 ∧
      (performLayout cd (performLayout cd s)).moreButtonInstance = some m2 ∧
      passCompletes cd (performLayout cd s) = true ∧
      (performLayout cd s).actions = s.actions ∧
      (∀ a, ((performLayout cd (performLayout cd s)).delegates a).mode =
        ((performLayout cd s).delegates a).mode) ∧
      (performLayout cd (performLayout cd s)).hiddenActions =
        (performLayout cd s).hiddenActions ∧
      (∀ a ∈ s.actions, ((performLayout cd s).delegates a).isVisible = true →
        ((performLayout cd (performLayout cd s)).delegates a).x =
            ((performLayout cd s).delegates a).x ∧
          (m1.visible = more.visible →
            ((performLayout cd (performLayout cd s)).delegates a).y =
              ((performLayout cd s).delegates a).y)) ∧
      m2.visible = m1.visible ∧
      (m1.visible = true → m2.x = m1.x ∧ (m1.visible = more.visible → m2.y = m1.y)) := by
  have hs1 := performLayout_of_completes cd s more hc hm
  have hst := layoutBody_static (beginPass cd s) more
  have hbs := beginPass_static cd s
  have hcfg := beginPass_config cd s
  have hm1 := layoutBody_moreButtonInstance (beginPass cd s) more
  have hkeys : ∀ a ∈ (layoutBody (beginPass cd s) more).actions,
      a ∈ (layoutBody (beginPass cd s) more).delegateKeys := by
    intro a ha
    rw [hst.1, hbs.1] at ha
    rw [hst.2.1]
    exact beginPass_mem_keys cd s a ha
  have hb2 := beginPass_of_keys cd (layoutBody (beginPass cd s) more) _ hm1 hkeys
  have hitem : ∀ b, ((layoutBody (beginPass cd s) more).delegates b).item =
      ((beginPass cd s).delegates b).item := fun b =>
    (layoutBody_delegates _ more b).1.trans (frame_item (passResolved_frame _ more) b)
  have hc1 : passCompletes cd (layoutBody (beginPass cd s) more) = true := by
    unfold passCompletes at hc ⊢
    simp only [Bool.and_eq_true, Bool.not_eq_true', List.isEmpty_eq_false,
      List.all_eq_true] at hc ⊢
    obtain ⟨⟨⟨⟨⟨h1, h2⟩, h3⟩, h4⟩, -⟩, h6⟩ := hc
    rw [hb2]
    dsimp only
    rw [hst.1, hst.2.1, hst.2.2.1, hst.2.2.2.1, hst.2.2.2.2.1, hbs.1, hbs.2.1, hbs.2.2.1,
      hbs.2.2.2, hm1]
    refine ⟨⟨⟨⟨⟨h1, h2⟩, h3⟩, h4⟩, rfl⟩, fun a ha => ?_⟩
    rw [item_ready (hitem a)]
    exact h6 a ha
  have hs2 := performLayout_of_completes cd (layoutBody (beginPass cd s) more) _ hc1 hm1
  have halike : Alike (beginPass cd s) (beginPass cd (layoutBody (beginPass cd s) more)) := by
    refine ⟨?_, ?_, fun b => ?_⟩
    · rw [(beginPass_config cd _).1, hst.2.2.2.2.2.1]
    · rw [beginPass_hiddenActions, beginPass_hiddenActions]
    · rw [hb2]
      exact hitem b
  have hcong := layoutBody_congr (beginPass cd s) (beginPass cd (layoutBody (beginPass cd s) more))
    more (placeMoreButton (passResolved (beginPass cd s) more).1 more
      (passClassified (beginPass cd s) more).2.2) halike
    (by rw [beginPass_sortedDelegates, beginPass_sortedDelegates, hst.1, hbs.1])
    (fun b hb => by
      rw [hb2]
      show ((layoutBody (beginPass cd s) more).delegates b).mode = _
      rw [layoutBody_unlisted _ _ b hb])
    (by rw [(beginPass_config cd _).2.1, hst.2.2.2.2.2.2.1])
    (by rw [(beginPass_config cd _).2.2.1, hst.2.2.2.2.2.2.2.1])
    (by rw [(beginPass_config cd _).2.2.2.1, hst.2.2.2.2.2.2.2.2])
    (placeMoreButton_width _ _ _) (placeMoreButton_height _ _ _)
  rw [hs1, hs2]
  obtain ⟨h1, h2, h3, m, m', hm, hm', hv, -, -, hxy⟩ := hcong
  rw [hm1] at hm
  have hmeq := Option.some.inj hm
  subst hmeq
  refine ⟨_, m', hm1, hm', hc1, by rw [hst.1, hbs.1], h1, h2, fun a ha hvis => ?_, hv, hxy⟩
  exact h3 a (by rw [beginPass_sortedDelegates]; exact ha) hvis

/-- C12, the failing instance: in the spec's scenario with an indicator of height 40 that
is not shown before the first pass, both passes complete and give the same modes, but the
first pass places the visible action 0 at y = 0 and the indicator at y = -10, the second
pass places them at y = 10 and y = 0. -/
theorem pass_idempotent_counterexample :
    passCompletes sampleProvider scenarioTall = true ∧
      passCompletes sampleProvider (performLayout sampleProvider scenarioTall) = true ∧
      ((performLayout sampleProvider scenarioTall).delegates 0).mode = DisplayMode.Full ∧
      ((performLayout sampleProvider scenarioTall).delegates 0).y = 0 ∧
      ((performLayout sampleProvider
        (performLayout sampleProvider scenarioTall)).delegates 0).y = 10 ∧
      (performLayout sampleProvider scenarioTall).moreButtonInstance =
        some { width := 40, height := 40, x := 260, y := -10, visible := true } ∧
      (performLayout sampleProvider
        (performLayout sampleProvider scenarioTall)).moreButtonInstance =
        some { width := 40, height := 40, x := 260, y := 0, visible := true } := by
  decide!

/-- C12 (idempotence of the pass, amended): after a completed pass a second pass on the
state the first one left completes too and gives the same display mode for every action,
the same hidden list, the same `x` for every visible action of the list and the same
visibility and `x` for the indicator.  The `y` positions of the visible actions and of the
shown indicator are the same as well when the indicator was shown before the first pass
exactly when the first pass shows it; so a third pass repeats the `y` positions of the
second one. -/
theorem pass_idempotent (cd : Action → ToolBarLayoutDelegate) (s : Private)
    (more : QQuickItem) (hc : passCompletes cd s = true)
    (hm : s.moreButtonInstance = some more) :
    passCompletes cd (performLayout cd s) = true ∧
      (∀ a, ((performLayout cd (performLayout cd s)).delegates a).mode =
        ((performLayout cd s).delegates a).mode) ∧
      (performLayout cd (performLayout cd s)).hiddenActions =
        (performLayout cd s).hiddenActions ∧
      (∀ a ∈ s.actions, ((performLayout cd s).delegates a).isVisible = true →
        ((performLayout cd (performLayout cd s)).delegates a).x =
          ((performLayout cd s).delegates a).x) ∧
      (∃ m1 m2, (performLayout cd s).moreButtonInstance = some m1 ∧
        (performLayout cd (performLayout cd s)).moreButtonInstance = some m2 ∧
        m2.visible = m1.visible ∧ (m1.visible = true → m2.x = m1.x) ∧
        (m1.visible = more.visible →
          (m1.visible = true → m2.y = m1.y) ∧
          ∀ a ∈ s.actions, ((performLayout cd s).delegates a).isVisible = true →
            ((performLayout cd (performLayout cd s)).delegates a).y =
              ((performLayout cd s).delegates a).y)) ∧
      (∀ a ∈ s.actions, ((performLayout cd s).delegates a).isVisible = true →
        ((performLayout cd (performLayout cd (performLayout cd s))).delegates a).y =
          ((performLayout cd (performLayout cd s)).delegates a).y) ∧
      ∃ m2 m3, (performLayout cd (performLayout cd s)).moreButtonInstance = some m2 ∧
        (performLayout cd (performLayout cd (performLayout cd s))).moreButtonInstance
          = some m3 ∧
        m3.visible = m2.visible ∧ (m2.visible = true → m3.x = m2.x ∧ m3.y = m2.y) := by
  obtain ⟨m1, m2, hm1, hm2, hc1, hact, hmode, hhid, hpos, hv, hmxy⟩ := second_run cd s more hc hm
  obtain ⟨n1, n2, hn1, hn2, -, -, hmode', -, hpos', hv', hnxy⟩ :=
    second_run cd (performLayout cd s) m1 hc1 hm1
  rw [hm2] at hn1
  have hn := Option.some.inj hn1
  subst hn
  refine ⟨hc1, hmode, hhid, fun a ha hvis => (hpos a ha hvis).1,
    ⟨m1, m2, hm1, hm2, hv, fun h => (hmxy h).1, fun e => ⟨fun h => (hmxy h).2 e,
      fun a ha hvis => (hpos a ha hvis).2 e⟩⟩,
    fun a ha hvis => ?_, ⟨m2, n2, hm2, hn2, hv', fun h => ?_⟩⟩
  · refine (hpos' a (by rw [hact]; exact ha) ?_).2 hv
    rw [isVisible_congr (hmode a)]
    exact hvis
  · have h' : m1.visible = true := by rw [← hv]; exact h
    have hh := hnxy h
    exact ⟨hh.1, hh.2 hv⟩

theorem pass_idempotent_witness :
    ((performLayout sampleProvider
        (performLayout sampleProvider (scenarioKeep AlignLeft))).delegates 4).mode =
      ((performLayout sampleProvider (scenarioKeep AlignLeft)).delegates 4).mode ∧
    ((performLayout sampleProvider (scenarioKeep AlignLeft)).delegates 4).mode
      = DisplayMode.Icon ∧
    ((performLayout sampleProvider
        (performLayout sampleProvider (scenarioKeep AlignLeft))).delegates 4).x =
      ((performLayout sampleProvider (scenarioKeep AlignLeft)).delegates 4).x ∧
    ((performLayout sampleProvider (scenarioKeep AlignLeft)).delegates 4).x = 176 :=
  ⟨(pass_idempotent sampleProvider (scenarioKeep AlignLeft) (sampleMore 40) (by decide!)
      rfl).2.1 4,
    by decide!,
    (pass_idempotent sampleProvider (scenarioKeep AlignLeft) (sampleMore 40) (by decide!)
      rfl).2.2.2.1 4 (by decide) (by decide!),
    by decide!⟩

/-! ## Sequential placement -/

theorem similar_refl (ds : Action → ToolBarLayoutDelegate) : Similar ds ds :=
  fun _ => ⟨rfl, rfl⟩

theorem placeAll_width (sp mh : ℚ) (dir : LayoutDirection) (l : List Action)
    (acc : (Action → ToolBarLayoutDelegate) × ℚ) (b : Action) :
    ((placeAll sp mh dir l acc).1 b).width = (acc.1 b).width :=
  width_congr (placeAll_item sp mh dir l acc b).1 (placeAll_item sp mh dir l acc b).2

theorem placeAll_reverse (sp mh : ℚ) (pre rest : List Action) (a : Action)
    (acc : (Action → ToolBarLayoutDelegate) × ℚ) (hnd : (pre ++ a :: rest).Nodup)
    (hv : (acc.1 a).isVisible = true) :
    ((placeAll sp mh LayoutDirection.RightToLeft (pre ++ a :: rest) acc).1 a).x =
      acc.2 - consumedSum sp acc.1 pre - (acc.1 a).width := by
  have hm := placeAll_mirror 0 sp mh mh (pre ++ a :: rest) (acc.1, -acc.2) acc
    (similar_refl acc.1) (by simp) a (by simp) hv
  rw [hm, placeAll_forward sp mh pre rest a (acc.1, -acc.2) hnd hv, placeAll_width]
  ring

theorem consumedSum_hidden (sp : ℚ) (ds : Action → ToolBarLayoutDelegate) (l : List Action)
    (h : ∀ c ∈ l, (ds c).isVisible = false) : consumedSum sp ds l = 0 := by
  induction l with
  | nil => rfl
  | cons a rest ih =>
    rw [consumedSum_cons, ih (fun c hc => h c (List.mem_cons_of_mem _ hc)),
      consumed_of_not_visible sp _ (by rw [h a (List.mem_cons_self _ _)]; decide)]
    ring

theorem consumedSum_nonneg (sp : ℚ) (ds : Action → ToolBarLayoutDelegate) (l : List Action)
    (hs : 0 ≤ sp) (h : ∀ c, 0 ≤ (ds c).fullWidth ∧ 0 ≤ (ds c).iconWidth) :
    0 ≤ consumedSum sp ds l := by
  induction l with
  | nil => simp [consumedSum]
  | cons a rest ih =>
    rw [consumedSum_cons]
    have := consumed_nonneg sp (ds a) hs (h a).1 (h a).2
    linarith

/-- The position of a visible delegate after the pass proper over distinct delegates:
counted from the start of the layout, in forward direction the widths and spacings of
the visible delegates before it, in reverse direction those and its own width. -/
theorem layoutBody_position (s : Private) (more : QQuickItem) (hnd : s.sortedDelegates.Nodup)
    (pre rest : List Action) (a : Action) (hs : s.sortedDelegates = pre ++ a :: rest)
    (hv : ((layoutBody s more).delegates a).isVisible = true) :
    (s.layoutDirection = LayoutDirection.LeftToRight →
      ((layoutBody s more).delegates a).x =
        layoutStart (passResolved s more).1
          (placeMoreButton (passResolved s more).1 more (passClassified s more).2.2)
          (passResolved s more).2 + consumedSum s.spacing (layoutBody s more).delegates pre) ∧
    (s.layoutDirection = LayoutDirection.RightToLeft →
      ((layoutBody s more).delegates a).x =
        layoutStart (passResolved s more).1
          (placeMoreButton (passResolved s more).1 more (passClassified s more).2.2)
          (passResolved s more).2 - consumedSum s.spacing (layoutBody s more).delegates pre -
          ((layoutBody s more).delegates a).width) := by
  have hfr := passResolved_frame s more
  have hv1 : ((passResolved s more).1.delegates a).isVisible = true := by
    rw [← isVisible_congr (layoutBody_delegates s more a).2]; exact hv
  have hw : ((layoutBody s more).delegates a).width =
      ((passResolved s more).1.delegates a).width :=
    width_congr (layoutBody_delegates s more a).1 (layoutBody_delegates s more a).2
  rw [consumedSum_congr s.spacing (passResolved s more).1.delegates _ pre
    fun b _ => layoutBody_delegates s more b, hw]
  refine ⟨fun hdir => ?_, fun hdir => ?_⟩
  · rw [layoutBody_delegates_eq, frame_layoutDirection hfr, hdir, frame_sortedDelegates hfr, hs,
      placeAll_forward _ _ pre rest a _ (by rw [← hs]; exact hnd) hv1, frame_spacing hfr]
  · rw [layoutBody_delegates_eq, frame_layoutDirection hfr, hdir, frame_sortedDelegates hfr, hs,
      placeAll_reverse _ _ pre rest a _ (by rw [← hs]; exact hnd) hv1, frame_spacing hfr]

theorem layoutBody_nonNegative (s : Private) (more : QQuickItem) (hnn : NonNegative s) (c : Action) :
    0 ≤ ((layoutBody s more).delegates c).fullWidth ∧
      0 ≤ ((layoutBody s more).delegates c).iconWidth := by
  have hi : ((layoutBody s more).delegates c).item = (s.delegates c).item :=
    (layoutBody_delegates s more c).1.trans (frame_item (passResolved_frame s more) c)
  rw [item_fullWidth hi, item_iconWidth hi]
  exact hnn.2 c

/-- C13, the failing instance: with the action 0 listed twice around the action 1 (all
three entries of width 80 fit, spacing 8) the pass leaves the action 0 at its last
position x = 176 and the action 1 at x = 88, so for the consecutive visible entries 0
then 1 the position of 1 is not x(0) + width(0) + spacing = 264. -/
theorem sequential_placement_counterexample :
    passCompletes sampleProvider scenarioRepeated = true ∧
      scenarioRepeated.actions = [0, 1, 0] ∧
      scenarioRepeated.layoutDirection = LayoutDirection.LeftToRight ∧
      ((performLayout sampleProvider scenarioRepeated).delegates 0).mode = DisplayMode.Full ∧
      ((performLayout sampleProvider scenarioRepeated).delegates 1).mode = DisplayMode.Full ∧
      ((performLayout sampleProvider scenarioRepeated).delegates 0).x = 176 ∧
      ((performLayout sampleProvider scenarioRepeated).delegates 0).width = 80 ∧
      ((performLayout sampleProvider scenarioRepeated).delegates 1).x = 88 ∧
      ((performLayout sampleProvider scenarioRepeated).delegates 1).x ≠
        ((performLayout sampleProvider scenarioRepeated).delegates 0).x +
          ((performLayout sampleProvider scenarioRepeated).delegates 0).width +
          scenarioRepeated.spacing := by
  decide!

/-- C13 (sequential placement, amended): for every completed pass over distinct actions
and two visible actions a before b of the list, when no action between them is visible
x(b) = x(a) + width(a) + spacing in forward direction and x(b) + width(b) + spacing = x(a)
in reverse direction; and for non-negative widths and spacing, whatever lies between
them, a ends at least one spacing before b begins in forward direction, and b ends at
least one spacing before a begins in reverse direction, so visible actions keep the list
order and do not overlap. -/
theorem sequential_placement (cd : Action → ToolBarLayoutDelegate) (s : Private)
    (more : QQuickItem) (hc : passCompletes cd s = true)
    (hm : s.moreButtonInstance = some more) (hnd : s.actions.Nodup)
    (pre mid rest : List Action) (a b : Action)
    (hs : s.actions = pre ++ a :: (mid ++ b :: rest))
    (hva : ((performLayout cd s).delegates a).isVisible = true)
    (hvb : ((performLayout cd s).delegates b).isVisible = true) :
    ((∀ c ∈ mid, ((performLayout cd s).delegates c).isVisible = false) →
      (s.layoutDirection = LayoutDirection.LeftToRight →
        ((performLayout cd s).delegates b).x =
          ((performLayout cd s).delegates a).x + ((performLayout cd s).delegates a).width +
            s.spacing) ∧
      (s.layoutDirection = LayoutDirection.RightToLeft →
        ((performLayout cd s).delegates b).x + ((performLayout cd s).delegates b).width +
          s.spacing = ((performLayout cd s).delegates a).x)) ∧
    (NonNegativeInput cd s →
      (s.layoutDirection = LayoutDirection.LeftToRight →
        ((performLayout cd s).delegates a).x + ((performLayout cd s).delegates a).width +
          s.spacing ≤ ((performLayout cd s).delegates b).x) ∧
      (s.layoutDirection = LayoutDirection.RightToLeft →
        ((performLayout cd s).delegates b).x + ((performLayout cd s).delegates b).width +
          s.spacing ≤ ((performLayout cd s).delegates a).x)) := by
  rw [performLayout_of_completes cd s more hc hm] at hva hvb ⊢
  have hsd := beginPass_sortedDelegates cd s
  have hcfg := beginPass_config cd s
  have hnd' : (beginPass cd s).sortedDelegates.Nodup := by rw [hsd]; exact hnd
  have hpa := layoutBody_position (beginPass cd s) more hnd' pre (mid ++ b :: rest) a
    (by rw [hsd]; exact hs) hva
  have hpb := layoutBody_position (beginPass cd s) more hnd' (pre ++ a :: mid) rest b
    (by rw [hsd, hs]; simp) hvb
  rw [hcfg.2.2.2.1, hcfg.1] at hpa hpb
  have hsum : consumedSum s.spacing (layoutBody (beginPass cd s) more).delegates
      (pre ++ a :: mid) =
      consumedSum s.spacing (layoutBody (beginPass cd s) more).delegates pre +
        (((layoutBody (beginPass cd s) more).delegates a).width + s.spacing) +
        consumedSum s.spacing (layoutBody (beginPass cd s) more).delegates mid := by
    rw [consumedSum_append, consumedSum_cons, consumed_of_visible _ _ hva]
    ring
  rw [hsum] at hpb
  refine ⟨fun hmid => ?_, fun hnn => ?_⟩
  · have h0 := consumedSum_hidden s.spacing (layoutBody (beginPass cd s) more).delegates mid hmid
    rw [h0] at hpb
    refine ⟨fun hd => ?_, fun hd => ?_⟩
    · rw [hpb.1 hd, hpa.1 hd]; ring
    · rw [hpb.2 hd, hpa.2 hd]; ring
  · have h0 := consumedSum_nonneg s.spacing (layoutBody (beginPass cd s) more).delegates mid
      hnn.1 (layoutBody_nonNegative _ more (NonNegativeInput.beginPass hnn))
    refine ⟨fun hd => ?_, fun hd => ?_⟩
    · rw [hpb.1 hd, hpa.1 hd]; linarith
    · rw [hpb.2 hd, hpa.2 hd]; linarith

theorem sequential_placement_witness :
    ((performLayout sampleProvider (scenarioKeep AlignLeft)).delegates 4).x =
      ((performLayout sampleProvider (scenarioKeep AlignLeft)).delegates 1).x +
        ((performLayout sampleProvider (scenarioKeep AlignLeft)).delegates 1).width +
        (scenarioKeep AlignLeft).spacing ∧
    ((performLayout sampleProvider (scenarioKeep AlignLeft)).delegates 1).x = 88 :=
  ⟨((sequential_placement sampleProvider (scenarioKeep AlignLeft) (sampleMore 40) (by decide!)
      rfl (by decide) [0] [2, 3] [] 1 4 rfl (by decide!) (by decide!)).1
      (by decide!)).1 rfl, by decide!⟩

/-! ## The block of visible delegates -/

theorem consumed_le_consumedSum (sp : ℚ) (ds : Action → ToolBarLayoutDelegate)
    (l : List Action) (a : Action) (ha : a ∈ l) (hs : 0 ≤ sp)
    (h : ∀ c, 0 ≤ (ds c).fullWidth ∧ 0 ≤ (ds c).iconWidth) :
    consumed sp (ds a) ≤ consumedSum sp ds l := by
  induction l with
  | nil => simp at ha
  | cons p rest ih =>
    rw [consumedSum_cons]
    rcases List.mem_cons.1 ha with e | e
    · rw [e]
      have := consumedSum_nonneg sp ds rest hs h
      linarith
    · have := ih e
      have := consumed_nonneg sp (ds p) hs (h p).1 (h p).2
      linarith

/-- After overflow resolution with a visible delegate the consumed sum of the visible
delegates less one spacing is at most the visible actions width less `e`, which is at
most the available width; here `e` is zero, unless the overflow loop ended with a running
width that is fuzzily zero, where it is one spacing. -/
theorem passResolved_block (s : Private) (more : QQuickItem) (hnn : NonNegative s)
    (a : Action) (ha : a ∈ s.sortedDelegates)
    (hav : ((passResolved s more).1.delegates a).isVisible = true) :
    ∃ e, 0 ≤ e ∧ e ≤ s.spacing ∧
      consumedSum s.spacing (passResolved s more).1.delegates s.sortedDelegates - s.spacing ≤
        (passResolved s more).2 - e ∧
      (passResolved s more).2 - e ≤ layoutWidth s more ∧
      ((s.spacing = 0 ∨ 1 / 1000000000000 < s.spacing) → e = 0) := by
  have hcf := passClassified_frame s more
  have hsd := frame_sortedDelegates hcf
  by_cases hov : (passClassified s more).2.1 - s.spacing > layoutWidth s more
  · have hinv := overflowLoop_fits (layoutWidth s more) s.sortedDelegates []
      ((passClassified s more).1, 0) (hnn.of_frame hcf) (by rw [hsd]; simp)
      ⟨by simp, Or.inr (by simp)⟩
    rw [List.nil_append] at hinv
    obtain ⟨h1, h2⟩ := hinv
    rw [frame_spacing (overflowLoop_frame _ _ _)] at h1 h2
    dsimp only at h1 h2
    rw [frame_spacing hcf] at h1 h2
    rw [passResolved_overflow s more hov] at hav ⊢
    rw [passResolved_overflow_snd s more hov]
    have hnnr : NonNegative (overflowLoop (layoutWidth s more) s.sortedDelegates
        ((passClassified s more).1, 0)).1 :=
      (hnn.of_frame hcf).of_frame (overflowLoop_frame _ _ _)
    have h2' : (overflowLoop (layoutWidth s more) s.sortedDelegates
        ((passClassified s more).1, 0)).2 - s.spacing ≤ layoutWidth s more := by
      rcases h2 with h2 | h2
      · exact h2
      · rw [h2 a ha] at hav
        exact absurd hav Bool.false_ne_true
    by_cases hfz : qFuzzyIsNull (overflowLoop (layoutWidth s more) s.sortedDelegates
        ((passClassified s more).1, 0)).2 = true
    · rw [if_neg (not_not.2 hfz)]
      refine ⟨s.spacing, hnn.1, le_refl _, by linarith, h2', fun hc => ?_⟩
      rcases hc with hc | hc
      · exact hc
      · exfalso
        have hca := consumed_le_consumedSum s.spacing _ s.sortedDelegates a ha hnn.1 hnnr.2
        rw [consumed_of_visible _ _ hav] at hca
        have hwa := width_nonneg _ (hnnr.2 a).1 (hnnr.2 a).2
        unfold qFuzzyIsNull at hfz
        have hle := of_decide_eq_true hfz
        have := le_abs_self (overflowLoop (layoutWidth s more) s.sortedDelegates
          ((passClassified s more).1, 0)).2
        linarith
    · rw [if_pos hfz]
      exact ⟨0, le_refl _, hnn.1, by linarith, by linarith, fun _ => rfl⟩
  · rw [passResolved_fits s more hov]
    dsimp only
    rw [← passClassified_maxWidth]
    exact ⟨0, le_refl _, hnn.1, by linarith, by linarith [not_lt.1 hov], fun _ => rfl⟩

theorem placeAll_forward_bounds (sp mh : ℚ) (l : List Action)
    (acc : (Action → ToolBarLayoutDelegate) × ℚ) (hs : 0 ≤ sp)
    (hnn : ∀ c, 0 ≤ (acc.1 c).fullWidth ∧ 0 ≤ (acc.1 c).iconWidth) (a : Action) (ha : a ∈ l)
    (hv : (acc.1 a).isVisible = true) :
    acc.2 ≤ ((placeAll sp mh LayoutDirection.LeftToRight l acc).1 a).x ∧
      ((placeAll sp mh LayoutDirection.LeftToRight l acc).1 a).x + (acc.1 a).width + sp ≤
        acc.2 + consumedSum sp acc.1 l := by
  induction l generalizing acc with
  | nil => simp at ha
  | cons p rest ih =>
    rw [placeAll, consumedSum_cons]
    have hp := place_forward sp mh acc p
    have hcp := consumed_nonneg sp (acc.1 p) hs (hnn p).1 (hnn p).2
    have hitem := fun c => place_item sp mh LayoutDirection.LeftToRight acc p c
    by_cases har : a ∈ rest
    · have h1 := ih (place sp mh LayoutDirection.LeftToRight acc p)
        (fun c => by rw [item_fullWidth (hitem c).1, item_iconWidth (hitem c).1]; exact hnn c)
        har (by rw [isVisible_congr (hitem a).2]; exact hv)
      rw [hp.1, width_congr (hitem a).1 (hitem a).2,
        consumedSum_congr sp acc.1 _ rest fun c _ => hitem c] at h1
      exact ⟨by linarith, by linarith⟩
    · have hap : a = p := by
        rcases List.mem_cons.1 ha with e | e
        · exact e
        · exact absurd e har
      subst hap
      rw [placeAll_other _ _ _ _ _ _ har, hp.2 hv]
      have := consumedSum_nonneg sp acc.1 rest hs hnn
      rw [consumed_of_visible _ _ hv]
      exact ⟨le_refl _, by linarith⟩

theorem placeAll_reverse_bounds (sp mh : ℚ) (l : List Action)
    (acc : (Action → ToolBarLayoutDelegate) × ℚ) (hs : 0 ≤ sp)
    (hnn : ∀ c, 0 ≤ (acc.1 c).fullWidth ∧ 0 ≤ (acc.1 c).iconWidth) (a : Action) (ha : a ∈ l)
    (hv : (acc.1 a).isVisible = true) :
    ((placeAll sp mh LayoutDirection.RightToLeft l acc).1 a).x + (acc.1 a).width ≤ acc.2 ∧
      acc.2 - consumedSum sp acc.1 l + sp ≤
        ((placeAll sp mh LayoutDirection.RightToLeft l acc).1 a).x := by
  have hm := placeAll_mirror 0 sp mh mh l (acc.1, -acc.2) acc
    (similar_refl acc.1) (by simp) a ha hv
  have hb := placeAll_forward_bounds sp mh l (acc.1, -acc.2) hs hnn a ha hv
  rw [placeAll_width] at hm
  dsimp only at hm hb
  rw [hm]
  exact ⟨by linarith, by linarith⟩

/-! ## Visible delegates stay inside the container -/

theorem layoutWidth_eq (s : Private) (more : QQuickItem) :
    layoutWidth s more =
      s.width - (more.width + s.spacing) -
        (if testFlag s.alignment AlignHCenter = true then more.width + s.spacing else 0) := by
  unfold layoutWidth
  dsimp only
  split_ifs <;> ring

/-- The pass proper keeps every visible delegate inside the container and clear of the
shown indicator. -/
theorem layoutBody_contained (s : Private) (more : QQuickItem) (hnn : NonNegative s)
    (hmw : 0 ≤ more.width)
    (hflag : testFlag s.alignment AlignLeft = true ∨ testFlag s.alignment AlignHCenter = true ∨
      testFlag s.alignment AlignRight = true)
    (hfz : testFlag s.alignment AlignLeft = true ∨ testFlag s.alignment AlignHCenter = true ∨
      s.spacing = 0 ∨ 1 / 1000000000000 < s.spacing)
    (a : Action) (ha : a ∈ s.sortedDelegates)
    (hv : ((layoutBody s more).delegates a).isVisible = true) :
    0 ≤ ((layoutBody s more).delegates a).x ∧
      ((layoutBody s more).delegates a).x + ((layoutBody s more).delegates a).width ≤ s.width ∧
      ((placeMoreButton (passResolved s more).1 more (passClassified s more).2.2).visible
          = true →
        (s.layoutDirection = LayoutDirection.LeftToRight →
          ((layoutBody s more).delegates a).x + ((layoutBody s more).delegates a).width ≤
            s.width - more.width - s.spacing) ∧
        (s.layoutDirection = LayoutDirection.RightToLeft →
          more.width + s.spacing ≤ ((layoutBody s more).delegates a).x)) := by
  have hfr := passResolved_frame s more
  have hv1 : ((passResolved s more).1.delegates a).isVisible = true := by
    rw [← isVisible_congr (layoutBody_delegates s more a).2]; exact hv
  have hw : ((layoutBody s more).delegates a).width =
      ((passResolved s more).1.delegates a).width :=
    width_congr (layoutBody_delegates s more a).1 (layoutBody_delegates s more a).2
  obtain ⟨e, he0, hes, hB, hL, hcond⟩ := passResolved_block s more hnn a ha hv1
  have hnnr : NonNegative (passResolved s more).1 := hnn.of_frame hfr
  have hwa := width_nonneg _ (hnnr.2 a).1 (hnnr.2 a).2
  have hsp := hnn.1
  have hLe := layoutWidth_eq s more
  rw [hw, layoutBody_delegates_eq, frame_spacing hfr, frame_layoutDirection hfr,
    frame_sortedDelegates hfr]
  generalize hx0 : layoutStart (passResolved s more).1
    (placeMoreButton (passResolved s more).1 more (passClassified s more).2.2)
    (passResolved s more).2 = x0
  unfold layoutStart at hx0
  rw [frame_width hfr, frame_alignment hfr, frame_spacing hfr, frame_layoutDirection hfr,
    placeMoreButton_width] at hx0
  dsimp only at hx0
  generalize (placeMoreButton (passResolved s more).1 more
    (passClassified s more).2.2).visible = mv at hx0 ⊢
  generalize (passClassified s more).2.2 = mh
  cases hdir : s.layoutDirection
  · -- forward direction
    rw [hdir] at hx0
    simp only [if_true] at hx0
    have hb := placeAll_forward_bounds s.spacing mh s.sortedDelegates
      ((passResolved s more).1.delegates, x0) hsp hnnr.2 a ha hv1
    dsimp only at hb
    generalize ((placeAll s.spacing mh LayoutDirection.LeftToRight s.sortedDelegates
      ((passResolved s more).1.delegates, x0)).1 a).x = x at hb ⊢
    by_cases h1 : testFlag s.alignment AlignLeft = true
    · rw [if_pos h1] at hx0
      by_cases h2 : testFlag s.alignment AlignHCenter = true
      · rw [if_pos h2] at hLe
        refine ⟨by linarith, by linarith, fun _ => ⟨fun _ => by linarith, fun h => ?_⟩⟩
        exact absurd h (by decide)
      · rw [if_neg h2] at hLe
        refine ⟨by linarith, by linarith, fun _ => ⟨fun _ => by linarith, fun h => ?_⟩⟩
        exact absurd h (by decide)
    rw [if_neg h1] at hx0
    by_cases h2 : testFlag s.alignment AlignHCenter = true
    · rw [if_pos h2] at hx0 hLe
      refine ⟨by linarith, by linarith, fun _ => ⟨fun _ => by linarith, fun h => ?_⟩⟩
      exact absurd h (by decide)
    rw [if_neg h2] at hx0 hLe
    have h3 : testFlag s.alignment AlignRight = true := by
      rcases hflag with h | h | h
      · exact absurd h h1
      · exact absurd h h2
      · exact h
    have he : e = 0 := by
      rcases hfz with h | h | h | h
      · exact absurd h h1
      · exact absurd h h2
      · exact hcond (Or.inl h)
      · exact hcond (Or.inr h)
    rw [if_pos h3] at hx0
    subst he
    cases mv
    · simp only [Bool.false_eq_true, if_false] at hx0
      refine ⟨by linarith, by linarith, fun h => ?_⟩
      exact absurd h (by decide)
    · simp only [if_true] at hx0
      refine ⟨by linarith, by linarith, fun _ => ⟨fun _ => by linarith, fun h => ?_⟩⟩
      exact absurd h (by decide)
  · -- reverse direction
    rw [hdir] at hx0
    simp only [if_neg (show ¬ LayoutDirection.RightToLeft = LayoutDirection.LeftToRight by
      decide)] at hx0
    have hb := placeAll_reverse_bounds s.spacing mh s.sortedDelegates
      ((passResolved s more).1.delegates, x0) hsp hnnr.2 a ha hv1
    dsimp only at hb
    generalize ((placeAll s.spacing mh LayoutDirection.RightToLeft s.sortedDelegates
      ((passResolved s more).1.delegates, x0)).1 a).x = x at hb ⊢
    by_cases h1 : testFlag s.alignment AlignLeft = true
    · rw [if_pos h1] at hx0
      by_cases h2 : testFlag s.alignment AlignHCenter = true
      · rw [if_pos h2] at hLe
        refine ⟨by linarith, by linarith, fun _ => ⟨fun h => ?_, fun _ => by linarith⟩⟩
        exact absurd h (by decide)
      · rw [if_neg h2] at hLe
        refine ⟨by linarith, by linarith, fun _ => ⟨fun h => ?_, fun _ => by linarith⟩⟩
        exact absurd h (by decide)
    rw [if_neg h1] at hx0
    by_cases h2 : testFlag s.alignment AlignHCenter = true
    · rw [if_pos h2] at hx0 hLe
      refine ⟨by linarith, by linarith, fun _ => ⟨fun h => ?_, fun _ => by linarith⟩⟩
      exact absurd h (by decide)
    rw [if_neg h2] at hx0 hLe
    have h3 : testFlag s.alignment AlignRight = true := by
      rcases hflag with h | h | h
      · exact absurd h h1
      · exact absurd h h2
      · exact h
    have he : e = 0 := by
      rcases hfz with h | h | h | h
      · exact absurd h h1
      · exact absurd h h2
      · exact hcond (Or.inl h)
      · exact hcond (Or.inr h)
    rw [if_pos h3] at hx0
    subst he
    cases mv
    · simp only [Bool.false_eq_true, if_false] at hx0
      refine ⟨by linarith, by linarith, fun h => ?_⟩
      exact absurd h (by decide)
    · simp only [if_true] at hx0
      refine ⟨by linarith, by linarith, fun _ => ⟨fun h => ?_, fun _ => by linarith⟩⟩
      exact absurd h (by decide)

/-- C18, the failing instance: right alignment, widths 0 and 100, spacing 10⁻¹², indicator
width 10, W = 10 + 1.5 · 10⁻¹² (all non-negative).  The overflow loop keeps the action 0
and ends with the running width 10⁻¹², which `qFuzzyIsNull` takes for zero, so the
trailing spacing is not removed and the visible action 0 is placed at
x = -5 · 10⁻¹³, left of the container. -/
theorem contained_counterexample :
    passCompletes sampleProvider scenarioRightTiny = true ∧
      0 ≤ scenarioRightTiny.width ∧ 0 ≤ scenarioRightTiny.spacing ∧
      testFlag scenarioRightTiny.alignment AlignRight = true ∧
      scenarioRightTiny.layoutDirection = LayoutDirection.LeftToRight ∧
      ((performLayout sampleProvider scenarioRightTiny).delegates 0).mode = DisplayMode.Full ∧
      ((performLayout sampleProvider scenarioRightTiny).delegates 0).width = 0 ∧
      ((performLayout sampleProvider scenarioRightTiny).delegates 0).x
        = -(1 / 2000000000000) ∧
      ((performLayout sampleProvider scenarioRightTiny).delegates 0).x < 0 ∧
      (performLayout sampleProvider scenarioRightTiny).hiddenActions = [1] ∧
      visibleActionsWidth sampleProvider scenarioRightTiny (sampleMore 10)
        = 1 / 1000000000000 := by
  decide!

/-- C18 (visible actions stay inside the container and clear of the indicator, amended):
for every completed pass with non-negative widths, spacing and indicator width, an
alignment with the Left, HCenter or Right flag and, when the alignment has neither the
Left nor the HCenter flag, a spacing that is zero or larger than 10⁻¹², every visible
action of the list has 0 <= x and x + width <= W; and when the indicator is shown,
x + width <= W - indicatorWidth - spacing in forward direction and
indicatorWidth + spacing <= x in reverse direction. -/
theorem visible_actions_contained (cd : Action → ToolBarLayoutDelegate) (s : Private)
    (more : QQuickItem) (hc : passCompletes cd s = true)
    (hm : s.moreButtonInstance = some more) (hnn : NonNegativeInput cd s)
    (hmw : 0 ≤ more.width)
    (hflag : testFlag s.alignment AlignLeft = true ∨ testFlag s.alignment AlignHCenter = true ∨
      testFlag s.alignment AlignRight = true)
    (hfz : testFlag s.alignment AlignLeft = true ∨ testFlag s.alignment AlignHCenter = true ∨
      s.spacing = 0 ∨ 1 / 1000000000000 < s.spacing)
    (a : Action) (ha : a ∈ s.actions)
    (hv : ((performLayout cd s).delegates a).isVisible = true) :
    0 ≤ ((performLayout cd s).delegates a).x ∧
      ((performLayout cd s).delegates a).x + ((performLayout cd s).delegates a).width
        ≤ s.width ∧
      ∀ m, (performLayout cd s).moreButtonInstance = some m → m.visible = true →
        (s.layoutDirection = LayoutDirection.LeftToRight →
          ((performLayout cd s).delegates a).x + ((performLayout cd s).delegates a).width ≤
            s.width - more.width - s.spacing) ∧
        (s.layoutDirection = LayoutDirection.RightToLeft →
          more.width + s.spacing ≤ ((performLayout cd s).delegates a).x) := by
  rw [performLayout_of_completes cd s more hc hm] at hv ⊢
  have hcfg := beginPass_config cd s
  have h := layoutBody_contained (beginPass cd s) more (NonNegativeInput.beginPass hnn) hmw
    (by rw [hcfg.2.2.1]; exact hflag) (by rw [hcfg.2.2.1, hcfg.1]; exact hfz) a
    (by rw [beginPass_sortedDelegates]; exact ha) hv
  rw [hcfg.1, hcfg.2.1, hcfg.2.2.2.1] at h
  refine ⟨h.1, h.2.1, fun m hmi hmv => ?_⟩
  rw [layoutBody_moreButtonInstance] at hmi
  have hme := Option.some.inj hmi
  rw [← hme] at hmv
  exact h.2.2 hmv

theorem visible_actions_contained_witness :
    0 ≤ ((performLayout sampleProvider (scenarioKeep AlignRight)).delegates 4).x ∧
      ((performLayout sampleProvider (scenarioKeep AlignRight)).delegates 4).x +
        ((performLayout sampleProvider (scenarioKeep AlignRight)).delegates 4).width ≤
          (scenarioKeep AlignRight).width ∧
      ∀ m, (performLayout sampleProvider (scenarioKeep AlignRight)).moreButtonInstance
          = some m → m.visible = true →
        ((scenarioKeep AlignRight).layoutDirection = LayoutDirection.LeftToRight →
          ((performLayout sampleProvider (scenarioKeep AlignRight)).delegates 4).x +
            ((performLayout sampleProvider (scenarioKeep AlignRight)).delegates 4).width ≤
              (scenarioKeep AlignRight).width - (sampleMore 40).width -
                (scenarioKeep AlignRight).spacing) ∧
        ((scenarioKeep AlignRight).layoutDirection = LayoutDirection.RightToLeft →
          (sampleMore 40).width + (scenarioKeep AlignRight).spacing ≤
            ((performLayout sampleProvider (scenarioKeep AlignRight)).delegates 4).x) :=
  visible_actions_contained sampleProvider (scenarioKeep AlignRight) (sampleMore 40)
    (by decide!) rfl
    ⟨by norm_num [scenarioKeep, sampleState], fun a => by
      norm_num [scenarioKeep, sampleState, sampleDelegate, sampleProvider]⟩
    (by decide!) (by decide) (by decide!) 4 (by decide) (by decide!)

/-! ## Uniform widths -/

theorem antitone_below (p : Nat → Bool) (hanti : ∀ i, p (i + 1) = true → p i = true) (n : Nat)
    (hn : p n = true) : ∀ i, i ≤ n → p i = true := by
  induction n with
  | zero =>
    intro i hi
    rw [Nat.le_zero.1 hi]; exact hn
  | succ n ih =>
    intro i hi
    rcases Nat.lt_or_ge i (n + 1) with h | h
    · exact ih (hanti n hn) i (Nat.lt_succ_iff.1 h)
    · rw [Nat.le_antisymm hi h]; exact hn

theorem filter_range_antitone (p : Nat → Bool) (hanti : ∀ i, p (i + 1) = true → p i = true)
    (n : Nat) :
    ((List.range n).filter p).length ≤ n ∧
      (∀ i, i < ((List.range n).filter p).length → p i = true) ∧
      (((List.range n).filter p).length < n → p ((List.range n).filter p).length = false) := by
  induction n with
  | zero => simp
  | succ n ih =>
    obtain ⟨hle, hall, hstop⟩ := ih
    rw [List.range_succ, List.filter_append, List.length_append]
    by_cases hn : p n = true
    · have hk : ((List.range n).filter p).length = n := by
        by_contra hne
        have hlt : ((List.range n).filter p).length < n := lt_of_le_of_ne hle hne
        have h1 := hstop hlt
        rw [antitone_below p hanti n hn _ (le_of_lt hlt)] at h1
        exact Bool.noConfusion h1
      simp only [List.filter_cons, hn, if_true, List.filter_nil, List.length_singleton, hk]
      refine ⟨le_refl _, fun i hi => antitone_below p hanti n hn i (Nat.lt_succ_iff.1 hi), ?_⟩
      intro h
      exact absurd h (lt_irrefl _)
    · have hn' : p n = false := by simpa using hn
      simp only [List.filter_cons, hn', Bool.false_eq_true, if_false, List.filter_nil,
        List.length_nil, Nat.add_zero]
      refine ⟨Nat.le_succ_of_le hle, hall, fun _ => ?_⟩
      rcases Nat.lt_or_ge ((List.range n).filter p).length n with h | h
      · exact hstop h
      · rw [Nat.le_antisymm hle h]; exact hn'

theorem fitCount_spec (w sp tw : ℚ) (hw : 0 < w) (hs : 0 ≤ sp) (n : Nat) :
    fitCount w sp tw n ≤ n ∧
      (∀ i, i < fitCount w sp tw n → (i : ℚ) * (w + sp) + w < tw) ∧
      (fitCount w sp tw n < n → tw ≤ (fitCount w sp tw n : ℚ) * (w + sp) + w) := by
  have h := filter_range_antitone (fun (i : Nat) => decide ((i : ℚ) * (w + sp) + w < tw))
    (fun i hi => by
      have h1 := of_decide_eq_true hi
      push_cast at h1
      exact decide_eq_true (by nlinarith)) n
  unfold fitCount
  refine ⟨h.1, fun i hi => of_decide_eq_true (h.2.1 i hi), fun hlt => ?_⟩
  have h2 := h.2.2 hlt
  exact not_lt.1 (of_decide_eq_false h2)

theorem overflowLoop_all_kept (tw w : ℚ) (l : List Action) (acc : Private × ℚ)
    (hvis : ∀ a ∈ l, (acc.1.delegates a).isVisible = true ∧ (acc.1.delegates a).width = w)
    (hfit : ∀ i, i < l.length → acc.2 + (i : ℚ) * (w + acc.1.spacing) + w < tw) :
    overflowLoop tw l acc = (acc.1, acc.2 + (l.length : ℚ) * (w + acc.1.spacing)) := by
  induction l generalizing acc with
  | nil => simp [overflowLoop]
  | cons a rest ih =>
    obtain ⟨hv, hwa⟩ := hvis a (List.mem_cons_self _ _)
    have h0 := hfit 0 (by simp)
    rw [overflowLoop, overflowStep_keep tw acc a hv (by rw [hwa]; simpa using h0),
      ih (acc.1, acc.2 + ((acc.1.delegates a).width + acc.1.spacing))
        (fun c hc => hvis c (List.mem_cons_of_mem _ hc))]
    · rw [hwa]
      simp only [List.length_cons]
      push_cast
      congr 1
      ring
    · intro i hi
      have := hfit (i + 1) (by simpa using hi)
      push_cast at this
      rw [hwa]
      dsimp only
      linarith

theorem overflowLoop_hide_all (tw : ℚ) (l : List Action) (acc : Private × ℚ) (hnd : l.Nodup)
    (h : ∀ c ∈ l, (acc.1.delegates c).isVisible = true ∧
      ¬ (acc.1.delegates c).keepVisible = true ∧ tw ≤ acc.2 + (acc.1.delegates c).width) :
    (overflowLoop tw l acc).1.hiddenActions = acc.1.hiddenActions ++ l := by
  induction l generalizing acc with
  | nil => simp [overflowLoop]
  | cons a rest ih =>
    obtain ⟨hv, hk, hwd⟩ := h a (List.mem_cons_self _ _)
    have hnd' := List.nodup_cons.1 hnd
    rw [overflowLoop, overflowStep_hide tw acc a hv hk (not_lt.2 hwd), ih _ hnd'.2]
    · simp
    · intro c hc
      have hca : c ≠ a := fun e => hnd'.1 (by rw [← e]; exact hc)
      simp only [appendHidden_delegates, setDelegate_delegates, Function.update_noteq hca]
      exact h c (List.mem_cons_of_mem _ hc)

theorem sum_map_const (l : List Action) (f : Action → ℚ) (w : ℚ) (h : ∀ a ∈ l, f a = w) :
    (l.map f).sum = (l.length : ℚ) * w := by
  induction l with
  | nil => simp
  | cons a rest ih =>
    rw [List.map_cons, List.sum_cons, ih (fun c hc => h c (List.mem_cons_of_mem _ hc)),
      h a (List.mem_cons_self _ _)]
    simp only [List.length_cons]
    push_cast
    ring

/-- Overflow resolution over distinct delegates that are all tentatively Full, not
keepVisible and of one full width `w`, when they do not all fit: the first `fitCount`
delegates stay Full, the others are hidden and make up the hidden list in order. -/
theorem passResolved_uniform (s : Private) (more : QQuickItem) (hnd : s.sortedDelegates.Nodup)
    (hh : s.hiddenActions = []) (w : ℚ) (hw : 0 < w) (hs : 0 ≤ s.spacing)
    (helig : ∀ a ∈ s.sortedDelegates, tentativeMode (s.delegates a) = DisplayMode.Full ∧
      (s.delegates a).keepVisible = false ∧ (s.delegates a).fullWidth = w)
    (hov : (s.sortedDelegates.length : ℚ) * w +
      ((s.sortedDelegates.length : ℚ) - 1) * s.spacing > layoutWidth s more) :
    (∀ a ∈ s.sortedDelegates.take
        (fitCount w s.spacing (layoutWidth s more) s.sortedDelegates.length),
      ((passResolved s more).1.delegates a).mode = DisplayMode.Full) ∧
    (∀ a ∈ s.sortedDelegates.drop
        (fitCount w s.spacing (layoutWidth s more) s.sortedDelegates.length),
      ((passResolved s more).1.delegates a).mode = DisplayMode.Hidden) ∧
    (passResolved s more).1.hiddenActions =
      s.sortedDelegates.drop
        (fitCount w s.spacing (layoutWidth s more) s.sortedDelegates.length) := by
  have hcf := passClassified_frame s more
  have hspc := frame_spacing hcf
  obtain ⟨hkn, hkfit, hkstop⟩ := fitCount_spec w s.spacing (layoutWidth s more) hw hs
    s.sortedDelegates.length
  generalize hk : fitCount w s.spacing (layoutWidth s more) s.sortedDelegates.length = k
    at hkn hkfit hkstop ⊢
  have hcmode : ∀ a ∈ s.sortedDelegates,
      ((passClassified s more).1.delegates a).mode = DisplayMode.Full := fun a ha => by
    rw [passClassified_mode s more a ha]; exact (helig a ha).1
  have hcvis : ∀ a ∈ s.sortedDelegates,
      ((passClassified s more).1.delegates a).isVisible = true := fun a ha =>
    isVisible_of_mode_full _ (hcmode a ha)
  have hcfull : ∀ a ∈ s.sortedDelegates,
      ((passClassified s more).1.delegates a).fullWidth = w := fun a ha => by
    rw [item_fullWidth (frame_item hcf a)]; exact (helig a ha).2.2
  have hcw : ∀ a ∈ s.sortedDelegates,
      ((passClassified s more).1.delegates a).width = w := fun a ha => by
    unfold ToolBarLayoutDelegate.width
    rw [hcmode a ha, if_neg (by decide)]
    exact hcfull a ha
  have hck : ∀ a ∈ s.sortedDelegates,
      ¬ ((passClassified s more).1.delegates a).keepVisible = true := fun a ha => by
    rw [item_keepVisible (frame_item hcf a), (helig a ha).2.1]
    decide
  have hchid : (passClassified s more).1.hiddenActions = [] := by
    unfold passClassified
    rw [classifyAll_hiddenActions_of_full _ _ (fun a ha => (helig a ha).1)]
    exact hh
  have hmax : (passClassified s more).2.1 =
      (s.sortedDelegates.length : ℚ) * w + (s.sortedDelegates.length : ℚ) * s.spacing := by
    rw [passClassified_maxWidth, consumedSum_of_full _ _ _ hcmode,
      sum_map_const _ _ w hcfull]
  have hovc : (passClassified s more).2.1 - s.spacing > layoutWidth s more := by
    rw [hmax]; linarith
  have htake : ∀ a ∈ s.sortedDelegates.take k, a ∈ s.sortedDelegates := fun a ha =>
    List.mem_of_mem_take ha
  have hdrop : ∀ a ∈ s.sortedDelegates.drop k, a ∈ s.sortedDelegates := fun a ha =>
    List.mem_of_mem_drop ha
  have hlen : (s.sortedDelegates.take k).length = k := by
    rw [List.length_take]; exact min_eq_left hkn
  have hA := overflowLoop_all_kept (layoutWidth s more) w (s.sortedDelegates.take k)
    ((passClassified s more).1, 0) (fun a ha => ⟨hcvis a (htake a ha), hcw a (htake a ha)⟩)
    (fun i hi => by
      rw [hlen] at hi
      have := hkfit i hi
      dsimp only
      rw [hspc]
      linarith)
  rw [hlen] at hA
  dsimp only at hA
  have hsplit : overflowLoop (layoutWidth s more) s.sortedDelegates
      ((passClassified s more).1, 0) =
      overflowLoop (layoutWidth s more) (s.sortedDelegates.drop k)
        ((passClassified s more).1, 0 + (k : ℚ) * (w + (passClassified s more).1.spacing)) := by
    calc overflowLoop (layoutWidth s more) s.sortedDelegates ((passClassified s more).1, 0)
        = overflowLoop (layoutWidth s more)
            (s.sortedDelegates.take k ++ s.sortedDelegates.drop k)
            ((passClassified s more).1, 0) := by rw [List.take_append_drop]
      _ = _ := by rw [overflowLoop_append, hA]
  have hB : ∀ c ∈ s.sortedDelegates.drop k,
      ((passClassified s more).1.delegates c).isVisible = true ∧
      ¬ ((passClassified s more).1.delegates c).keepVisible = true ∧
      layoutWidth s more ≤ 0 + (k : ℚ) * (w + (passClassified s more).1.spacing) +
        ((passClassified s more).1.delegates c).width := by
    intro c hc
    have hkl : k < s.sortedDelegates.length := by
      by_contra hge
      rw [List.drop_of_length_le (not_lt.1 hge)] at hc
      simp at hc
    have := hkstop hkl
    refine ⟨hcvis c (hdrop c hc), hck c (hdrop c hc), ?_⟩
    rw [hcw c (hdrop c hc), hspc]
    linarith
  rw [passResolved_overflow s more hovc, hsplit]
  refine ⟨fun a ha => ?_, fun a ha => ?_, ?_⟩
  · have hnot : a ∉ s.sortedDelegates.drop k := fun hd =>
      (List.disjoint_take_drop hnd (le_refl k)) ha hd
    rw [overflowLoop_other _ _ _ a (fun c hc =>
      ⟨fun _ => (hB c hc).2.1, fun e => hnot (by rw [e]; exact hc)⟩)]
    exact hcmode a (htake a ha)
  · rw [← isVisible_eq_false_iff]
    exact overflowLoop_all_hidden _ _ _ (fun c hc _ => ⟨(hB c hc).2.1, (hB c hc).2.2⟩) a ha
  · rw [overflowLoop_hide_all _ _ _ (hnd.sublist (List.drop_sublist _ _)) hB, hchid]
    simp

/-- C15, the failing instance: the action 0 listed twice (width 80, spacing 8, indicator
width 40, W = 200, so L = 152 and 2 * 80 + 8 > L): one index fits, yet the first entry of
the list is not shown Full, the action 0 ends Hidden. -/
theorem uniform_overflow_counterexample :
    passCompletes sampleProvider scenarioTwice = true ∧
      scenarioTwice.actions = [0, 0] ∧
      layoutWidth scenarioTwice (sampleMore 40) = 152 ∧
      fitCount 80 scenarioTwice.spacing (layoutWidth scenarioTwice (sampleMore 40)) 2 = 1 ∧
      scenarioTwice.actions.take 1 = [0] ∧
      tentativeMode ((beginPass sampleProvider scenarioTwice).delegates 0) = DisplayMode.Full ∧
      ((beginPass sampleProvider scenarioTwice).delegates 0).keepVisible = false ∧
      ((performLayout sampleProvider scenarioTwice).delegates 0).mode = DisplayMode.Hidden ∧
      (performLayout sampleProvider scenarioTwice).hiddenActions = [0] := by
  decide!

/-- Uniform-width overflow in exact arithmetic: for every completed pass over a list of n
distinct actions that are all tentatively Full, not keepVisible and of the same full
width w > 0, with spacing s >= 0 and n*w + (n-1)*s > L, the first k actions of the list
are shown Full, the others are hidden, and the hidden-actions list is the list without
its first k actions, in list order, where k is the number of indices i < n with
i*(w + s) + w < L. -/
theorem uniform_overflow (cd : Action → ToolBarLayoutDelegate) (s : Private)
    (more : QQuickItem) (hc : passCompletes cd s = true)
    (hm : s.moreButtonInstance = some more) (hnd : s.actions.Nodup) (w : ℚ) (hw : 0 < w)
    (hs : 0 ≤ s.spacing)
    (helig : ∀ a ∈ s.actions,
      tentativeMode ((beginPass cd s).delegates a) = DisplayMode.Full ∧
        ((beginPass cd s).delegates a).keepVisible = false ∧
        ((beginPass cd s).delegates a).fullWidth = w)
    (hov : (s.actions.length : ℚ) * w + ((s.actions.length : ℚ) - 1) * s.spacing >
      layoutWidth s more) :
    (∀ a ∈ s.actions.take (fitCount w s.spacing (layoutWidth s more) s.actions.length),
      ((performLayout cd s).delegates a).mode = DisplayMode.Full) ∧
    (∀ a ∈ s.actions.drop (fitCount w s.spacing (layoutWidth s more) s.actions.length),
      ((performLayout cd s).delegates a).mode = DisplayMode.Hidden) ∧
    (performLayout cd s).hiddenActions =
      s.actions.drop (fitCount w s.spacing (layoutWidth s more) s.actions.length) := by
  rw [performLayout_of_completes cd s more hc hm]
  have hsd := beginPass_sortedDelegates cd s
  have hcfg := beginPass_config cd s
  have h := passResolved_uniform (beginPass cd s) more (by rw [hsd]; exact hnd)
    (beginPass_hiddenActions cd s) w hw (by rw [hcfg.1]; exact hs)
    (by rw [hsd]; exact helig) (by rw [hsd, hcfg.1, beginPass_layoutWidth]; exact hov)
  rw [hsd, hcfg.1, beginPass_layoutWidth] at h
  refine ⟨fun a ha => ?_, fun a ha => ?_, ?_⟩
  · rw [(layoutBody_delegates _ more a).2]; exact h.1 a ha
  · rw [(layoutBody_delegates _ more a).2]; exact h.2.1 a ha
  · rw [layoutBody_hiddenActions]; exact h.2.2

theorem uniform_overflow_witness :
    ((∀ a ∈ (scenarioPlain 300).actions.take
          (fitCount 80 (scenarioPlain 300).spacing
            (layoutWidth (scenarioPlain 300) (sampleMore 40)) (scenarioPlain 300).actions.length),
        ((performLayout sampleProvider (scenarioPlain 300)).delegates a).mode
          = DisplayMode.Full) ∧
      (∀ a ∈ (scenarioPlain 300).actions.drop
          (fitCount 80 (scenarioPlain 300).spacing
            (layoutWidth (scenarioPlain 300) (sampleMore 40)) (scenarioPlain 300).actions.length),
        ((performLayout sampleProvider (scenarioPlain 300)).delegates a).mode
          = DisplayMode.Hidden) ∧
      (performLayout sampleProvider (scenarioPlain 300)).hiddenActions =
        (scenarioPlain 300).actions.drop
          (fitCount 80 (scenarioPlain 300).spacing
            (layoutWidth (scenarioPlain 300) (sampleMore 40))
            (scenarioPlain 300).actions.length)) ∧
      layoutWidth (scenarioPlain 300) (sampleMore 40) = 252 ∧
      fitCount 80 (scenarioPlain 300).spacing
        (layoutWidth (scenarioPlain 300) (sampleMore 40)) (scenarioPlain 300).actions.length
          = 2 ∧
      (performLayout sampleProvider (scenarioPlain 300)).hiddenActions = [2, 3, 4] ∧
      visibleActionsWidth sampleProvider (scenarioPlain 300) (sampleMore 40) = 168 :=
  ⟨uniform_overflow sampleProvider (scenarioPlain 300) (sampleMore 40) (by decide!) rfl
    (by decide) 80 (by norm_num) (by decide!) (by decide!) (by decide!),
    by decide!, by decide!, by decide!, by decide!⟩

/-! ## The pass in rounded arithmetic -/

theorem classifyAllRounded_id (l : List Action) (acc : Private × ℚ × ℚ) :
    classifyAllRounded id l acc = classifyAll l acc := by
  induction l generalizing acc with
  | nil => rfl
  | cons a rest ih =>
    obtain ⟨s, mw, mh⟩ := acc
    rw [classifyAllRounded, classifyAll, ih]
    rfl

theorem reclaimRounded_id (a : Action) (tw : ℚ) (prev : List Action) (acc : Private × ℚ) :
    reclaimRounded id a tw prev acc = reclaim a tw prev acc := by
  induction prev generalizing acc with
  | nil => rfl
  | cons p prev ih =>
    rw [reclaimRounded, reclaim]
    simp only [ih]
    rfl

theorem maybeHideDelegateRounded_id (s : Private) (a : Action) (cw tw : ℚ) :
    maybeHideDelegateRounded id s a cw tw = maybeHideDelegate s a cw tw := by
  unfold maybeHideDelegateRounded maybeHideDelegate
  simp only [reclaimRounded_id]
  rfl

theorem overflowLoopRounded_id (tw : ℚ) (l : List Action) (acc : Private × ℚ) :
    overflowLoopRounded id tw l acc = overflowLoop tw l acc := by
  induction l generalizing acc with
  | nil => rfl
  | cons a rest ih =>
    rw [overflowLoopRounded, overflowLoop, ih]
    unfold overflowStepRounded overflowStep
    simp only [maybeHideDelegateRounded_id]
    rfl

theorem resolveOverflowRounded_id (s : Private) (mw tw : ℚ) :
    resolveOverflowRounded id s mw tw = resolveOverflow s mw tw := by
  unfold resolveOverflowRounded resolveOverflow
  simp only [overflowLoopRounded_id]
  rfl

theorem placeAllRounded_id (sp mh : ℚ) (dir : LayoutDirection) (l : List Action)
    (acc : (Action → ToolBarLayoutDelegate) × ℚ) :
    placeAllRounded id sp mh dir l acc = placeAll sp mh dir l acc := by
  induction l generalizing acc with
  | nil => rfl
  | cons a rest ih =>
    rw [placeAllRounded, placeAll, ih]
    rfl

theorem layoutBodyRounded_id (s : Private) (more : QQuickItem) :
    layoutBodyRounded id s more = layoutBody s more := by
  unfold layoutBodyRounded layoutBody
  simp only [classifyAllRounded_id, resolveOverflowRounded_id, placeAllRounded_id]
  rfl

/-- With exact arithmetic the rounded pass is the pass. -/
theorem performLayoutRounded_id (cd : Action → ToolBarLayoutDelegate) (s : Private) :
    performLayoutRounded id cd s = performLayout cd s := by
  unfold performLayoutRounded performLayout
  simp only [layoutBodyRounded_id]
  try rfl

/-! ## Everything fits, in rounded arithmetic -/

theorem classify_state (s : Private) (mw mh mw' mh' : ℚ) (a : Action) :
    (classify s mw mh a).1 = (classify s mw' mh' a).1 := by
  unfold classify
  split_ifs <;> rfl

theorem classifyRounded_state (rnd : ℚ → ℚ) (s : Private) (mw mh mw' mh' : ℚ) (a : Action) :
    (classifyRounded rnd s mw mh a).1 = (classify s mw' mh' a).1 := by
  unfold classifyRounded classify
  split_ifs <;> rfl

theorem classifyAll_state (l : List Action) (s : Private) (mw mh mw' mh' : ℚ) :
    (classifyAll l (s, mw, mh)).1 = (classifyAll l (s, mw', mh')).1 := by
  induction l generalizing s mw mh mw' mh' with
  | nil => rfl
  | cons a rest ih =>
    rw [classifyAll, classifyAll]
    have h := classify_state s mw mh mw' mh' a
    generalize classify s mw mh a = c at h ⊢
    generalize classify s mw' mh' a = c' at h ⊢
    obtain ⟨t, x, y⟩ := c
    obtain ⟨t', x', y'⟩ := c'
    simp only at h
    subst h
    exact ih t x y x' y'

theorem classifyAllRounded_state (rnd : ℚ → ℚ) (l : List Action) (s : Private)
    (mw mh mw' mh' : ℚ) :
    (classifyAllRounded rnd l (s, mw, mh)).1 = (classifyAll l (s, mw', mh')).1 := by
  induction l generalizing s mw mh mw' mh' with
  | nil => rfl
  | cons a rest ih =>
    rw [classifyAllRounded, classifyAll]
    have h := classifyRounded_state rnd s mw mh mw' mh' a
    generalize classifyRounded rnd s mw mh a = c at h ⊢
    generalize classify s mw' mh' a = c' at h ⊢
    obtain ⟨t, x, y⟩ := c
    obtain ⟨t', x', y'⟩ := c'
    simp only at h
    subst h
    exact ih t x y x' y'

theorem passClassifiedRounded_state (rnd : ℚ → ℚ) (s : Private) (more : QQuickItem) :
    (passClassifiedRounded rnd s more).1 = (passClassified s more).1 :=
  classifyAllRounded_state rnd _ s _ _ _ _

theorem tentativeMode_full_width {d : ToolBarLayoutDelegate}
    (h : tentativeMode d = DisplayMode.Full) :
    d.actionVisible = true ∧ d.hidden = false ∧ d.iconOnly = false := by
  unfold tentativeMode at h
  by_cases h1 : d.actionVisible = true
  · by_cases h2 : d.hidden = true
    · simp [h1, h2] at h
    · by_cases h3 : d.iconOnly = true
      · simp [h1, h2, h3] at h
      · exact ⟨h1, by simpa using h2, by simpa using h3⟩
  · simp [h1] at h

theorem classifyRounded_full (rnd : ℚ → ℚ) (s : Private) (mw mh : ℚ) (a : Action)
    (h : tentativeMode (s.delegates a) = DisplayMode.Full) :
    (classifyRounded rnd s mw mh a).2.1 =
      rnd (mw + rnd ((s.delegates a).fullWidth + s.spacing)) := by
  obtain ⟨h1, h2, h3⟩ := tentativeMode_full_width h
  unfold classifyRounded
  rw [if_neg (by simp [h1]), if_neg (by simp [h2]), if_neg (by simp [h3])]
  rfl

/-- The width the first loop accumulates over entries that are all tentatively Full. -/
theorem classifyAllRounded_maxWidth (rnd : ℚ → ℚ) (l : List Action) (s : Private)
    (mw mh : ℚ) (h : ∀ a ∈ l, tentativeMode (s.delegates a) = DisplayMode.Full) :
    (classifyAllRounded rnd l (s, mw, mh)).2.1 =
      (l.map fun a => (s.delegates a).fullWidth).foldl
        (fun acc w => rnd (acc + rnd (w + s.spacing))) mw := by
  induction l generalizing s mw mh with
  | nil => rfl
  | cons a rest ih =>
    have ha := h a (List.mem_cons_self _ _)
    have hst := classifyRounded_state rnd s mw mh 0 0 a
    have hmw := classifyRounded_full rnd s mw mh a ha
    have hfr := classify_frame s 0 0 a
    rw [classifyAllRounded]
    generalize classifyRounded rnd s mw mh a = c at hst hmw ⊢
    obtain ⟨t, x, y⟩ := c
    simp only at hst hmw
    subst hst
    rw [ih _ x y (fun c hc => by
      rw [tentativeMode_congr (frame_item hfr c)]
      exact h c (List.mem_cons_of_mem _ hc))]
    rw [frame_spacing hfr, hmw, List.map_cons, List.foldl_cons]
    congr 1
    exact List.map_congr_left fun c _ => item_fullWidth (frame_item hfr c)

theorem placeRounded_item (rnd : ℚ → ℚ) (sp mh : ℚ) (dir : LayoutDirection)
    (acc : (Action → ToolBarLayoutDelegate) × ℚ) (a b : Action) :
    ((placeRounded rnd sp mh dir acc a).1 b).item = (acc.1 b).item ∧
      ((placeRounded rnd sp mh dir acc a).1 b).mode = (acc.1 b).mode := by
  unfold placeRounded
  dsimp only
  have hm : ∀ x y : ℚ, (Function.update acc.1 a ((acc.1 a).setPosition x y) b).mode =
      (acc.1 b).mode := by
    intro x y
    by_cases hb : b = a
    · subst hb; simp [ToolBarLayoutDelegate.setPosition]
    · simp [Function.update_noteq hb]
  have hi : ∀ x y : ℚ, (Function.update acc.1 a ((acc.1 a).setPosition x y) b).item =
      (acc.1 b).item := fun x y => item_update acc.1 a _ (item_setPosition _ x y) b
  split_ifs
  · exact ⟨hi _ _, hm _ _⟩
  · exact ⟨hi _ _, hm _ _⟩
  · exact ⟨rfl, rfl⟩

theorem placeAllRounded_item (rnd : ℚ → ℚ) (sp mh : ℚ) (dir : LayoutDirection) (l : List Action)
    (acc : (Action → ToolBarLayoutDelegate) × ℚ) (b : Action) :
    ((placeAllRounded rnd sp mh dir l acc).1 b).item = (acc.1 b).item ∧
      ((placeAllRounded rnd sp mh dir l acc).1 b).mode = (acc.1 b).mode := by
  induction l generalizing acc with
  | nil => exact ⟨rfl, rfl⟩
  | cons a rest ih =>
    rw [placeAllRounded]
    have h1 := ih (placeRounded rnd sp mh dir acc a)
    have h2 := placeRounded_item rnd sp mh dir acc a b
    exact ⟨h1.1.trans h2.1, h1.2.trans h2.2⟩

theorem layoutBodyRounded_delegates (rnd : ℚ → ℚ) (s : Private) (more : QQuickItem)
    (a : Action) :
    ((layoutBodyRounded rnd s more).delegates a).item =
        ((passResolvedRounded rnd s more).1.delegates a).item ∧
      ((layoutBodyRounded rnd s more).delegates a).mode =
        ((passResolvedRounded rnd s more).1.delegates a).mode :=
  placeAllRounded_item _ _ _ _ _ _ a

theorem layoutBodyRounded_hiddenActions (rnd : ℚ → ℚ) (s : Private) (more : QQuickItem) :
    (layoutBodyRounded rnd s more).hiddenActions =
      (passResolvedRounded rnd s more).1.hiddenActions := rfl

theorem layoutBodyRounded_moreButtonInstance (rnd : ℚ → ℚ) (s : Private)
    (more : QQuickItem) :
    (layoutBodyRounded rnd s more).moreButtonInstance =
      some (placeMoreButtonRounded rnd (passResolvedRounded rnd s more).1 more
        (passClassifiedRounded rnd s more).2.2) := rfl

theorem frame_layoutWidthRounded (rnd : ℚ → ℚ) {s t : Private} (h : t.frame = s.frame)
    (more : QQuickItem) : layoutWidthRounded rnd t more = layoutWidthRounded rnd s more := by
  unfold layoutWidthRounded
  rw [frame_width h, frame_spacing h, frame_alignment h]

theorem performLayoutRounded_of_completes (rnd : ℚ → ℚ) (cd : Action → ToolBarLayoutDelegate)
    (s : Private) (more : QQuickItem) (hc : passCompletes cd s = true)
    (hm : s.moreButtonInstance = some more) :
    performLayoutRounded rnd cd s = layoutBodyRounded rnd (beginPass cd s) more := by
  unfold passCompletes at hc
  simp only [Bool.and_eq_true, Bool.not_eq_true', List.isEmpty_eq_false] at hc
  obtain ⟨⟨⟨⟨⟨h1, h2⟩, h3⟩, h4⟩, -⟩, h6⟩ := hc
  have hm1 : (beginPass cd s).moreButtonInstance = some more := by
    rw [beginPass_moreButtonInstance, hm]
  unfold performLayoutRounded
  rw [if_neg, if_neg]
  · dsimp only
    rw [hm1]
    dsimp only
    rw [if_neg]
    simpa using h6
  · simpa using h4
  · rw [Option.isSome_iff_ne_none] at h1 h2 h3
    simp [h1, h2, h3]

theorem passResolvedRounded_maxWidth (rnd : ℚ → ℚ) (s : Private) (more : QQuickItem)
    (helig : ∀ a ∈ s.sortedDelegates, tentativeMode (s.delegates a) = DisplayMode.Full) :
    rnd ((passClassifiedRounded rnd s more).2.1 - (passClassifiedRounded rnd s more).1.spacing) =
      accumulatedWidth rnd s.spacing (s.sortedDelegates.map fun a => (s.delegates a).fullWidth) := by
  rw [passClassifiedRounded_state, frame_spacing (passClassified_frame s more)]
  unfold passClassifiedRounded accumulatedWidth
  rw [classifyAllRounded_maxWidth rnd _ s _ _ helig]

theorem foldl_add_exact (sp : ℚ) (ws : List ℚ) (c : ℚ) :
    ws.foldl (fun acc w => id (acc + id (w + sp))) c = c + ws.sum + (ws.length : ℚ) * sp := by
  induction ws generalizing c with
  | nil => simp
  | cons w rest ih =>
    rw [List.foldl_cons, ih, List.sum_cons, List.length_cons]
    simp only [id]
    push_cast
    ring

theorem accumulatedWidth_id (sp : ℚ) (ws : List ℚ) :
    accumulatedWidth id sp ws = ws.sum + ((ws.length : ℚ) - 1) * sp := by
  unfold accumulatedWidth
  rw [foldl_add_exact]
  simp only [id]
  ring

theorem layoutWidthRounded_id (s : Private) (more : QQuickItem) :
    layoutWidthRounded id s more = layoutWidth s more := rfl

/-- The pass proper in rounded arithmetic: when every entry is tentatively Full and the
accumulated width is at most the available width as computed, nothing changes after the
first loop. -/
theorem layoutBodyRounded_everything_fits (rnd : ℚ → ℚ) (s : Private) (more : QQuickItem)
    (helig : ∀ a ∈ s.sortedDelegates, tentativeMode (s.delegates a) = DisplayMode.Full)
    (hfit : accumulatedWidth rnd s.spacing
        (s.sortedDelegates.map fun a => (s.delegates a).fullWidth) ≤
      layoutWidthRounded rnd s more) :
    (∀ a ∈ s.sortedDelegates,
        ((layoutBodyRounded rnd s more).delegates a).mode = DisplayMode.Full) ∧
      (layoutBodyRounded rnd s more).hiddenActions = s.hiddenActions ∧
      (passResolvedRounded rnd s more).2 =
        accumulatedWidth rnd s.spacing
          (s.sortedDelegates.map fun a => (s.delegates a).fullWidth) := by
  have hcs := passClassifiedRounded_state rnd s more
  have hres : passResolvedRounded rnd s more =
      ((passClassified s more).1,
        accumulatedWidth rnd s.spacing
          (s.sortedDelegates.map fun a => (s.delegates a).fullWidth)) := by
    unfold passResolvedRounded
    rw [passResolvedRounded_maxWidth rnd s more helig, hcs,
      frame_layoutWidthRounded rnd (passClassified_frame s more)]
    unfold resolveOverflowRounded
    rw [if_neg (not_lt.2 hfit)]
  refine ⟨fun a ha => ?_, ?_, ?_⟩
  · rw [(layoutBodyRounded_delegates rnd s more a).2, hres, passClassified_mode s more a ha]
    exact helig a ha
  · rw [layoutBodyRounded_hiddenActions, hres]
    exact classifyAll_hiddenActions_of_full _ _ helig
  · rw [hres]

/-- C5, the failing instance: two eligible actions of width 10.4, spacing 8.2, indicator
width 40, W = 77.2, all values `double`s.  On these values sumWidth = 10.4 + 8.2 + 10.4
is exactly 29 and L is 29 as the code computes it (a little more exactly), so
sumWidth <= L; but the first loop accumulates maxWidth = 29.000000000000004 in `double`
arithmetic, the overflow branch is taken, action 1 is hidden and the indicator is shown. -/
theorem everything_fits_counterexample :
    passCompletes sampleProvider scenarioExactFit = true ∧
      roundToDouble scenarioExactFit.spacing = scenarioExactFit.spacing ∧
      roundToDouble scenarioExactFit.width = scenarioExactFit.width ∧
      (∀ a ∈ scenarioExactFit.actions,
        tentativeMode ((beginPass sampleProvider scenarioExactFit).delegates a)
            = DisplayMode.Full ∧
          roundToDouble ((beginPass sampleProvider scenarioExactFit).delegates a).fullWidth =
            ((beginPass sampleProvider scenarioExactFit).delegates a).fullWidth) ∧
      (scenarioExactFit.actions.map fun a =>
          ((beginPass sampleProvider scenarioExactFit).delegates a).fullWidth).sum +
        ((scenarioExactFit.actions.length : ℚ) - 1) * scenarioExactFit.spacing = 29 ∧
      layoutWidthRounded roundToDouble scenarioExactFit (sampleMore 40) = 29 ∧
      (29 : ℚ) ≤ layoutWidth scenarioExactFit (sampleMore 40) ∧
      accumulatedWidth roundToDouble scenarioExactFit.spacing
          (scenarioExactFit.actions.map fun a =>
            ((beginPass sampleProvider scenarioExactFit).delegates a).fullWidth)
        = 8162774324609025 / 281474976710656 ∧
      ((performLayoutRounded roundToDouble sampleProvider scenarioExactFit).delegates 0).mode
        = DisplayMode.Full ∧
      ((performLayoutRounded roundToDouble sampleProvider scenarioExactFit).delegates 1).mode
        = DisplayMode.Hidden ∧
      (performLayoutRounded roundToDouble sampleProvider scenarioExactFit).hiddenActions = [1] ∧
      (performLayoutRounded roundToDouble sampleProvider scenarioExactFit).moreButtonInstance
        = some { width := 40, height := 20, x := 2617717283409101 / 70368744177664,
                 y := 0, visible := true } := by
  decide!

/-- C5 (everything fits, amended): in a completed pass, in whatever arithmetic `rnd` the
widths are added, when every action is tentatively Full and the width the first loop
accumulates (`maxWidth += width + spacing` per action, then `maxWidth -= spacing`) is at
most the available width as computed, each action stays Full, the hidden-actions list is
empty, the indicator is not shown and the visible actions width is that accumulated
width.  In exact arithmetic the rounded pass is the pass, and the accumulated width is
`sumWidth = (sum of full widths) + (N - 1) * spacing`. -/
theorem everything_fits_rounded (rnd : ℚ → ℚ) (cd : Action → ToolBarLayoutDelegate)
    (s : Private) (more : QQuickItem) (hc : passCompletes cd s = true)
    (hm : s.moreButtonInstance = some more)
    (helig : ∀ a ∈ s.actions,
      tentativeMode ((beginPass cd s).delegates a) = DisplayMode.Full)
    (hfit : accumulatedWidth rnd s.spacing
        (s.actions.map fun a => ((beginPass cd s).delegates a).fullWidth) ≤
      layoutWidthRounded rnd s more) :
    (∀ a ∈ s.actions,
        ((performLayoutRounded rnd cd s).delegates a).mode = DisplayMode.Full) ∧
      (performLayoutRounded rnd cd s).hiddenActions = [] ∧
      (∃ m, (performLayoutRounded rnd cd s).moreButtonInstance = some m ∧ m.visible = false) ∧
      visibleActionsWidthRounded rnd cd s more =
        accumulatedWidth rnd s.spacing
          (s.actions.map fun a => ((beginPass cd s).delegates a).fullWidth) ∧
      performLayoutRounded id cd s = performLayout cd s ∧
      layoutWidthRounded id s more = layoutWidth s more ∧
      accumulatedWidth id s.spacing
          (s.actions.map fun a => ((beginPass cd s).delegates a).fullWidth) =
        (s.actions.map fun a => ((beginPass cd s).delegates a).fullWidth).sum +
          ((s.actions.length : ℚ) - 1) * s.spacing := by
  have hsd := beginPass_sortedDelegates cd s
  have hcfg := beginPass_config cd s
  have hlw : layoutWidthRounded rnd (beginPass cd s) more = layoutWidthRounded rnd s more := by
    unfold layoutWidthRounded
    rw [hcfg.1, hcfg.2.1, hcfg.2.2.1]
  have h := layoutBodyRounded_everything_fits rnd (beginPass cd s) more
    (by rw [hsd]; exact helig) (by rw [hsd, hcfg.1, hlw]; exact hfit)
  rw [hsd, hcfg.1, beginPass_hiddenActions] at h
  rw [performLayoutRounded_of_completes rnd cd s more hc hm]
  refine ⟨h.1, h.2.1, ?_, h.2.2, performLayoutRounded_id cd s, rfl, ?_⟩
  · refine ⟨_, layoutBodyRounded_moreButtonInstance rnd _ more, ?_⟩
    have hh : (passResolvedRounded rnd (beginPass cd s) more).1.hiddenActions = [] := h.2.1
    unfold placeMoreButtonRounded
    rw [if_neg (by rw [hh]; simp)]
  · rw [accumulatedWidth_id, List.length_map]

theorem everything_fits_rounded_witness :
    (∀ a ∈ (scenarioPlain 500).actions,
        ((performLayoutRounded roundToDouble sampleProvider (scenarioPlain 500)).delegates
          a).mode = DisplayMode.Full) ∧
      (performLayoutRounded roundToDouble sampleProvider (scenarioPlain 500)).hiddenActions
        = [] ∧
      (∃ m, (performLayoutRounded roundToDouble sampleProvider
          (scenarioPlain 500)).moreButtonInstance = some m ∧ m.visible = false) ∧
      visibleActionsWidthRounded roundToDouble sampleProvider (scenarioPlain 500) (sampleMore 40)
        = accumulatedWidth roundToDouble (scenarioPlain 500).spacing
          ((scenarioPlain 500).actions.map fun a =>
            ((beginPass sampleProvider (scenarioPlain 500)).delegates a).fullWidth) ∧
      performLayoutRounded id sampleProvider (scenarioPlain 500) =
        performLayout sampleProvider (scenarioPlain 500) ∧
      layoutWidthRounded id (scenarioPlain 500) (sampleMore 40) =
        layoutWidth (scenarioPlain 500) (sampleMore 40) ∧
      accumulatedWidth id (scenarioPlain 500).spacing
          ((scenarioPlain 500).actions.map fun a =>
            ((beginPass sampleProvider (scenarioPlain 500)).delegates a).fullWidth) =
        ((scenarioPlain 500).actions.map fun a =>
            ((beginPass sampleProvider (scenarioPlain 500)).delegates a).fullWidth).sum +
          (((scenarioPlain 500).actions.length : ℚ) - 1) * (scenarioPlain 500).spacing :=
  everything_fits_rounded roundToDouble sampleProvider (scenarioPlain 500) (sampleMore 40)
    (by decide!) rfl (by decide!) (by decide!)

/-- In the witness scenario (five actions of width 80, spacing 8, W = 500) the accumulated
width is 432 and the available width 452, in `double` arithmetic as in exact arithmetic. -/
theorem everything_fits_rounded_scenario :
    accumulatedWidth roundToDouble (scenarioPlain 500).spacing
        ((scenarioPlain 500).actions.map fun a =>
          ((beginPass sampleProvider (scenarioPlain 500)).delegates a).fullWidth) = 432 ∧
      layoutWidthRounded roundToDouble (scenarioPlain 500) (sampleMore 40) = 452 ∧
      visibleActionsWidthRounded roundToDouble sampleProvider (scenarioPlain 500)
        (sampleMore 40) = 432 := by
  decide!

/-! ## Uniform widths, in rounded arithmetic -/

theorem overflowStepRounded_keep (rnd : ℚ → ℚ) (tw : ℚ) (acc : Private × ℚ) (a : Action)
    (hv : (acc.1.delegates a).isVisible = true)
    (hfit : rnd (acc.2 + (acc.1.delegates a).width) < tw) :
    overflowStepRounded rnd tw acc a =
      (acc.1, rnd (acc.2 + rnd ((acc.1.delegates a).width + acc.1.spacing))) := by
  unfold overflowStepRounded maybeHideDelegateRounded
  rw [if_pos (Or.inr hfit)]
  dsimp only
  rw [if_pos hv]

theorem overflowStepRounded_hide (rnd : ℚ → ℚ) (tw : ℚ) (acc : Private × ℚ) (a : Action)
    (hv : (acc.1.delegates a).isVisible = true)
    (hk : ¬ (acc.1.delegates a).keepVisible = true)
    (hfit : ¬ rnd (acc.2 + (acc.1.delegates a).width) < tw) :
    overflowStepRounded rnd tw acc a =
      ((acc.1.setDelegate a (acc.1.delegates a).hide).appendHidden a, acc.2) := by
  unfold overflowStepRounded maybeHideDelegateRounded
  have h1 : ¬ (¬ (acc.1.delegates a).isVisible = true ∨
      rnd (acc.2 + (acc.1.delegates a).width) < tw) :=
    fun h => h.elim (fun h => h hv) hfit
  rw [if_neg h1, if_neg hk]
  dsimp only
  rw [if_neg]
  simp

/-- The overflow loop in rounded arithmetic over distinct visible delegates that are not
keepVisible and do not fit at the running width: all are hidden and recorded in order,
nothing else changes. -/
theorem overflowLoopRounded_hide_all (rnd : ℚ → ℚ) (tw : ℚ) (l : List Action)
    (acc : Private × ℚ) (hnd : l.Nodup)
    (h : ∀ c ∈ l, (acc.1.delegates c).isVisible = true ∧
      ¬ (acc.1.delegates c).keepVisible = true ∧
      ¬ rnd (acc.2 + (acc.1.delegates c).width) < tw) :
    (overflowLoopRounded rnd tw l acc).1.hiddenActions = acc.1.hiddenActions ++ l ∧
      (∀ c ∈ l, ((overflowLoopRounded rnd tw l acc).1.delegates c).mode = DisplayMode.Hidden) ∧
      (∀ b, b ∉ l → (overflowLoopRounded rnd tw l acc).1.delegates b = acc.1.delegates b) := by
  induction l generalizing acc with
  | nil => exact ⟨by simp [overflowLoopRounded], fun c hc => by simp at hc, fun b _ => rfl⟩
  | cons a rest ih =>
    obtain ⟨hv, hk, hwd⟩ := h a (List.mem_cons_self _ _)
    have hnd' := List.nodup_cons.1 hnd
    rw [overflowLoopRounded, overflowStepRounded_hide rnd tw acc a hv hk hwd]
    have hrest : ∀ c ∈ rest, c ≠ a := fun c hc e => hnd'.1 (by rw [← e]; exact hc)
    obtain ⟨i1, i2, i3⟩ := ih ((acc.1.setDelegate a (acc.1.delegates a).hide).appendHidden a, acc.2)
      hnd'.2 (fun c hc => by
        simp only [appendHidden_delegates, setDelegate_delegates,
          Function.update_noteq (hrest c hc)]
        exact h c (List.mem_cons_of_mem _ hc))
    refine ⟨by rw [i1]; simp, fun c hc => ?_, fun b hb => ?_⟩
    · rcases List.mem_cons.1 hc with e | e
      · rw [e, i3 a hnd'.1]
        simp [ToolBarLayoutDelegate.hide]
      · exact i2 c e
    · have hba : b ≠ a := fun e => hb (by rw [e]; exact List.mem_cons_self _ _)
      rw [i3 b (fun hbr => hb (List.mem_cons_of_mem _ hbr))]
      simp only [appendHidden_delegates, setDelegate_delegates, Function.update_noteq hba]

/-- The overflow loop in rounded arithmetic over distinct visible delegates of one width
`w` that are not keepVisible: the first `keptRun` delegates are left as they are, the
others are hidden and recorded in order, nothing else changes. -/
theorem overflowLoopRounded_uniform (rnd : ℚ → ℚ) (tw w : ℚ) (l : List Action)
    (acc : Private × ℚ) (hnd : l.Nodup)
    (h : ∀ c ∈ l, (acc.1.delegates c).isVisible = true ∧
      ¬ (acc.1.delegates c).keepVisible = true ∧ (acc.1.delegates c).width = w) :
    (overflowLoopRounded rnd tw l acc).1.hiddenActions =
        acc.1.hiddenActions ++ l.drop (keptRun rnd w acc.1.spacing tw l.length acc.2) ∧
      (∀ c ∈ l.drop (keptRun rnd w acc.1.spacing tw l.length acc.2),
        ((overflowLoopRounded rnd tw l acc).1.delegates c).mode = DisplayMode.Hidden) ∧
      (∀ b, b ∉ l.drop (keptRun rnd w acc.1.spacing tw l.length acc.2) →
        (overflowLoopRounded rnd tw l acc).1.delegates b = acc.1.delegates b) := by
  induction l generalizing acc with
  | nil => exact ⟨by simp [overflowLoopRounded], fun c hc => by simp at hc, fun b _ => rfl⟩
  | cons a rest ih =>
    obtain ⟨hv, hk, hwa⟩ := h a (List.mem_cons_self _ _)
    have hnd' := List.nodup_cons.1 hnd
    by_cases hfit : rnd (acc.2 + w) < tw
    · have hkr : keptRun rnd w acc.1.spacing tw (a :: rest).length acc.2 =
          keptRun rnd w acc.1.spacing tw rest.length (rnd (acc.2 + rnd (w + acc.1.spacing))) + 1 := by
        simp only [List.length_cons, keptRun, if_pos hfit]
      rw [hkr, List.drop_succ_cons, overflowLoopRounded,
        overflowStepRounded_keep rnd tw acc a hv (by rw [hwa]; exact hfit), hwa]
      exact ih (acc.1, rnd (acc.2 + rnd (w + acc.1.spacing))) hnd'.2
        (fun c hc => h c (List.mem_cons_of_mem _ hc))
    · have hkr : keptRun rnd w acc.1.spacing tw (a :: rest).length acc.2 = 0 := by
        simp only [List.length_cons, keptRun, if_neg hfit]
      rw [hkr, List.drop_zero]
      exact overflowLoopRounded_hide_all rnd tw (a :: rest) acc hnd (fun c hc =>
        ⟨(h c hc).1, (h c hc).2.1, by rw [(h c hc).2.2]; exact hfit⟩)

theorem passResolvedRounded_overflow (rnd : ℚ → ℚ) (s : Private) (more : QQuickItem)
    (h : rnd ((passClassifiedRounded rnd s more).2.1 - s.spacing) > layoutWidthRounded rnd s more) :
    (passResolvedRounded rnd s more).1 =
      (overflowLoopRounded rnd (layoutWidthRounded rnd s more) s.sortedDelegates
        ((passClassified s more).1, 0)).1 := by
  have hcf := passClassified_frame s more
  unfold passResolvedRounded resolveOverflowRounded
  rw [passClassifiedRounded_state, frame_spacing hcf, frame_layoutWidthRounded rnd hcf more,
    frame_sortedDelegates hcf, if_pos h]
  dsimp only
  split_ifs <;> rfl

/-- Overflow resolution in rounded arithmetic over distinct delegates that are all
tentatively Full, not keepVisible and of one full width `w`, when the accumulated width
exceeds the available width: the first `keptRun` delegates stay Full, the others are
hidden and make up the hidden list in order. -/
theorem passResolvedRounded_uniform (rnd : ℚ → ℚ) (s : Private) (more : QQuickItem)
    (hnd : s.sortedDelegates.Nodup) (hh : s.hiddenActions = []) (w : ℚ)
    (helig : ∀ a ∈ s.sortedDelegates, tentativeMode (s.delegates a) = DisplayMode.Full ∧
      (s.delegates a).keepVisible = false ∧ (s.delegates a).fullWidth = w)
    (hov : accumulatedWidth rnd s.spacing
        (s.sortedDelegates.map fun a => (s.delegates a).fullWidth) >
      layoutWidthRounded rnd s more) :
    (∀ a ∈ s.sortedDelegates.take
        (keptRun rnd w s.spacing (layoutWidthRounded rnd s more) s.sortedDelegates.length 0),
      ((passResolvedRounded rnd s more).1.delegates a).mode = DisplayMode.Full) ∧
    (∀ a ∈ s.sortedDelegates.drop
        (keptRun rnd w s.spacing (layoutWidthRounded rnd s more) s.sortedDelegates.length 0),
      ((passResolvedRounded rnd s more).1.delegates a).mode = DisplayMode.Hidden) ∧
    (passResolvedRounded rnd s more).1.hiddenActions =
      s.sortedDelegates.drop
        (keptRun rnd w s.spacing (layoutWidthRounded rnd s more) s.sortedDelegates.length 0) := by
  have hcf := passClassified_frame s more
  have hspc := frame_spacing hcf
  have hcmode : ∀ a ∈ s.sortedDelegates,
      ((passClassified s more).1.delegates a).mode = DisplayMode.Full := fun a ha => by
    rw [passClassified_mode s more a ha]; exact (helig a ha).1
  have hB : ∀ c ∈ s.sortedDelegates,
      ((passClassified s more).1.delegates c).isVisible = true ∧
      ¬ ((passClassified s more).1.delegates c).keepVisible = true ∧
      ((passClassified s more).1.delegates c).width = w := fun c hc => by
    refine ⟨isVisible_of_mode_full _ (hcmode c hc), ?_, ?_⟩
    · rw [item_keepVisible (frame_item hcf c), (helig c hc).2.1]
      decide
    · unfold ToolBarLayoutDelegate.width
      rw [hcmode c hc, if_neg (by decide), item_fullWidth (frame_item hcf c)]
      exact (helig c hc).2.2
  have hchid : (passClassified s more).1.hiddenActions = [] := by
    unfold passClassified
    rw [classifyAll_hiddenActions_of_full _ _ (fun a ha => (helig a ha).1)]
    exact hh
  have hovc : rnd ((passClassifiedRounded rnd s more).2.1 - s.spacing) >
      layoutWidthRounded rnd s more := by
    have := passResolvedRounded_maxWidth rnd s more (fun a ha => (helig a ha).1)
    rw [passClassifiedRounded_state, hspc] at this
    rw [this]
    exact hov
  have hu := overflowLoopRounded_uniform rnd (layoutWidthRounded rnd s more) w s.sortedDelegates
    ((passClassified s more).1, 0) hnd hB
  dsimp only at hu
  rw [hspc, hchid] at hu
  rw [passResolvedRounded_overflow rnd s more hovc]
  refine ⟨fun a ha => ?_, hu.2.1, by rw [hu.1]; simp⟩
  have hnot : a ∉ s.sortedDelegates.drop
      (keptRun rnd w s.spacing (layoutWidthRounded rnd s more) s.sortedDelegates.length 0) :=
    fun hd => (List.disjoint_take_drop hnd (le_refl _)) ha hd
  rw [hu.2.2 a hnot]
  exact hcmode a (List.mem_of_mem_take ha)

/-- In exact arithmetic the run of kept entries from the running width `j * (w + spacing)`
is characterised by the claim's test at the indices `j, j + 1, ...`. -/
theorem keptRun_id_spec (w sp tw : ℚ) (n j : Nat) :
    keptRun id w sp tw n ((j : ℚ) * (w + sp)) ≤ n ∧
      (∀ i, i < keptRun id w sp tw n ((j : ℚ) * (w + sp)) →
        ((j + i : Nat) : ℚ) * (w + sp) + w < tw) ∧
      (keptRun id w sp tw n ((j : ℚ) * (w + sp)) < n →
        tw ≤ ((j + keptRun id w sp tw n ((j : ℚ) * (w + sp)) : Nat) : ℚ) * (w + sp) + w) := by
  induction n generalizing j with
  | zero => simp [keptRun]
  | succ n ih =>
    by_cases hfit : (j : ℚ) * (w + sp) + w < tw
    · have hcw : id ((j : ℚ) * (w + sp) + id (w + sp)) = ((j + 1 : Nat) : ℚ) * (w + sp) := by
        simp only [id]
        push_cast
        ring
      have hkr : keptRun id w sp tw (n + 1) ((j : ℚ) * (w + sp)) =
          keptRun id w sp tw n (((j + 1 : Nat) : ℚ) * (w + sp)) + 1 := by
        rw [keptRun, if_pos (by simpa using hfit), hcw]
      obtain ⟨h1, h2, h3⟩ := ih (j + 1)
      rw [hkr]
      refine ⟨Nat.succ_le_succ h1, fun i hi => ?_, fun hlt => ?_⟩
      · cases i with
        | zero => simpa using hfit
        | succ i =>
          have := h2 i (Nat.lt_of_succ_lt_succ hi)
          rw [show j + (i + 1) = j + 1 + i by omega]
          exact this
      · have := h3 (Nat.lt_of_succ_lt_succ hlt)
        rw [show j + (keptRun id w sp tw n (((j + 1 : Nat) : ℚ) * (w + sp)) + 1) =
          j + 1 + keptRun id w sp tw n (((j + 1 : Nat) : ℚ) * (w + sp)) by omega]
        exact this
    · have hkr : keptRun id w sp tw (n + 1) ((j : ℚ) * (w + sp)) = 0 := by
        rw [keptRun, if_neg (by simpa using hfit)]
      rw [hkr]
      refine ⟨Nat.zero_le _, fun i hi => absurd hi (Nat.not_lt_zero _), fun _ => ?_⟩
      simpa using not_lt.1 hfit

/-- In exact arithmetic, for `w > 0` and `spacing >= 0`, the run of kept entries is the
number of indices `i < n` with `i * (w + spacing) + w < totalWidth`. -/
theorem keptRun_id (w sp tw : ℚ) (hw : 0 < w) (hs : 0 ≤ sp) (n : Nat) :
    keptRun id w sp tw n 0 = fitCount w sp tw n := by
  obtain ⟨a1, a2, a3⟩ := keptRun_id_spec w sp tw n 0
  obtain ⟨b1, b2, b3⟩ := fitCount_spec w sp tw hw hs n
  simp only [Nat.cast_zero, zero_mul, Nat.zero_add] at a1 a2 a3
  rcases Nat.lt_trichotomy (keptRun id w sp tw n 0) (fitCount w sp tw n) with h | h | h
  · have h1 := a3 (lt_of_lt_of_le h b1)
    have h2 := b2 _ h
    linarith
  · exact h
  · have h1 := b3 (lt_of_lt_of_le h a1)
    have h2 := a2 _ h
    linarith

/-- The rounding example of C15: six distinct eligible actions of width 29.1, spacing
7.7, indicator width 24, W = 134.4, all values `double`s, not keepVisible, and
6 * w + 5 * s > L.  On these values three indices satisfy i * (w + s) + w < L with
L = W - (indicatorWidth + s), but in `double` arithmetic the test
`currentWidth + width < totalWidth` fails at the third action: the code keeps two actions
and hides four. -/
theorem uniform_overflow_rounding_example :
    passCompletes sampleProvider scenarioBoundary = true ∧
      roundToDouble scenarioBoundary.spacing = scenarioBoundary.spacing ∧
      roundToDouble scenarioBoundary.width = scenarioBoundary.width ∧
      (∀ a ∈ scenarioBoundary.actions,
        tentativeMode ((beginPass sampleProvider scenarioBoundary).delegates a)
            = DisplayMode.Full ∧
          ((beginPass sampleProvider scenarioBoundary).delegates a).keepVisible = false ∧
          ((beginPass sampleProvider scenarioBoundary).delegates a).fullWidth
            = asDouble (291 / 10)) ∧
      (6 : ℚ) * asDouble (291 / 10) + (6 - 1) * scenarioBoundary.spacing >
        layoutWidth scenarioBoundary (sampleMore 24) ∧
      fitCount (asDouble (291 / 10)) scenarioBoundary.spacing
        (layoutWidth scenarioBoundary (sampleMore 24)) 6 = 3 ∧
      keptRun roundToDouble (asDouble (291 / 10)) scenarioBoundary.spacing
        (layoutWidthRounded roundToDouble scenarioBoundary (sampleMore 24)) 6 0 = 2 ∧
      ((performLayoutRounded roundToDouble sampleProvider scenarioBoundary).delegates 1).mode
        = DisplayMode.Full ∧
      ((performLayoutRounded roundToDouble sampleProvider scenarioBoundary).delegates 2).mode
        = DisplayMode.Hidden ∧
      (performLayoutRounded roundToDouble sampleProvider scenarioBoundary).hiddenActions
        = [2, 3, 4, 5] := by
  decide!

/-- C15 (uniform-width overflow, amended): for every completed pass over a list of n
distinct actions that are all tentatively Full, not keepVisible and of the same full
width w, in whatever arithmetic `rnd` the widths are added, when the width the first loop
accumulates exceeds the available width as computed, the first k actions of the list are
shown Full, the others are hidden, and the hidden-actions list is the list without its
first k actions, in list order; k is the number of leading actions for which the code's
test `currentWidth + w < L` passes, the running width growing by `w + spacing` per kept
action.  In exact arithmetic the rounded pass is the pass, the accumulated width is
n*w + (n-1)*s, and for w > 0 and s >= 0 the number k is the number of indices i < n with
i*(w + s) + w < L. -/
theorem uniform_overflow_rounded (rnd : ℚ → ℚ) (cd : Action → ToolBarLayoutDelegate)
    (s : Private) (more : QQuickItem) (hc : passCompletes cd s = true)
    (hm : s.moreButtonInstance = some more) (hnd : s.actions.Nodup) (w : ℚ)
    (helig : ∀ a ∈ s.actions,
      tentativeMode ((beginPass cd s).delegates a) = DisplayMode.Full ∧
        ((beginPass cd s).delegates a).keepVisible = false ∧
        ((beginPass cd s).delegates a).fullWidth = w)
    (hov : accumulatedWidth rnd s.spacing
        (s.actions.map fun a => ((beginPass cd s).delegates a).fullWidth) >
      layoutWidthRounded rnd s more) :
    (∀ a ∈ s.actions.take
        (keptRun rnd w s.spacing (layoutWidthRounded rnd s more) s.actions.length 0),
      ((performLayoutRounded rnd cd s).delegates a).mode = DisplayMode.Full) ∧
    (∀ a ∈ s.actions.drop
        (keptRun rnd w s.spacing (layoutWidthRounded rnd s more) s.actions.length 0),
      ((performLayoutRounded rnd cd s).delegates a).mode = DisplayMode.Hidden) ∧
    (performLayoutRounded rnd cd s).hiddenActions =
      s.actions.drop
        (keptRun rnd w s.spacing (layoutWidthRounded rnd s more) s.actions.length 0) ∧
    performLayoutRounded id cd s = performLayout cd s ∧
    layoutWidthRounded id s more = layoutWidth s more ∧
    accumulatedWidth id s.spacing
        (s.actions.map fun a => ((beginPass cd s).delegates a).fullWidth) =
      (s.actions.length : ℚ) * w + ((s.actions.length : ℚ) - 1) * s.spacing ∧
    (0 < w → 0 ≤ s.spacing →
      keptRun id w s.spacing (layoutWidth s more) s.actions.length 0 =
        fitCount w s.spacing (layoutWidth s more) s.actions.length) := by
  have hsd := beginPass_sortedDelegates cd s
  have hcfg := beginPass_config cd s
  have hlw : layoutWidthRounded rnd (beginPass cd s) more = layoutWidthRounded rnd s more := by
    unfold layoutWidthRounded
    rw [hcfg.1, hcfg.2.1, hcfg.2.2.1]
  have h := passResolvedRounded_uniform rnd (beginPass cd s) more (by rw [hsd]; exact hnd)
    (beginPass_hiddenActions cd s) w (by rw [hsd]; exact helig)
    (by rw [hsd, hcfg.1, hlw]; exact hov)
  rw [hsd, hcfg.1, hlw] at h
  rw [performLayoutRounded_of_completes rnd cd s more hc hm]
  refine ⟨fun a ha => ?_, fun a ha => ?_, ?_, performLayoutRounded_id cd s, rfl, ?_,
    fun hw hs => keptRun_id w s.spacing (layoutWidth s more) hw hs s.actions.length⟩
  · rw [(layoutBodyRounded_delegates rnd _ more a).2]; exact h.1 a ha
  · rw [(layoutBodyRounded_delegates rnd _ more a).2]; exact h.2.1 a ha
  · rw [layoutBodyRounded_hiddenActions]; exact h.2.2
  · rw [accumulatedWidth_id, List.length_map,
      sum_map_const s.actions _ w (fun a ha => (helig a ha).2.2)]

theorem uniform_overflow_rounded_witness :
    ((∀ a ∈ (scenarioPlain 300).actions.take
          (keptRun roundToDouble 80 (scenarioPlain 300).spacing
            (layoutWidthRounded roundToDouble (scenarioPlain 300) (sampleMore 40))
            (scenarioPlain 300).actions.length 0),
        ((performLayoutRounded roundToDouble sampleProvider (scenarioPlain 300)).delegates
          a).mode = DisplayMode.Full) ∧
      (∀ a ∈ (scenarioPlain 300).actions.drop
          (keptRun roundToDouble 80 (scenarioPlain 300).spacing
            (layoutWidthRounded roundToDouble (scenarioPlain 300) (sampleMore 40))
            (scenarioPlain 300).actions.length 0),
        ((performLayoutRounded roundToDouble sampleProvider (scenarioPlain 300)).delegates
          a).mode = DisplayMode.Hidden) ∧
      (performLayoutRounded roundToDouble sampleProvider (scenarioPlain 300)).hiddenActions =
        (scenarioPlain 300).actions.drop
          (keptRun roundToDouble 80 (scenarioPlain 300).spacing
            (layoutWidthRounded roundToDouble (scenarioPlain 300) (sampleMore 40))
            (scenarioPlain 300).actions.length 0)) ∧
      layoutWidthRounded roundToDouble (scenarioPlain 300) (sampleMore 40) = 252 ∧
      keptRun roundToDouble 80 (scenarioPlain 300).spacing
        (layoutWidthRounded roundToDouble (scenarioPlain 300) (sampleMore 40))
        (scenarioPlain 300).actions.length 0 = 2 ∧
      (performLayoutRounded roundToDouble sampleProvider (scenarioPlain 300)).hiddenActions
        = [2, 3, 4] ∧
      visibleActionsWidthRounded roundToDouble sampleProvider (scenarioPlain 300)
        (sampleMore 40) = 168 :=
  ⟨⟨(uniform_overflow_rounded roundToDouble sampleProvider (scenarioPlain 300) (sampleMore 40)
      (by decide!) rfl (by decide) 80 (by decide!) (by decide!)).1,
    (uniform_overflow_rounded roundToDouble sampleProvider (scenarioPlain 300) (sampleMore 40)
      (by decide!) rfl (by decide) 80 (by decide!) (by decide!)).2.1,
    (uniform_overflow_rounded roundToDouble sampleProvider (scenarioPlain 300) (sampleMore 40)
      (by decide!) rfl (by decide) 80 (by decide!) (by decide!)).2.2.1⟩,
    by decide!, by decide!, by decide!, by decide!⟩

/-! ## An alignment without a horizontal flag -/

end ToolBarLayout
